import Mathlib

/-! ZenCache: the LRU store, the replication manager, the pub/sub broker and the
command dispatcher.

A shallow embedding of `lru/lru.go`, `repl/repl.go`, `pubsub/pubsub.go`,
`rdb/rdb.go` and `server/server.go`, followed by the properties proved of it.

Conventions of the embedding.

* A Go `map[string]T` is an association list with at most one pair per key
  (`mapGet`, `mapPut`, `mapDel`); the order of the list carries no meaning
  except where the source ranges over the map, in which case the list order
  stands for the order in which the range visits the pairs.
* A `*list.Element` is an element identifier (`Element.id`), allocated from
  the counter `Cache.nextId`; the `container/list` is the list of its elements
  from front to back. A `*Subscriber` is an index into `PubSub.subs`.
* Go `int` values are `Int`; the only arithmetic on them is comparison with a
  list length, so no overflow can occur.
* Go strings are Lean strings, that is, texts in valid UTF-8. The functions of
  the Go library that the server calls (`strings.TrimSpace`, `strings.Split`,
  `strings.Join`, `strings.ToUpper`, `strconv.Atoi`) are written out; the case
  table of the characters above ASCII is the parameter `tbl`.
* A panic of the Go runtime (closing a closed channel, sending on one) is the
  result `none`.
* What the operating system answers (file and network errors) is an input of
  the operation that asks for it; see `Env`.
* Locks are not modelled: every operation is atomic, as the lock boundary of
  the source makes it. Tasks started by an operation (the writes of
  `PropagateCommand`, the delivery task of `SUBSCRIBE`) are recorded as the
  effects they will have, not run.
-/

set_option autoImplicit false

/-! ## Go maps with string keys -/

/-- The lookup `m[k]` with its `ok` flag. -/
def mapGet {β : Type} : List (String × β) → String → Option β
  | [], _ => none
  | (k', b) :: m, k => if k' = k then some b else mapGet m k

/-- The statement `delete(m, k)`. -/
def mapDel {β : Type} (m : List (String × β)) (k : String) : List (String × β) :=
  m.filter (fun p => decide (p.1 ≠ k))

/-- The assignment `m[k] = b`. -/
def mapPut {β : Type} (m : List (String × β)) (k : String) (b : β) : List (String × β) :=
  (k, b) :: mapDel m k

/-- The keys of a map. -/
def mapKeys {β : Type} (m : List (String × β)) : List String :=
  m.map Prod.fst

/-! ## lru/lru.go -/

/-- A `list.Element` holding an `*entry`: its identity, key and value. -/
structure Element where
  id : Nat
  key : String
  value : String
deriving DecidableEq, Repr

/-- The struct `Cache` (without its lock). -/
structure Cache where
  capacity : Int
  items : List (String × Nat)
  order : List Element
  nextId : Nat
deriving DecidableEq, Repr

/-- The element of a list with a given identity, if it is in the list. -/
def findElem (id : Nat) (l : List Element) : Option Element :=
  l.find? (fun e => decide (e.id = id))

/-- The call `l.Remove(elem)`: a no-op when the element is not in the list. -/
def listRemove (id : Nat) (l : List Element) : List Element :=
  l.filter (fun e => decide (e.id ≠ id))

/-- The call `l.MoveToFront(elem)`: a no-op when the element is not in the list. -/
def listMoveToFront (id : Nat) (l : List Element) : List Element :=
  match findElem id l with
  | some e => e :: listRemove id l
  | none => l

/-- The assignment `elem.Value.(*entry).value = value`. -/
def listSetValue (id : Nat) (value : String) (l : List Element) : List Element :=
  l.map (fun e => if e.id = id then { e with value := value } else e)

/-- The read `elem.Value.(*entry).value`. Every element that `items` refers to
is in `order` (see `Linked`), so the default is never returned. -/
def elemValue (id : Nat) (l : List Element) : String :=
  match findElem id l with
  | some e => e.value
  | none => ""

/-- The function `NewCache`. -/
def NewCache (capacity : Int) : Cache :=
  { capacity := capacity, items := [], order := [], nextId := 0 }

/-- The method `Cache.Set`: the new state, the evicted key and the eviction flag. -/
def Cache.Set (c : Cache) (key value : String) : Cache × String × Bool :=
  match mapGet c.items key with
  | some id =>
    ({ c with order := listSetValue id value (listMoveToFront id c.order) }, "", false)
  | none =>
    let r : Cache × String × Bool :=
      if (c.order.length : Int) ≥ c.capacity then
        match c.order.getLast? with
        | some oldest =>
          ({ c with order := listRemove oldest.id c.order,
                    items := mapDel c.items oldest.key }, oldest.key, true)
        | none => (c, "", false)
      else (c, "", false)
    let c1 := r.1
    ({ c1 with order := { id := c1.nextId, key := key, value := value } :: c1.order,
               items := mapPut c1.items key c1.nextId,
               nextId := c1.nextId + 1 }, r.2.1, r.2.2)

/-- The method `Cache.Get`: the new state, the value and the `found` flag. -/
def Cache.Get (c : Cache) (key : String) : Cache × String × Bool :=
  match mapGet c.items key with
  | some id => ({ c with order := listMoveToFront id c.order }, elemValue id c.order, true)
  | none => (c, "", false)

/-- The method `Cache.Del`: the new state and whether a key was removed. -/
def Cache.Del (c : Cache) (key : String) : Cache × Bool :=
  match mapGet c.items key with
  | some id => ({ c with order := listRemove id c.order, items := mapDel c.items key }, true)
  | none => (c, false)

/-- The method `Cache.Len`. -/
def Cache.Len (c : Cache) : Int :=
  (c.order.length : Int)

/-- The method `Cache.Keys`: the keys from most to least recently used. -/
def Cache.Keys (c : Cache) : List String :=
  c.order.map Element.key

/-- The method `Cache.GetAllData`. -/
def Cache.GetAllData (c : Cache) : List (String × String) :=
  c.items.map (fun p => (p.1, elemValue p.2 c.order))

/-- The method `Cache.LoadData`; `data` lists the pairs of the map in the order
in which the `range` loop visits them. -/
def Cache.LoadData (c : Cache) : List (String × String) → Cache
  | [] => c
  | (key, value) :: rest =>
    if (c.order.length : Int) ≥ c.capacity then c
    else
      Cache.LoadData
        { c with order := c.order ++ [{ id := c.nextId, key := key, value := value }],
                 items := mapPut c.items key c.nextId,
                 nextId := c.nextId + 1 } rest

/-- A call of `Set`, `Get` or `Del`. -/
inductive Op where
  | Set (key value : String)
  | Get (key : String)
  | Del (key : String)
deriving DecidableEq, Repr

/-- A call of `Set`, `Get`, `Del` or `LoadData`. -/
inductive Call where
  | op (o : Op)
  | LoadData (data : List (String × String))
deriving DecidableEq, Repr

/-- The state after one call of `Set`, `Get` or `Del`. -/
def Cache.step (c : Cache) : Op → Cache
  | Op.Set k v => (c.Set k v).1
  | Op.Get k => (c.Get k).1
  | Op.Del k => (c.Del k).1

/-- The state after a sequence of `Set`, `Get` and `Del` calls. -/
def Cache.run (c : Cache) (ops : List Op) : Cache :=
  ops.foldl Cache.step c

/-- The state after one call of `Set`, `Get`, `Del` or `LoadData`. -/
def Cache.call (c : Cache) : Call → Cache
  | Call.op o => c.step o
  | Call.LoadData data => c.LoadData data

/-- The state after a sequence of `Set`, `Get`, `Del` and `LoadData` calls. -/
def Cache.calls (c : Cache) (cs : List Call) : Cache :=
  cs.foldl Cache.call c

/-! ## repl/repl.go -/

/-- A `net.Conn`, known by its identity. -/
abbrev Conn := Nat

/-- The struct `ReplicationManager` (without its lock). -/
structure ReplicationManager where
  role : String
  replicas : List Conn
  masterConn : Option Conn
deriving DecidableEq, Repr

/-- The function `NewReplicationManager`. -/
def NewReplicationManager : ReplicationManager :=
  { role := "master", replicas := [], masterConn := none }

/-- The method `ReplicationManager.Role`. -/
def ReplicationManager.Role (r : ReplicationManager) : String :=
  r.role

/-- The method `ReplicationManager.IsMaster`. -/
def ReplicationManager.IsMaster (r : ReplicationManager) : Bool :=
  decide (r.Role = "master")

/-- The method `ReplicationManager.AddReplica`. -/
def ReplicationManager.AddReplica (r : ReplicationManager) (conn : Conn) : ReplicationManager :=
  { r with replicas := r.replicas ++ [conn] }

/-- The method `ReplicationManager.RemoveReplica`: the first occurrence of the
connection is cut out of the slice. -/
def ReplicationManager.RemoveReplica (r : ReplicationManager) (conn : Conn) :
    ReplicationManager :=
  { r with replicas := r.replicas.erase conn }

/-- The method `ReplicationManager.PropagateCommand`: the writes it starts, one
per replica connection, each of the command followed by a newline. -/
def ReplicationManager.PropagateCommand (r : ReplicationManager) (cmd : String) :
    List (Conn × String) :=
  r.replicas.map (fun c => (c, cmd ++ "\n"))

/-- The method `ReplicationManager.ReplicaCount`. -/
def ReplicationManager.ReplicaCount (r : ReplicationManager) : Nat :=
  r.replicas.length

/-- The method `ReplicationManager.ConnectToMaster`, given the result `dial` of
`net.DialTimeout`: the new state, the error returned, and the handshake write.
The receive task it starts is `Server.ApplyCommand` run on each line read. -/
def ReplicationManager.ConnectToMaster (r : ReplicationManager) (dial : Except String Conn) :
    ReplicationManager × Option String × List (Conn × String) :=
  let r1 := { r with role := "replica" }
  match dial with
  | Except.error err => (r1, some err, [])
  | Except.ok conn =>
    ({ r1 with masterConn := some conn }, none, [(conn, "REPLCONF listening-port\n")])

/-! ## pubsub/pubsub.go -/

/-- A Go `chan string` with a buffer: the buffered messages, oldest first, and
whether the channel has been closed. -/
structure Chan where
  buf : List String
  closed : Bool
deriving DecidableEq, Repr

/-- The struct `Subscriber`. -/
structure Subscriber where
  ID : String
  Messages : Chan
deriving DecidableEq, Repr

/-- The struct `PubSub` (without its lock). A `*Subscriber` is an index into
`subs`, the list of every `Subscriber` allocated so far. -/
structure PubSub where
  channels : List (String × List (String × Nat))
  subs : List Subscriber
deriving DecidableEq, Repr

/-- The buffer size given to `make(chan string, 100)`. -/
def queueDepth : Nat := 100

/-- The function `NewPubSub`. -/
def NewPubSub : PubSub :=
  { channels := [], subs := [] }

/-- The method `PubSub.Subscribe`: the new state and the subscriber returned. -/
def PubSub.Subscribe (ps : PubSub) (channel subscriberID : String) : PubSub × Nat :=
  let inner : List (String × Nat) :=
    match mapGet ps.channels channel with
    | some subs => subs
    | none => []
  let sub : Subscriber := { ID := subscriberID, Messages := { buf := [], closed := false } }
  ({ channels := mapPut ps.channels channel (mapPut inner subscriberID ps.subs.length),
     subs := ps.subs ++ [sub] }, ps.subs.length)

/-- The statement `close(sub.Messages)`; `none` is the panic of closing a closed
channel (or of a nil subscriber). -/
def closeMessages (heap : List Subscriber) (p : Nat) : Option (List Subscriber) :=
  match heap[p]? with
  | some sub =>
    if sub.Messages.closed then none
    else some (heap.set p { sub with Messages := { sub.Messages with closed := true } })
  | none => none

/-- The block shared by `Unsubscribe` and `UnsubscribeAll`: when the subscriber
is recorded in `subs`, close its queue and delete the record. -/
def dropSubscriber (heap : List Subscriber) (subs : List (String × Nat))
    (subscriberID : String) : Option (List Subscriber × List (String × Nat)) :=
  match mapGet subs subscriberID with
  | some p =>
    match closeMessages heap p with
    | some heap1 => some (heap1, mapDel subs subscriberID)
    | none => none
  | none => some (heap, subs)

/-- The method `PubSub.Unsubscribe`; `none` is a panic. -/
def PubSub.Unsubscribe (ps : PubSub) (channel subscriberID : String) : Option PubSub :=
  match mapGet ps.channels channel with
  | some subs =>
    match dropSubscriber ps.subs subs subscriberID with
    | some (heap1, subs1) =>
      if subs1.length = 0 then
        some { channels := mapDel ps.channels channel, subs := heap1 }
      else
        some { channels := mapPut ps.channels channel subs1, subs := heap1 }
    | none => none
  | none => some ps

/-- The loop of `PubSub.UnsubscribeAll` over the channel map. -/
def unsubscribeAllLoop (subscriberID : String) :
    List (String × List (String × Nat)) → List Subscriber →
      Option (List (String × List (String × Nat)) × List Subscriber)
  | [], heap => some ([], heap)
  | (channel, subs) :: rest, heap =>
    match dropSubscriber heap subs subscriberID with
    | some (heap1, subs1) =>
      match unsubscribeAllLoop subscriberID rest heap1 with
      | some (rest1, heap2) =>
        if subs1.length = 0 then some (rest1, heap2)
        else some ((channel, subs1) :: rest1, heap2)
      | none => none
    | none => none

/-- The method `PubSub.UnsubscribeAll`; `none` is a panic. -/
def PubSub.UnsubscribeAll (ps : PubSub) (subscriberID : String) : Option PubSub :=
  match unsubscribeAllLoop subscriberID ps.channels ps.subs with
  | some (channels1, heap1) => some { channels := channels1, subs := heap1 }
  | none => none

/-- The loop of `PubSub.Publish` over the subscribers of the channel: a
non-blocking send to each queue; `none` is the panic of sending on a closed
channel. -/
def publishLoop (message : String) :
    List (String × Nat) → List Subscriber → Nat → Option (List Subscriber × Nat)
  | [], heap, count => some (heap, count)
  | (_, p) :: rest, heap, count =>
    match heap[p]? with
    | some sub =>
      if sub.Messages.closed then none
      else if sub.Messages.buf.length < queueDepth then
        publishLoop message rest
          (heap.set p { sub with Messages := { sub.Messages with
            buf := sub.Messages.buf ++ [message] } }) (count + 1)
      else publishLoop message rest heap count
    | none => none

/-- The method `PubSub.Publish`: the new state and the count; `none` is a panic. -/
def PubSub.Publish (ps : PubSub) (channel message : String) : Option (PubSub × Nat) :=
  match mapGet ps.channels channel with
  | none => some (ps, 0)
  | some subs =>
    match publishLoop message subs ps.subs 0 with
    | some (heap1, count) => some ({ ps with subs := heap1 }, count)
    | none => none

/-- The method `PubSub.SubscriberCount`. -/
def PubSub.SubscriberCount (ps : PubSub) (channel : String) : Nat :=
  match mapGet ps.channels channel with
  | some subs => subs.length
  | none => 0

/-! ## rdb/rdb.go -/

/-- What the snapshot file holds: nothing (no file), bytes that do not decode,
or the encoding of a mapping. -/
inductive FileContent where
  | missing
  | corrupt
  | snapshot (data : List (String × String))
deriving DecidableEq, Repr

/-- The struct `RDB` (without its lock), together with the content of the file
at `filepath`. -/
structure RDB where
  filepath : String
  file : FileContent
deriving DecidableEq, Repr

/-- The method `RDB.Save`, given the errors returned by `os.Create` and by
`Encode` (`none` for success): the new state and the error returned. A failed
`Encode` leaves a truncated file behind. -/
def RDB.Save (r : RDB) (createErr encodeErr : Option String) (data : List (String × String)) :
    RDB × Option String :=
  match createErr with
  | some err => (r, some err)
  | none =>
    match encodeErr with
    | some err => ({ r with file := FileContent.corrupt }, some err)
    | none => ({ r with file := FileContent.snapshot data }, none)

/-- The method `RDB.Load`, given the error returned by `os.Open` when the file
exists (`none` for success). -/
def RDB.Load (r : RDB) (openErr : Option String) : Except String (List (String × String)) :=
  match openErr with
  | some err => Except.error err
  | none =>
    match r.file with
    | FileContent.missing => Except.error "open: no such file or directory"
    | FileContent.corrupt => Except.error "gob: decode failed"
    | FileContent.snapshot data => Except.ok data

/-! ## The string functions of the Go library used by the server -/

/-- The predicate `unicode.IsSpace`. -/
def isSpace (c : Char) : Bool :=
  decide (c.toNat = 9 ∨ c.toNat = 10 ∨ c.toNat = 11 ∨ c.toNat = 12 ∨ c.toNat = 13 ∨
    c.toNat = 32 ∨ c.toNat = 0x85 ∨ c.toNat = 0xA0 ∨ c.toNat = 0x1680 ∨
    (0x2000 ≤ c.toNat ∧ c.toNat ≤ 0x200A) ∨ c.toNat = 0x2028 ∨ c.toNat = 0x2029 ∨
    c.toNat = 0x202F ∨ c.toNat = 0x205F ∨ c.toNat = 0x3000)

/-- The function `strings.TrimSpace`. -/
def TrimSpace (s : String) : String :=
  ⟨(s.data.dropWhile isSpace).rdropWhile isSpace⟩

/-- The parts of a text cut at every occurrence of the separator. -/
def splitChars (sep : Char) : List Char → List (List Char)
  | [] => [[]]
  | c :: cs =>
    if c = sep then [] :: splitChars sep cs
    else
      match splitChars sep cs with
      | p :: ps => (c :: p) :: ps
      | [] => [[c]]

/-- The function `strings.Split` for a separator of one character. -/
def Split (s : String) (sep : Char) : List String :=
  (splitChars sep s.data).map String.mk

/-- The function `strings.Join`. -/
def Join : List String → String → String
  | [], _ => ""
  | [p], _ => p
  | p :: q :: ps, sep => p ++ sep ++ Join (q :: ps) sep

/-- The function `unicode.ToUpper`; `tbl` is the case table of the Unicode
characters above ASCII. -/
def upperRune (tbl : Char → Char) (c : Char) : Char :=
  if c.toNat < 128 then
    if 97 ≤ c.toNat ∧ c.toNat ≤ 122 then Char.ofNat (c.toNat - 32) else c
  else tbl c

/-- The function `strings.ToUpper`. -/
def ToUpper (tbl : Char → Char) (s : String) : String :=
  ⟨s.data.map (upperRune tbl)⟩

/-- The value of a string of decimal digits, if it is one. -/
def parseDigits : List Char → Nat → Option Nat
  | [], n => some n
  | c :: cs, n =>
    if 48 ≤ c.toNat ∧ c.toNat ≤ 57 then parseDigits cs (n * 10 + (c.toNat - 48)) else none

/-- The function `strconv.Atoi` for a 64-bit `int`; `none` is an error. -/
def Atoi (s : String) : Option Int :=
  let body : List Char :=
    match s.data with
    | '+' :: cs => cs
    | '-' :: cs => cs
    | cs => cs
  let neg : Bool :=
    match s.data with
    | '-' :: _ => true
    | _ => false
  if body.length = 0 then none
  else
    match parseDigits body 0 with
    | some n =>
      let v : Int := if neg then - (n : Int) else (n : Int)
      if - (2 : Int) ^ 63 ≤ v ∧ v < (2 : Int) ^ 63 then some v else none
    | none => none

/-! ## server/server.go -/

/-- The struct `Server`. -/
structure Server where
  port : Int
  cache : Cache
  pubsub : PubSub
  rdb : RDB
  repl : ReplicationManager
  clientID : Nat
deriving DecidableEq, Repr

/-- The function `NewServerWithCapacity`; `file` is what the snapshot file holds
when the process starts. -/
def NewServerWithCapacity (port : Int) (capacity : Int) (file : FileContent) : Server :=
  { port := port, cache := NewCache capacity, pubsub := NewPubSub,
    rdb := { filepath := "zencache.rdb", file := file },
    repl := NewReplicationManager, clientID := 0 }

/-- The function `NewServer`. -/
def NewServer (port : Int) (file : FileContent) : Server :=
  NewServerWithCapacity port 10000 file

/-- The restore step of `Server.Start`; `data` is the loaded mapping in the
order in which `LoadData` ranges over it. -/
def Server.restore (s : Server) (openErr : Option String) : Server :=
  match s.rdb.Load openErr with
  | Except.ok data => { s with cache := s.cache.LoadData data }
  | Except.error _ => s

/-- The method `Server.ApplyCommand`. -/
def Server.ApplyCommand (tbl : Char → Char) (s : Server) (cmd : String) : Server :=
  let parts := Split cmd ' '
  if parts.length < 1 then s
  else
    let command := ToUpper tbl (parts.getD 0 "")
    if command = "SET" then
      if parts.length ≥ 3 then
        { s with cache := (s.cache.Set (parts.getD 1 "") (Join (parts.drop 2) " ")).1 }
      else s
    else if command = "DEL" then
      if parts.length ≥ 2 then { s with cache := (s.cache.Del (parts.getD 1 "")).1 }
      else s
    else s

/-- What the environment answers while one line is handled: the errors of
`os.Create` and `Encode` during `SAVE`, and the result of the dial during
`REPLICAOF`. -/
structure Env where
  createErr : Option String
  encodeErr : Option String
  dial : Except String Conn

/-- The effect of one iteration of the loop of `handleConnection`: the new
server state, the flag `isReplica`, the bytes written to the connection (if
any), whether the handler returned, the writes started by `PropagateCommand`
and the handshake written by `ConnectToMaster`. -/
structure Outcome where
  server : Server
  isReplica : Bool
  output : Option String
  quit : Bool
  propagated : List (Conn × String)
  handshake : List (Conn × String)
deriving DecidableEq

/-- An iteration that only answers `output`. -/
def reply (s : Server) (isReplica : Bool) (output : String) : Outcome :=
  { server := s, isReplica := isReplica, output := some output, quit := false,
    propagated := [], handshake := [] }

/-- The writes of the guarded call `if s.repl.IsMaster() { s.repl.PropagateCommand(message) }`. -/
def propagateIfMaster (s : Server) (message : String) : List (Conn × String) :=
  if s.repl.IsMaster then s.repl.PropagateCommand message else []

/-- The case `SET` of the switch. -/
def handleSET (s : Server) (isReplica : Bool) (message : String) (parts : List String) :
    Outcome :=
  if parts.length < 3 then
    reply s isReplica "(error) ERR wrong number of arguments for 'set' command\n"
  else
    let key := parts.getD 1 ""
    let val := Join (parts.drop 2) " "
    let s1 := { s with cache := (s.cache.Set key val).1 }
    { reply s1 isReplica "OK\n" with propagated := propagateIfMaster s1 message }

/-- The case `GET` of the switch. -/
def handleGET (s : Server) (isReplica : Bool) (parts : List String) : Outcome :=
  if parts.length < 2 then
    reply s isReplica "(error) ERR wrong number of arguments for 'get' command\n"
  else
    let r := s.cache.Get (parts.getD 1 "")
    let s1 := { s with cache := r.1 }
    if !r.2.2 then reply s1 isReplica "(nil)\n"
    else reply s1 isReplica (r.2.1 ++ "\n")

/-- The case `DEL` of the switch. -/
def handleDEL (s : Server) (isReplica : Bool) (message : String) (parts : List String) :
    Outcome :=
  if parts.length < 2 then
    reply s isReplica "(error) ERR wrong number of arguments for 'del' command\n"
  else
    let r := s.cache.Del (parts.getD 1 "")
    let s1 := { s with cache := r.1 }
    if r.2 then
      { reply s1 isReplica "(integer) 1\n" with propagated := propagateIfMaster s1 message }
    else reply s1 isReplica "(integer) 0\n"

/-- The case `SUBSCRIBE` of the switch. The delivery task it starts reads the
queue of the new subscriber. -/
def handleSUBSCRIBE (s : Server) (clientID : String) (isReplica : Bool)
    (parts : List String) : Outcome :=
  if parts.length < 2 then
    reply s isReplica "(error) ERR wrong number of arguments for 'subscribe' command\n"
  else
    let channel := parts.getD 1 ""
    let r := s.pubsub.Subscribe channel clientID
    reply { s with pubsub := r.1 } isReplica ("SUBSCRIBED " ++ channel ++ "\n")

/-- The case `UNSUBSCRIBE` of the switch; `none` is a panic. -/
def handleUNSUBSCRIBE (s : Server) (clientID : String) (isReplica : Bool)
    (parts : List String) : Option Outcome :=
  if parts.length < 2 then
    some (reply s isReplica "(error) ERR wrong number of arguments for 'unsubscribe' command\n")
  else
    let channel := parts.getD 1 ""
    match s.pubsub.Unsubscribe channel clientID with
    | some ps => some (reply { s with pubsub := ps } isReplica ("UNSUBSCRIBED " ++ channel ++ "\n"))
    | none => none

/-- The case `PUBLISH` of the switch; `none` is a panic. -/
def handlePUBLISH (s : Server) (isReplica : Bool) (parts : List String) : Option Outcome :=
  if parts.length < 3 then
    some (reply s isReplica "(error) ERR wrong number of arguments for 'publish' command\n")
  else
    let channel := parts.getD 1 ""
    let msg := Join (parts.drop 2) " "
    match s.pubsub.Publish channel msg with
    | some (ps, count) =>
      some (reply { s with pubsub := ps } isReplica ("(integer) " ++ toString count ++ "\n"))
    | none => none

/-- The case `SAVE` of the switch. -/
def handleSAVE (s : Server) (isReplica : Bool) (env : Env) : Outcome :=
  let r := s.rdb.Save env.createErr env.encodeErr s.cache.GetAllData
  let s1 := { s with rdb := r.1 }
  match r.2 with
  | some err => reply s1 isReplica ("(error) " ++ err ++ "\n")
  | none => reply s1 isReplica "OK\n"

/-- The case `REPLICAOF` of the switch. -/
def handleREPLICAOF (s : Server) (isReplica : Bool) (env : Env) (parts : List String) :
    Outcome :=
  if parts.length < 3 then
    reply s isReplica "(error) ERR wrong number of arguments for 'replicaof' command\n"
  else
    match Atoi (parts.getD 2 "") with
    | none => reply s isReplica "(error) ERR invalid port\n"
    | some _ =>
      let r := s.repl.ConnectToMaster env.dial
      let s1 := { s with repl := r.1 }
      match r.2.1 with
      | some err =>
        { reply s1 isReplica ("(error) " ++ err ++ "\n") with handshake := r.2.2 }
      | none => { reply s1 isReplica "OK\n" with handshake := r.2.2 }

/-- The case `REPLCONF` of the switch. -/
def handleREPLCONF (s : Server) (conn : Conn) : Outcome :=
  reply { s with repl := s.repl.AddReplica conn } true "OK\n"

/-- The case `INFO` of the switch. -/
def handleINFO (s : Server) (isReplica : Bool) : Outcome :=
  reply s isReplica
    ("role:" ++ s.repl.Role ++ "\nreplicas:" ++ toString s.repl.ReplicaCount ++ "\n")

/-- One iteration of the loop of `Server.handleConnection`, for the message
`raw` returned by `reader.ReadString`; `none` is a panic. -/
def handleLine (tbl : Char → Char) (s : Server) (conn : Conn) (clientID : String)
    (isReplica : Bool) (env : Env) (raw : String) : Option Outcome :=
  let message := TrimSpace raw
  if message.data.length = 0 then
    some { server := s, isReplica := isReplica, output := none, quit := false,
           propagated := [], handshake := [] }
  else
    let parts := Split message ' '
    let cmd := ToUpper tbl (parts.getD 0 "")
    if cmd = "SET" then some (handleSET s isReplica message parts)
    else if cmd = "GET" then some (handleGET s isReplica parts)
    else if cmd = "DEL" then some (handleDEL s isReplica message parts)
    else if cmd = "PING" then some (reply s isReplica "PONG\n")
    else if cmd = "SUBSCRIBE" then some (handleSUBSCRIBE s clientID isReplica parts)
    else if cmd = "UNSUBSCRIBE" then handleUNSUBSCRIBE s clientID isReplica parts
    else if cmd = "PUBLISH" then handlePUBLISH s isReplica parts
    else if cmd = "SAVE" then some (handleSAVE s isReplica env)
    else if cmd = "REPLICAOF" then some (handleREPLICAOF s isReplica env parts)
    else if cmd = "REPLCONF" then some (handleREPLCONF s conn)
    else if cmd = "INFO" then some (handleINFO s isReplica)
    else if cmd = "QUIT" then
      some { server := s, isReplica := isReplica, output := none, quit := true,
             propagated := [], handshake := [] }
    else some (reply s isReplica ("(error) ERR unknown command '" ++ cmd ++ "'\n"))

/-- The deferred calls of `Server.handleConnection`, run when the handler
returns: `UnsubscribeAll` for the client (closing the connection is not part
of the state); `none` is a panic. -/
def closeConnection (s : Server) (clientID : String) : Option Server :=
  match s.pubsub.UnsubscribeAll clientID with
  | some ps => some { s with pubsub := ps }
  | none => none

/-- The method `Server.handleConnection` run on the messages that the reader
returns before it reports an error or the end of the input; every message comes
with the answers of the environment while it is handled. The result is the
server state once the handler has returned; `none` is a panic. -/
def handleConnection (tbl : Char → Char) (conn : Conn) (clientID : String) :
    Server → Bool → List (Env × String) → Option Server
  | s, isReplica, [] =>
    closeConnection (if isReplica then { s with repl := s.repl.RemoveReplica conn } else s)
      clientID
  | s, isReplica, (env, raw) :: rest =>
    match handleLine tbl s conn clientID isReplica env raw with
    | some o =>
      if o.quit then closeConnection o.server clientID
      else handleConnection tbl conn clientID o.server o.isReplica rest
    | none => none

/-! ## Invariants and fragments used in the proofs -/

/-- The invariant kept by every call, `LoadData` included: the identities of
the elements of `order` are distinct and below `nextId`, and every pair of
`items` refers to an element of `order` that carries its key. -/
def Cache.Linked (c : Cache) : Prop :=
  (∀ e ∈ c.order, e.id < c.nextId) ∧ (c.order.map Element.id).Nodup ∧
  (∀ p ∈ c.items, ∃ e ∈ c.order, e.id = p.2 ∧ e.key = p.1)

/-- The state after lines 45-51 of `Set`: the element `oldest` removed. -/
def Cache.evict (c : Cache) (oldest : Element) : Cache :=
  { c with order := listRemove oldest.id c.order, items := mapDel c.items oldest.key }

/-- The state after lines 56-57 of `Set`: a new element pushed to the front. -/
def Cache.pushFront (c : Cache) (key value : String) : Cache :=
  { c with order := { id := c.nextId, key := key, value := value } :: c.order,
           items := mapPut c.items key c.nextId,
           nextId := c.nextId + 1 }

/-- The invariant of the states reached by `Set`, `Get` and `Del`: `Linked`,
the keys of `order` are distinct, and `items` maps the key of every element of
`order` to that element. -/
def Cache.WF (c : Cache) : Prop :=
  c.Linked ∧ (c.order.map Element.key).Nodup ∧
  (∀ e ∈ c.order, mapGet c.items e.key = some e.id)

instance (c : Cache) : Decidable c.Linked := by
  unfold Cache.Linked
  infer_instance

instance (c : Cache) : Decidable c.WF := by
  unfold Cache.WF
  infer_instance

/-! ## Vocabulary of the statements about the dispatcher -/

/-- The slice `parts` that the loop of `handleConnection` computes for a message. -/
def partsOf (raw : String) : List String :=
  Split (TrimSpace raw) ' '

/-- The string `cmd` that the loop of `handleConnection` switches on. -/
def commandOf (tbl : Char → Char) (raw : String) : String :=
  ToUpper tbl ((partsOf raw).getD 0 "")

/-- An environment in which `SAVE` succeeds and the dial is refused. -/
def quietEnv : Env :=
  { createErr := none, encodeErr := none, dial := Except.error "connection refused" }

/-- Follows the spec's words ("whitespace-separated tokens"): the maximal runs
of characters other than white space. -/
def specTokenChars : List Char → List (List Char)
  | [] => []
  | c :: cs =>
    if isSpace c then specTokenChars cs
    else
      match cs.head? with
      | none => [[c]]
      | some d =>
        if isSpace d then [c] :: specTokenChars cs
        else
          match specTokenChars cs with
          | t :: ts => (c :: t) :: ts
          | [] => [[c]]

/-- Follows the spec's words: the whitespace-separated tokens of a line. -/
def specTokens (line : String) : List String :=
  (specTokenChars line.data).map String.mk

/-- Follows the spec's words: "the first whitespace-separated token is the
command, case-folded to upper". -/
def specCommand (tbl : Char → Char) (line : String) : String :=
  ToUpper tbl ((specTokens line).getD 0 "")

/-- Follows the spec's words: "remaining tokens are arguments". -/
def specArgs (line : String) : List String :=
  (specTokens line).drop 1

/-- The commands that take arguments: the command word, the number of
arguments it takes, and its name in the error message. -/
def arityTable : List (String × Nat × String) :=
  [("SET", 2, "set"), ("GET", 1, "get"), ("DEL", 1, "del"), ("SUBSCRIBE", 1, "subscribe"),
   ("UNSUBSCRIBE", 1, "unsubscribe"), ("PUBLISH", 2, "publish"), ("REPLICAOF", 2, "replicaof")]

/-- The receive task that `ConnectToMaster` starts (repl.go, lines 98-110), for
one message `raw` read from the master link: the trimmed line is passed to
`ApplyCommand` when it is not empty. -/
def Server.receive (tbl : Char → Char) (s : Server) (raw : String) : Server :=
  let line := TrimSpace raw
  if line.data.length > 0 then Server.ApplyCommand tbl s line else s

/-! ## The broker as a sequence of operations -/

/-- One receive of the delivery task of the subscriber `p` (server.go, lines
171-175, `for msg := range sub.Messages`): the oldest message of the queue
leaves it. -/
def PubSub.deliver (ps : PubSub) (p : Nat) : PubSub × Option String :=
  match ps.subs[p]? with
  | some sub =>
    match sub.Messages.buf with
    | msg :: rest =>
      ({ ps with subs := ps.subs.set p { sub with Messages := { sub.Messages with buf := rest } } },
        some msg)
    | [] => (ps, none)
  | none => (ps, none)

/-- An operation on the broker: a call of one of its methods, or a receive by
a delivery task. -/
inductive BrokerOp where
  | Subscribe (channel subscriberID : String)
  | Unsubscribe (channel subscriberID : String)
  | UnsubscribeAll (subscriberID : String)
  | Publish (channel message : String)
  | Deliver (p : Nat)
deriving DecidableEq, Repr

/-- The broker after one operation; `none` is a panic. -/
def PubSub.step (ps : PubSub) : BrokerOp → Option PubSub
  | BrokerOp.Subscribe channel subscriberID => some (ps.Subscribe channel subscriberID).1
  | BrokerOp.Unsubscribe channel subscriberID => ps.Unsubscribe channel subscriberID
  | BrokerOp.UnsubscribeAll subscriberID => ps.UnsubscribeAll subscriberID
  | BrokerOp.Publish channel message => (ps.Publish channel message).map Prod.fst
  | BrokerOp.Deliver p => some (ps.deliver p).1

/-- The broker after a sequence of operations; `none` is a panic. -/
def PubSub.run (ps : PubSub) : List BrokerOp → Option PubSub
  | [] => some ps
  | op :: ops =>
    match ps.step op with
    | some ps1 => PubSub.run ps1 ops
    | none => none

/-- The state after lines 126-127 of `LoadData`: a new element pushed to the back. -/
def Cache.pushBack (c : Cache) (key value : String) : Cache :=
  { c with order := c.order ++ [{ id := c.nextId, key := key, value := value }],
           items := mapPut c.items key c.nextId,
           nextId := c.nextId + 1 }

/-! ## Vocabulary of the statements about the broker -/

/-- Whether `p` is a subscriber whose queue has not been closed. -/
def queueOpen (heap : List Subscriber) (p : Nat) : Bool :=
  match heap[p]? with
  | some sub => !sub.Messages.closed
  | none => false

/-- Whether the queue of the subscriber `p` holds fewer messages than its depth. -/
def hasRoom (heap : List Subscriber) (p : Nat) : Bool :=
  match heap[p]? with
  | some sub => decide (sub.Messages.buf.length < queueDepth)
  | none => false

/-- A subscriber with one more message at the tail of its queue. -/
def enqueue (message : String) (sub : Subscriber) : Subscriber :=
  { sub with Messages := { sub.Messages with buf := sub.Messages.buf ++ [message] } }

/-- A subscriber with its queue closed. -/
def markClosed (sub : Subscriber) : Subscriber :=
  { sub with Messages := { sub.Messages with closed := true } }

/-- The subscribers recorded on a channel, `ps.channels[channel]`. -/
def PubSub.records (ps : PubSub) (channel : String) : List (String × Nat) :=
  (mapGet ps.channels channel).getD []

/-- The record of a channel and subscriber-id, `ps.channels[channel][subscriberID]`. -/
def PubSub.record (ps : PubSub) (channel subscriberID : String) : Option Nat :=
  mapGet (ps.records channel) subscriberID

/-- The channel map after the loop of `UnsubscribeAll`: the subscriber is
deleted from every channel and the channels left empty are deleted. -/
def pruneChannels (subscriberID : String) (channels : List (String × List (String × Nat))) :
    List (String × List (String × Nat)) :=
  channels.filterMap (fun e =>
    if (mapDel e.2 subscriberID).length = 0 then none else some (e.1, mapDel e.2 subscriberID))

/-- The invariant of the broker: the channel map and every subscriber map
have distinct keys, no channel has an empty subscriber map, every recorded
subscriber exists and has an open queue, and no subscriber is recorded twice. -/
def PubSub.Valid (ps : PubSub) : Prop :=
  (mapKeys ps.channels).Nodup ∧
  (∀ e ∈ ps.channels, e.2 ≠ [] ∧ (mapKeys e.2).Nodup) ∧
  (∀ e ∈ ps.channels, ∀ r ∈ e.2, queueOpen ps.subs r.2 = true) ∧
  (∀ e1 ∈ ps.channels, ∀ r1 ∈ e1.2, ∀ e2 ∈ ps.channels, ∀ r2 ∈ e2.2,
    r1.2 = r2.2 → e1.1 = e2.1 ∧ r1.1 = r2.1)

/-- The subscriber list after `close(sub.Messages)` for the subscriber `p`. -/
def closeQueue (heap : List Subscriber) (p : Nat) : List Subscriber :=
  match heap[p]? with
  | some sub => heap.set p (markClosed sub)
  | none => heap

/-- Follows the spec's words: how one operation changes whether a
subscriber-id counts as subscribed to a channel. A `Subscribe` of the pair
makes it so; an `Unsubscribe` of the pair or an `UnsubscribeAll` of the
subscriber-id ends it. -/
def specSubscribedStep (channel subscriberID : String) (live : Bool) : BrokerOp → Bool
  | BrokerOp.Subscribe c i => if c = channel ∧ i = subscriberID then true else live
  | BrokerOp.Unsubscribe c i => if c = channel ∧ i = subscriberID then false else live
  | BrokerOp.UnsubscribeAll i => if i = subscriberID then false else live
  | _ => live

/-- Follows the spec's words: whether, after the operations, the
subscriber-id has subscribed to the channel and has not since been removed. -/
def specSubscribed (channel subscriberID : String) (ops : List BrokerOp) : Bool :=
  ops.foldl (specSubscribedStep channel subscriberID) false

/-- The subscriber-ids that some operation subscribes to the channel. -/
def subscribedIds (channel : String) (ops : List BrokerOp) : List String :=
  ops.filterMap (fun op =>
    match op with
    | BrokerOp.Subscribe c i => if c = channel then some i else none
    | _ => none)

/-- Follows the spec's words: the number of distinct subscriber-ids that have
subscribed to the channel and have not since been removed. -/
def specSubscriberCount (channel : String) (ops : List BrokerOp) : Nat :=
  ((subscribedIds channel ops).dedup.filter (fun i => specSubscribed channel i ops)).length

/-! # Properties -/

theorem mapGet_mem {β : Type} (m : List (String × β)) (k : String) (b : β)
    (h : mapGet m k = some b) : (k, b) ∈ m := by
  induction m with
  | nil => simp [mapGet] at h
  | cons p m ih =>
    obtain ⟨k', b'⟩ := p
    simp only [mapGet] at h
    split at h
    · next hk => simp at h; subst hk; subst h; simp
    · exact List.mem_cons_of_mem _ (ih h)

theorem mapGet_mapDel {β : Type} (m : List (String × β)) (k k' : String) :
    mapGet (mapDel m k) k' = if k = k' then none else mapGet m k' := by
  induction m with
  | nil => simp [mapGet, mapDel]
  | cons p m ih =>
    obtain ⟨a, b⟩ := p
    simp only [mapDel] at ih ⊢
    by_cases ha : a = k
    · subst ha
      simp only [List.filter, mapGet]
      simp only [ne_eq, not_true_eq_false, decide_False]
      rw [ih]
      by_cases h : a = k' <;> simp [h]
    · simp only [List.filter, ne_eq, ha, not_false_eq_true, decide_True, mapGet]
      rw [ih]
      by_cases h : k = k'
      · subst h; simp [ha]
      · simp [h]

theorem mapGet_mapPut {β : Type} (m : List (String × β)) (k k' : String) (b : β) :
    mapGet (mapPut m k b) k' = if k = k' then some b else mapGet m k' := by
  simp only [mapPut, mapGet]
  by_cases h : k = k'
  · simp [h]
  · simp [h, mapGet_mapDel]

theorem mem_mapDel {β : Type} (m : List (String × β)) (k : String) (p : String × β) :
    p ∈ mapDel m k ↔ p ∈ m ∧ p.1 ≠ k := by
  simp [mapDel]

theorem findElem_some {id : Nat} {l : List Element} {e : Element}
    (h : findElem id l = some e) : e ∈ l ∧ e.id = id := by
  unfold findElem at h
  have h1 := List.mem_of_find?_eq_some h
  have h2 := List.find?_some h
  simp at h2
  exact ⟨h1, h2⟩

theorem findElem_of_mem {l : List Element} {e : Element} (he : e ∈ l)
    (hn : (l.map Element.id).Nodup) : findElem e.id l = some e := by
  induction l with
  | nil => simp at he
  | cons x l ih =>
    simp only [List.map_cons, List.nodup_cons] at hn
    simp only [findElem, List.find?]
    rcases List.mem_cons.mp he with h | h
    · subst h; simp
    · have hx : x.id ≠ e.id := by
        intro hx
        apply hn.1
        rw [hx]
        exact List.mem_map_of_mem _ h
      simp only [hx, decide_False]
      exact ih h hn.2

theorem findElem_isSome_of_mem {l : List Element} {e : Element} (he : e ∈ l) :
    ∃ x, findElem e.id l = some x := by
  induction l with
  | nil => simp at he
  | cons x l ih =>
    simp only [findElem, List.find?]
    by_cases hx : x.id = e.id
    · simp [hx]
    · simp only [hx, decide_False]
      rcases List.mem_cons.mp he with h | h
      · subst h; exact absurd rfl hx
      · exact ih h

theorem mem_listRemove {id : Nat} {l : List Element} {x : Element} :
    x ∈ listRemove id l ↔ x ∈ l ∧ x.id ≠ id := by
  simp [listRemove]

theorem length_listRemove_le (id : Nat) (l : List Element) :
    (listRemove id l).length ≤ l.length := by
  unfold listRemove
  exact List.length_filter_le _ _

theorem length_listRemove_lt {l : List Element} {e : Element} (he : e ∈ l) :
    (listRemove e.id l).length < l.length := by
  induction l with
  | nil => simp at he
  | cons x l ih =>
    simp only [listRemove, List.filter]
    by_cases hx : x.id = e.id
    · simp only [hx, ne_eq, not_true_eq_false, decide_False, List.length_cons]
      have := length_listRemove_le e.id l
      simp only [listRemove, ne_eq] at this
      omega
    · simp only [ne_eq, hx, not_false_eq_true, decide_True, List.length_cons]
      rcases List.mem_cons.mp he with h | h
      · subst h; exact absurd rfl hx
      · have := ih h
        simp only [listRemove, ne_eq] at this
        omega

theorem length_listRemove {l : List Element} {e : Element} (he : e ∈ l)
    (hn : (l.map Element.id).Nodup) : (listRemove e.id l).length + 1 = l.length := by
  induction l with
  | nil => simp at he
  | cons x l ih =>
    simp only [List.map_cons, List.nodup_cons] at hn
    simp only [listRemove, List.filter]
    rcases List.mem_cons.mp he with h | h
    · subst h
      simp only [ne_eq, not_true_eq_false, decide_False, List.length_cons]
      have : l.filter (fun x => decide (x.id ≠ e.id)) = l := by
        apply List.filter_eq_self.mpr
        intro a ha
        simp only [ne_eq, decide_eq_true_eq]
        intro h
        apply hn.1
        rw [← h]
        exact List.mem_map_of_mem _ ha
      rw [this]
    · have hx : x.id ≠ e.id := by
        intro hx
        apply hn.1
        rw [hx]
        exact List.mem_map_of_mem _ h
      simp only [ne_eq, hx, not_false_eq_true, decide_True, List.length_cons]
      have := ih h hn.2
      simp only [listRemove, ne_eq] at this
      omega

theorem ids_inj {l : List Element} (hn : (l.map Element.id).Nodup) {e e' : Element}
    (he : e ∈ l) (he' : e' ∈ l) (h : e.id = e'.id) : e = e' :=
  List.inj_on_of_nodup_map hn he he' h

theorem listRemove_eq_self {id : Nat} {l : List Element}
    (h : id ∉ l.map Element.id) : listRemove id l = l := by
  unfold listRemove
  apply List.filter_eq_self.mpr
  intro a ha
  simp only [ne_eq, decide_eq_true_eq]
  intro hid
  apply h
  rw [← hid]
  exact List.mem_map_of_mem _ ha

theorem listRemove_cons_self (e : Element) (l : List Element) :
    listRemove e.id (e :: l) = listRemove e.id l := by
  simp [listRemove]

theorem listRemove_cons_ne {id : Nat} {x : Element} (l : List Element) (h : x.id ≠ id) :
    listRemove id (x :: l) = x :: listRemove id l := by
  simp [listRemove, h]

theorem perm_cons_listRemove {l : List Element} {e : Element} (he : e ∈ l)
    (hn : (l.map Element.id).Nodup) : List.Perm (e :: listRemove e.id l) l := by
  induction l with
  | nil => simp at he
  | cons x l ih =>
    simp only [List.map_cons, List.nodup_cons] at hn
    by_cases hx : x = e
    · subst hx
      rw [listRemove_cons_self, listRemove_eq_self hn.1]
    · have he' : e ∈ l := by
        rcases List.mem_cons.mp he with h | h
        · exact absurd h.symm hx
        · exact h
      have hid : x.id ≠ e.id := by
        intro h
        apply hn.1
        rw [h]
        exact List.mem_map_of_mem _ he'
      rw [listRemove_cons_ne l hid]
      exact (List.Perm.swap x e _).trans (List.Perm.cons x (ih he' hn.2))

theorem listMoveToFront_eq {l : List Element} {e : Element} (he : e ∈ l)
    (hn : (l.map Element.id).Nodup) : listMoveToFront e.id l = e :: listRemove e.id l := by
  unfold listMoveToFront
  rw [findElem_of_mem he hn]

theorem perm_listMoveToFront (id : Nat) {l : List Element}
    (hn : (l.map Element.id).Nodup) : List.Perm (listMoveToFront id l) l := by
  unfold listMoveToFront
  cases h : findElem id l with
  | none => exact List.Perm.refl _
  | some e =>
    obtain ⟨he, hid⟩ := findElem_some h
    subst hid
    exact perm_cons_listRemove he hn

theorem map_id_listSetValue (id : Nat) (v : String) (l : List Element) :
    (listSetValue id v l).map Element.id = l.map Element.id := by
  unfold listSetValue
  rw [List.map_map]
  apply List.map_congr_left
  intro a _
  simp only [Function.comp]
  split <;> rfl

theorem map_key_listSetValue (id : Nat) (v : String) (l : List Element) :
    (listSetValue id v l).map Element.key = l.map Element.key := by
  unfold listSetValue
  rw [List.map_map]
  apply List.map_congr_left
  intro a _
  simp only [Function.comp]
  split <;> rfl

theorem mem_listSetValue {id : Nat} {v : String} {l : List Element} {x : Element}
    (h : x ∈ listSetValue id v l) : ∃ y ∈ l, y.id = x.id ∧ y.key = x.key := by
  unfold listSetValue at h
  obtain ⟨y, hy, hxy⟩ := List.mem_map.mp h
  refine ⟨y, hy, ?_⟩
  subst hxy
  split <;> simp

theorem exists_mem_listSetValue (id : Nat) (v : String) {l : List Element} {y : Element}
    (h : y ∈ l) : ∃ x ∈ listSetValue id v l, x.id = y.id ∧ x.key = y.key := by
  unfold listSetValue
  refine ⟨_, List.mem_map_of_mem _ h, ?_⟩
  split <;> simp

/-- The invariant `Linked` holds of a new cache. -/
theorem linked_NewCache (capacity : Int) : (NewCache capacity).Linked := by
  simp [Cache.Linked, NewCache]

theorem linked_touch {c : Cache} (h : c.Linked) (id : Nat) :
    Cache.Linked { c with order := listMoveToFront id c.order } := by
  obtain ⟨h1, h2, h3⟩ := h
  have hp := perm_listMoveToFront id h2
  refine ⟨?_, ?_, ?_⟩
  · intro e he
    exact h1 e (hp.mem_iff.mp he)
  · exact (hp.map Element.id).nodup_iff.mpr h2
  · intro p hpm
    obtain ⟨e, he, h⟩ := h3 p hpm
    exact ⟨e, hp.mem_iff.mpr he, h⟩

theorem linked_setValue {c : Cache} (h : c.Linked) (id : Nat) (v : String) :
    Cache.Linked { c with order := listSetValue id v c.order } := by
  obtain ⟨h1, h2, h3⟩ := h
  refine ⟨?_, ?_, ?_⟩
  · intro e he
    obtain ⟨y, hy, hid, _⟩ := mem_listSetValue he
    rw [← hid]
    exact h1 y hy
  · simp only [map_id_listSetValue]
    exact h2
  · intro p hpm
    obtain ⟨e, he, h⟩ := h3 p hpm
    obtain ⟨x, hx, hxid, hxk⟩ := exists_mem_listSetValue id v he
    exact ⟨x, hx, by rw [hxid, h.1], by rw [hxk, h.2]⟩

theorem linked_remove {c : Cache} (h : c.Linked) {e : Element} (he : e ∈ c.order) :
    Cache.Linked { c with order := listRemove e.id c.order, items := mapDel c.items e.key } := by
  obtain ⟨h1, h2, h3⟩ := h
  refine ⟨?_, ?_, ?_⟩
  · intro x hx
    exact h1 x (mem_listRemove.mp hx).1
  · exact List.Nodup.sublist (List.Sublist.map _ (List.filter_sublist _)) h2
  · intro p hpm
    obtain ⟨hp, hk⟩ := (mem_mapDel _ _ _).mp hpm
    obtain ⟨x, hx, hxid, hxk⟩ := h3 p hp
    refine ⟨x, mem_listRemove.mpr ⟨hx, ?_⟩, hxid, hxk⟩
    intro hid
    have := ids_inj h2 hx he hid
    subst this
    exact hk hxk.symm

theorem linked_pushFront {c : Cache} (h : c.Linked) (key value : String) :
    Cache.Linked { c with order := { id := c.nextId, key := key, value := value } :: c.order,
                          items := mapPut c.items key c.nextId,
                          nextId := c.nextId + 1 } := by
  obtain ⟨h1, h2, h3⟩ := h
  refine ⟨?_, ?_, ?_⟩
  · intro x hx
    rcases List.mem_cons.mp hx with hx | hx
    · subst hx; simp
    · exact Nat.lt_succ_of_lt (h1 x hx)
  · simp only [List.map_cons, List.nodup_cons]
    refine ⟨?_, h2⟩
    intro hm
    obtain ⟨x, hx, hxid⟩ := List.mem_map.mp hm
    have := h1 x hx
    omega
  · intro p hpm
    rcases List.mem_cons.mp hpm with hp | hp
    · subst hp
      exact ⟨_, List.mem_cons_self _ _, rfl, rfl⟩
    · obtain ⟨hp, _⟩ := (mem_mapDel _ _ _).mp hp
      obtain ⟨x, hx, hh⟩ := h3 p hp
      exact ⟨x, List.mem_cons_of_mem _ hx, hh⟩

theorem linked_pushBack {c : Cache} (h : c.Linked) (key value : String) :
    Cache.Linked { c with order := c.order ++ [{ id := c.nextId, key := key, value := value }],
                          items := mapPut c.items key c.nextId,
                          nextId := c.nextId + 1 } := by
  obtain ⟨h1, h2, h3⟩ := h
  refine ⟨?_, ?_, ?_⟩
  · intro x hx
    rcases List.mem_append.mp hx with hx | hx
    · exact Nat.lt_succ_of_lt (h1 x hx)
    · simp at hx; subst hx; simp
  · simp only [List.map_append, List.map_cons, List.map_nil]
    apply List.Nodup.append h2 (by simp)
    intro a ha hb
    simp at hb
    subst hb
    obtain ⟨x, hx, hxid⟩ := List.mem_map.mp ha
    have := h1 x hx
    omega
  · intro p hpm
    rcases List.mem_cons.mp hpm with hp | hp
    · subst hp
      exact ⟨_, List.mem_append_right _ (List.mem_singleton_self _), rfl, rfl⟩
    · obtain ⟨hp, _⟩ := (mem_mapDel _ _ _).mp hp
      obtain ⟨x, hx, hh⟩ := h3 p hp
      exact ⟨x, List.mem_append_left _ hx, hh⟩

theorem Set_present {c : Cache} {key : String} {id : Nat} (value : String)
    (h : mapGet c.items key = some id) :
    c.Set key value =
      ({ c with order := listSetValue id value (listMoveToFront id c.order) }, "", false) := by
  simp [Cache.Set, h]

theorem Set_absent_room {c : Cache} {key : String} (value : String)
    (h : mapGet c.items key = none) (hr : (c.order.length : Int) < c.capacity) :
    c.Set key value = (c.pushFront key value, "", false) := by
  have : ¬ ((c.order.length : Int) ≥ c.capacity) := by omega
  simp [Cache.Set, h, this, Cache.pushFront]

theorem Set_absent_empty {c : Cache} {key : String} (value : String)
    (h : mapGet c.items key = none) (hr : c.order = []) :
    c.Set key value = (c.pushFront key value, "", false) := by
  simp only [Cache.Set, h, hr, Cache.pushFront]
  split <;> simp [hr]

theorem Set_absent_full {c : Cache} {key : String} {oldest : Element} (value : String)
    (h : mapGet c.items key = none) (hr : (c.order.length : Int) ≥ c.capacity)
    (ho : c.order.getLast? = some oldest) :
    c.Set key value = ((c.evict oldest).pushFront key value, oldest.key, true) := by
  simp [Cache.Set, h, hr, ho, Cache.pushFront, Cache.evict]

/-- The three ways in which `Set` proceeds. -/
theorem Set_cases (c : Cache) (key value : String) :
    (∃ id, mapGet c.items key = some id ∧ c.Set key value =
      ({ c with order := listSetValue id value (listMoveToFront id c.order) }, "", false)) ∨
    (mapGet c.items key = none ∧
      ((c.order.length : Int) < c.capacity ∨ c.order = []) ∧
      c.Set key value = (c.pushFront key value, "", false)) ∨
    (∃ oldest, mapGet c.items key = none ∧ (c.order.length : Int) ≥ c.capacity ∧
      c.order.getLast? = some oldest ∧
      c.Set key value = ((c.evict oldest).pushFront key value, oldest.key, true)) := by
  cases h : mapGet c.items key with
  | some id => exact Or.inl ⟨id, rfl, Set_present value h⟩
  | none =>
    right
    by_cases hr : (c.order.length : Int) < c.capacity
    · exact Or.inl ⟨rfl, Or.inl hr, Set_absent_room value h hr⟩
    · cases ho : c.order.getLast? with
      | none =>
        have he : c.order = [] := List.getLast?_eq_none_iff.mp ho
        exact Or.inl ⟨rfl, Or.inr he, Set_absent_empty value h he⟩
      | some oldest =>
        exact Or.inr ⟨oldest, rfl, by omega, rfl, Set_absent_full value h (by omega) ho⟩

theorem linked_Set {c : Cache} (h : c.Linked) (key value : String) :
    (c.Set key value).1.Linked := by
  rcases Set_cases c key value with ⟨id, _, he⟩ | ⟨_, _, he⟩ | ⟨oldest, _, _, ho, he⟩
  · rw [he]
    exact linked_setValue (linked_touch h id) id value
  · rw [he]
    exact linked_pushFront h key value
  · rw [he]
    exact linked_pushFront (linked_remove h (List.mem_of_getLast?_eq_some ho)) key value

theorem linked_Get {c : Cache} (h : c.Linked) (key : String) : (c.Get key).1.Linked := by
  unfold Cache.Get
  split
  · exact linked_touch h _
  · exact h

theorem linked_Del {c : Cache} (h : c.Linked) (key : String) : (c.Del key).1.Linked := by
  unfold Cache.Del
  split
  · next id hid =>
    obtain ⟨e, he, heid, hek⟩ := h.2.2 _ (mapGet_mem _ _ _ hid)
    simp only at heid hek
    subst heid
    subst hek
    exact linked_remove h he
  · exact h

theorem linked_LoadData (data : List (String × String)) :
    ∀ {c : Cache}, c.Linked → (c.LoadData data).Linked := by
  induction data with
  | nil => intro c h; exact h
  | cons p rest ih =>
    intro c h
    obtain ⟨key, value⟩ := p
    unfold Cache.LoadData
    split
    · exact h
    · exact ih (linked_pushBack h key value)

theorem linked_step {c : Cache} (h : c.Linked) (o : Op) : (c.step o).Linked := by
  cases o with
  | Set k v => exact linked_Set h k v
  | Get k => exact linked_Get h k
  | Del k => exact linked_Del h k

theorem linked_call {c : Cache} (h : c.Linked) (x : Call) : (c.call x).Linked := by
  cases x with
  | op o => exact linked_step h o
  | LoadData data => exact linked_LoadData data h

theorem linked_calls (cs : List Call) : ∀ {c : Cache}, c.Linked → (c.calls cs).Linked := by
  induction cs with
  | nil => intro c h; exact h
  | cons x cs ih =>
    intro c h
    exact ih (linked_call h x)

theorem length_listSetValue (id : Nat) (v : String) (l : List Element) :
    (listSetValue id v l).length = l.length := by
  simp [listSetValue]

theorem capacity_Set (c : Cache) (key value : String) :
    (c.Set key value).1.capacity = c.capacity := by
  rcases Set_cases c key value with ⟨id, _, he⟩ | ⟨_, _, he⟩ | ⟨oldest, _, _, _, he⟩ <;>
    rw [he] <;> rfl

theorem capacity_Get (c : Cache) (key : String) : (c.Get key).1.capacity = c.capacity := by
  unfold Cache.Get
  split <;> rfl

theorem capacity_Del (c : Cache) (key : String) : (c.Del key).1.capacity = c.capacity := by
  unfold Cache.Del
  split <;> rfl

theorem capacity_LoadData (data : List (String × String)) :
    ∀ c : Cache, (c.LoadData data).capacity = c.capacity := by
  induction data with
  | nil => intro c; rfl
  | cons p rest ih =>
    intro c
    obtain ⟨key, value⟩ := p
    unfold Cache.LoadData
    split
    · rfl
    · rw [ih]

theorem capacity_call (c : Cache) (x : Call) : (c.call x).capacity = c.capacity := by
  cases x with
  | op o =>
    cases o with
    | Set k v => exact capacity_Set c k v
    | Get k => exact capacity_Get c k
    | Del k => exact capacity_Del c k
  | LoadData data => exact capacity_LoadData data c

theorem len_Set_le {c : Cache} (h : c.Linked) (key value : String) :
    (c.Set key value).1.Len ≤ max c.Len (min (c.Len + 1) (max c.capacity 1)) := by
  rcases Set_cases c key value with ⟨id, _, he⟩ | ⟨_, hr, he⟩ | ⟨oldest, _, hf, ho, he⟩
  · rw [he]
    simp only [Cache.Len, length_listSetValue, (perm_listMoveToFront id h.2.1).length_eq]
    exact le_max_left _ _
  · rw [he]
    simp only [Cache.Len, Cache.pushFront, List.length_cons]
    rcases hr with hr | hr
    · have : (c.order.length : Int) + 1 ≤ max c.capacity 1 := le_max_of_le_left (by omega)
      push_cast
      exact le_max_of_le_right (le_min (le_refl _) this)
    · rw [hr]
      simp
  · rw [he]
    have hl := length_listRemove (List.mem_of_getLast?_eq_some ho) h.2.1
    simp only [Cache.Len, Cache.pushFront, Cache.evict, List.length_cons, hl]
    exact le_max_left _ _

theorem len_Get {c : Cache} (h : c.Linked) (key : String) : (c.Get key).1.Len = c.Len := by
  unfold Cache.Get
  split
  · simp only [Cache.Len, (perm_listMoveToFront _ h.2.1).length_eq]
  · rfl

theorem len_Del_le (c : Cache) (key : String) : (c.Del key).1.Len ≤ c.Len := by
  unfold Cache.Del
  split
  · simp only [Cache.Len]
    exact_mod_cast length_listRemove_le _ _
  · exact le_refl _

theorem len_LoadData_le (data : List (String × String)) :
    ∀ c : Cache, (c.LoadData data).Len ≤ max c.Len c.capacity := by
  induction data with
  | nil => intro c; exact le_max_left _ _
  | cons p rest ih =>
    intro c
    obtain ⟨key, value⟩ := p
    unfold Cache.LoadData
    split
    · exact le_max_left _ _
    · next hlt =>
      refine le_trans (ih _) ?_
      simp only [Cache.Len, List.length_append, List.length_singleton] at hlt ⊢
      push_cast
      apply max_le
      · exact le_max_of_le_right (by omega)
      · exact le_max_right _ _

theorem len_call_le {c : Cache} (h : c.Linked) (x : Call) (hb : c.Len ≤ max c.capacity 1) :
    (c.call x).Len ≤ max c.capacity 1 := by
  cases x with
  | op o =>
    cases o with
    | Set k v =>
      refine le_trans (len_Set_le h k v) ?_
      exact max_le hb (min_le_right _ _)
    | Get k => simp only [Cache.call, Cache.step, len_Get h k]; exact hb
    | Del k => exact le_trans (len_Del_le c k) hb
  | LoadData data =>
    refine le_trans (len_LoadData_le data c) ?_
    exact max_le hb (le_max_left _ _)

theorem len_calls_le (cs : List Call) :
    ∀ c : Cache, c.Linked → c.Len ≤ max c.capacity 1 →
      (c.calls cs).Len ≤ max c.capacity 1 := by
  induction cs with
  | nil => intro c _ hb; exact hb
  | cons x cs ih =>
    intro c h hb
    have := ih (c.call x) (linked_call h x) (by rw [capacity_call]; exact len_call_le h x hb)
    rw [capacity_call] at this
    exact this

/-- C1 (as stated, refuted): with capacity 0, one `Set` leaves `Len() = 1 > 0`. -/
theorem c1_len_exceeds_zero_capacity :
    ¬ (((NewCache 0).calls [Call.op (Op.Set "a" "1")]).Len ≤ 0) := by
  decide

/-- C1 (amended): for every capacity `C ≥ 1` and every sequence of `Set`,
`Get`, `Del` and `LoadData` calls on `NewCache(C)`, `Len() ≤ C` after the
calls (hence after every call, each prefix being such a sequence). -/
theorem c1_len_le_capacity (C : Int) (hC : 1 ≤ C) (cs : List Call) :
    ((NewCache C).calls cs).Len ≤ C := by
  have h := len_calls_le cs (NewCache C) (linked_NewCache C)
    (by simp [NewCache, Cache.Len])
  have hc : (NewCache C).capacity = C := rfl
  rw [hc, max_eq_left hC] at h
  exact h

/-- C1 instantiated: capacity 2, four insertions and a bulk load. -/
theorem c1_len_le_capacity_witness :
    (1 : Int) ≤ 2 ∧
    ((NewCache 2).calls [Call.op (Op.Set "a" "1"), Call.op (Op.Set "b" "2"),
      Call.LoadData [("x", "9"), ("y", "8")], Call.op (Op.Set "c" "3"),
      Call.op (Op.Get "b"), Call.op (Op.Set "d" "4")]).Len ≤ 2 :=
  ⟨by decide, c1_len_le_capacity 2 (by decide) _⟩

theorem keys_inj {l : List Element} (hn : (l.map Element.key).Nodup) {e e' : Element}
    (he : e ∈ l) (he' : e' ∈ l) (h : e.key = e'.key) : e = e' :=
  List.inj_on_of_nodup_map hn he he' h

theorem wf_NewCache (capacity : Int) : (NewCache capacity).WF := by
  refine ⟨linked_NewCache capacity, ?_, ?_⟩ <;> simp [NewCache]

theorem wf_touch {c : Cache} (h : c.WF) (id : Nat) :
    Cache.WF { c with order := listMoveToFront id c.order } := by
  obtain ⟨hl, hk, hi⟩ := h
  have hp := perm_listMoveToFront id hl.2.1
  refine ⟨linked_touch hl id, ?_, ?_⟩
  · exact (hp.map Element.key).nodup_iff.mpr hk
  · intro e he
    exact hi e (hp.mem_iff.mp he)

theorem wf_setValue {c : Cache} (h : c.WF) (id : Nat) (v : String) :
    Cache.WF { c with order := listSetValue id v c.order } := by
  obtain ⟨hl, hk, hi⟩ := h
  refine ⟨linked_setValue hl id v, ?_, ?_⟩
  · simp only [map_key_listSetValue]
    exact hk
  · intro e he
    obtain ⟨y, hy, hid, hkey⟩ := mem_listSetValue he
    rw [← hid, ← hkey]
    exact hi y hy

theorem wf_evict {c : Cache} (h : c.WF) {e : Element} (he : e ∈ c.order) :
    (c.evict e).WF := by
  obtain ⟨hl, hk, hi⟩ := h
  refine ⟨linked_remove hl he, ?_, ?_⟩
  · exact List.Nodup.sublist (List.Sublist.map _ (List.filter_sublist _)) hk
  · intro x hx
    obtain ⟨hx1, hx2⟩ := mem_listRemove.mp hx
    simp only [Cache.evict, mapGet_mapDel]
    have : e.key ≠ x.key := by
      intro hkey
      have := keys_inj hk he hx1 hkey
      subst this
      exact hx2 rfl
    simp only [this, if_false]
    exact hi x hx1

theorem wf_pushFront {c : Cache} (h : c.WF) {key : String} (value : String)
    (hk : mapGet c.items key = none) : (c.pushFront key value).WF := by
  obtain ⟨hl, hn, hi⟩ := h
  refine ⟨linked_pushFront hl key value, ?_, ?_⟩
  · simp only [Cache.pushFront, List.map_cons, List.nodup_cons]
    refine ⟨?_, hn⟩
    intro hm
    obtain ⟨x, hx, hxk⟩ := List.mem_map.mp hm
    have := hi x hx
    rw [hxk, hk] at this
    simp at this
  · intro x hx
    simp only [Cache.pushFront] at hx ⊢
    rw [mapGet_mapPut]
    rcases List.mem_cons.mp hx with hx | hx
    · subst hx; simp
    · have hne : key ≠ x.key := by
        intro hkey
        have := hi x hx
        rw [← hkey, hk] at this
        simp at this
      simp only [hne, if_false]
      exact hi x hx

theorem wf_Set {c : Cache} (h : c.WF) (key value : String) : (c.Set key value).1.WF := by
  rcases Set_cases c key value with ⟨id, _, he⟩ | ⟨hk, _, he⟩ | ⟨oldest, hk, _, ho, he⟩
  · rw [he]
    exact wf_setValue (wf_touch h id) id value
  · rw [he]
    exact wf_pushFront h value hk
  · rw [he]
    refine wf_pushFront (wf_evict h (List.mem_of_getLast?_eq_some ho)) value ?_
    simp only [Cache.evict, mapGet_mapDel, hk]
    split <;> rfl

theorem wf_Get {c : Cache} (h : c.WF) (key : String) : (c.Get key).1.WF := by
  unfold Cache.Get
  split
  · exact wf_touch h _
  · exact h

/-- Under `Linked`, a key recorded in `items` names an element of `order`. -/
theorem linked_lookup {c : Cache} (h : c.Linked) {key : String} {id : Nat}
    (hid : mapGet c.items key = some id) : ∃ e ∈ c.order, e.id = id ∧ e.key = key := by
  obtain ⟨e, he, heid, hek⟩ := h.2.2 _ (mapGet_mem _ _ _ hid)
  exact ⟨e, he, heid, hek⟩

theorem Del_present {c : Cache} {key : String} {e : Element}
    (hid : mapGet c.items key = some e.id) (hk : e.key = key) :
    c.Del key = (c.evict e, true) := by
  simp [Cache.Del, hid, Cache.evict, hk]

theorem wf_Del {c : Cache} (h : c.WF) (key : String) : (c.Del key).1.WF := by
  cases hid : mapGet c.items key with
  | none => simp only [Cache.Del, hid]; exact h
  | some id =>
    obtain ⟨e, he, heid, hek⟩ := linked_lookup h.1 hid
    subst heid
    rw [Del_present hid hek]
    exact wf_evict h he

theorem wf_step {c : Cache} (h : c.WF) (o : Op) : (c.step o).WF := by
  cases o with
  | Set k v => exact wf_Set h k v
  | Get k => exact wf_Get h k
  | Del k => exact wf_Del h k

theorem wf_run (ops : List Op) : ∀ {c : Cache}, c.WF → (c.run ops).WF := by
  induction ops with
  | nil => intro c h; exact h
  | cons o ops ih =>
    intro c h
    exact ih (wf_step h o)

/-- Under `WF`, the keys listed by `Keys` are the keys recorded in `items`. -/
theorem wf_mem_keys {c : Cache} (h : c.WF) (key : String) :
    key ∈ c.Keys ↔ ∃ id, mapGet c.items key = some id := by
  constructor
  · intro hk
    obtain ⟨e, he, hek⟩ := List.mem_map.mp hk
    exact ⟨e.id, hek ▸ h.2.2 e he⟩
  · rintro ⟨id, hid⟩
    obtain ⟨e, he, _, hek⟩ := linked_lookup h.1 hid
    exact hek ▸ List.mem_map_of_mem _ he

theorem wf_not_mem_keys {c : Cache} (h : c.WF) (key : String) :
    key ∉ c.Keys ↔ mapGet c.items key = none := by
  rw [wf_mem_keys h]
  cases mapGet c.items key <;> simp

theorem keys_listRemove {l : List Element} {e : Element} (he : e ∈ l)
    (hid : (l.map Element.id).Nodup) (hk : (l.map Element.key).Nodup) :
    (listRemove e.id l).map Element.key = (l.map Element.key).erase e.key := by
  induction l with
  | nil => simp at he
  | cons x l ih =>
    simp only [List.map_cons, List.nodup_cons] at hid hk
    by_cases hx : x = e
    · subst hx
      rw [listRemove_cons_self, listRemove_eq_self hid.1]
      simp
    · have he' : e ∈ l := by
        rcases List.mem_cons.mp he with h | h
        · exact absurd h.symm hx
        · exact h
      have h1 : x.id ≠ e.id := by
        intro h
        apply hid.1
        rw [h]
        exact List.mem_map_of_mem _ he'
      have h2 : x.key ≠ e.key := by
        intro h
        apply hk.1
        rw [h]
        exact List.mem_map_of_mem _ he'
      rw [listRemove_cons_ne l h1]
      simp only [List.map_cons]
      rw [List.erase_cons_tail (by simpa using h2)]
      rw [ih he' hid.2 hk.2]

theorem findElem_listRemove_ne {id id' : Nat} (l : List Element) (h : id' ≠ id) :
    findElem id' (listRemove id l) = findElem id' l := by
  induction l with
  | nil => rfl
  | cons x l ih =>
    by_cases hx : x.id = id
    · have hx' : x.id ≠ id' := by rw [hx]; exact fun hh => h hh.symm
      subst hx
      rw [listRemove_cons_self]
      simp only [findElem, List.find?, hx', decide_False] at ih ⊢
      exact ih
    · rw [listRemove_cons_ne l hx]
      simp only [findElem, List.find?] at ih ⊢
      rw [ih]

theorem findElem_perm {l l' : List Element} (hp : List.Perm l' l)
    (hn : (l.map Element.id).Nodup) (id : Nat) : findElem id l' = findElem id l := by
  have hn' : (l'.map Element.id).Nodup := (hp.map Element.id).nodup_iff.mpr hn
  cases h : findElem id l with
  | some e =>
    obtain ⟨he, hid⟩ := findElem_some h
    subst hid
    exact findElem_of_mem (hp.mem_iff.mpr he) hn'
  | none =>
    cases h' : findElem id l' with
    | none => rfl
    | some e =>
      obtain ⟨he, hid⟩ := findElem_some h'
      subst hid
      rw [findElem_of_mem (hp.mem_iff.mp he) hn] at h
      simp at h

theorem findElem_listSetValue_ne {id id' : Nat} (v : String) (l : List Element)
    (h : id' ≠ id) : findElem id' (listSetValue id v l) = findElem id' l := by
  induction l with
  | nil => rfl
  | cons x l ih =>
    simp only [findElem, listSetValue, List.map_cons, List.find?] at ih ⊢
    by_cases hx : x.id = id
    · have hx' : ¬ (id = id') := fun hh => h hh.symm
      simp only [hx, if_true, hx', decide_False]
      exact ih
    · simp only [hx, if_false]
      rw [ih]

theorem findElem_listSetValue_self (id : Nat) (v : String) (l : List Element) :
    findElem id (listSetValue id v l) =
      (findElem id l).map (fun e => { e with value := v }) := by
  induction l with
  | nil => rfl
  | cons x l ih =>
    simp only [findElem, listSetValue, List.map_cons, List.find?] at ih ⊢
    by_cases hx : x.id = id
    · simp [hx]
    · simp only [hx, if_false, decide_False]
      exact ih

theorem mapGet_map_snd {β γ : Type} (f : β → γ) (m : List (String × β)) (k : String) :
    mapGet (m.map (fun p => (p.1, f p.2))) k = (mapGet m k).map f := by
  induction m with
  | nil => rfl
  | cons p m ih =>
    obtain ⟨a, b⟩ := p
    simp only [List.map_cons, mapGet]
    split
    · rfl
    · exact ih

theorem mapGet_GetAllData (c : Cache) (k : String) :
    mapGet c.GetAllData k = (mapGet c.items k).map (fun id => elemValue id c.order) := by
  unfold Cache.GetAllData
  exact mapGet_map_snd (fun id => elemValue id c.order) c.items k

theorem erase_getLast {l : List String} {a : String} (hn : l.Nodup)
    (h : l.getLast? = some a) : l.erase a = l.dropLast := by
  obtain ⟨ys, hys⟩ := List.getLast?_eq_some_iff.mp h
  subst hys
  have hnot : a ∉ ys := by
    intro ha
    have := List.nodup_append.mp hn
    exact this.2.2 ha (List.mem_singleton_self a)
  rw [List.erase_append_right _ hnot]
  simp

theorem capacity_run (ops : List Op) : ∀ c : Cache, (c.run ops).capacity = c.capacity := by
  induction ops with
  | nil => intro c; rfl
  | cons o ops ih =>
    intro c
    have := ih (c.step o)
    rw [show (c.step o).capacity = c.capacity from capacity_call c (Call.op o)] at this
    exact this

theorem run_eq_calls (ops : List Op) : ∀ c : Cache, c.run ops = c.calls (ops.map Call.op) := by
  induction ops with
  | nil => intro c; rfl
  | cons o ops ih => intro c; exact ih (c.step o)

theorem len_run_le (C : Int) (ops : List Op) : ((NewCache C).run ops).Len ≤ max C 1 := by
  rw [run_eq_calls]
  exact len_calls_le _ (NewCache C) (linked_NewCache C) (by simp [NewCache, Cache.Len])

/-- What `Get` returns, read off `GetAllData`. -/
theorem Get_result (c : Cache) (k : String) :
    (c.Get k).2 = match mapGet c.GetAllData k with
      | some val => (val, true)
      | none => ("", false) := by
  rw [mapGet_GetAllData]
  unfold Cache.Get
  cases mapGet c.items k <;> rfl

theorem value_evict_other {c : Cache} (h : c.WF) {e : Element} (he : e ∈ c.order)
    {k' : String} (hk : k' ≠ e.key) :
    mapGet (c.evict e).GetAllData k' = mapGet c.GetAllData k' := by
  rw [mapGet_GetAllData, mapGet_GetAllData]
  simp only [Cache.evict, mapGet_mapDel, Ne.symm hk, if_false]
  cases hid : mapGet c.items k' with
  | none => rfl
  | some id' =>
    obtain ⟨e', he', heid, hek⟩ := linked_lookup h.1 hid
    have hne : id' ≠ e.id := by
      intro hh
      have := ids_inj h.1.2.1 he' he (heid.trans hh)
      subst this
      exact hk hek.symm
    simp only [Option.map_some', elemValue, findElem_listRemove_ne _ hne]

theorem value_evict_self {c : Cache} (e : Element) :
    mapGet (c.evict e).GetAllData e.key = none := by
  rw [mapGet_GetAllData]
  simp [Cache.evict, mapGet_mapDel]

theorem value_pushFront_other {c : Cache} (h : c.Linked) (k v : String) {k' : String}
    (hk : k' ≠ k) :
    mapGet (c.pushFront k v).GetAllData k' = mapGet c.GetAllData k' := by
  rw [mapGet_GetAllData, mapGet_GetAllData]
  simp only [Cache.pushFront, mapGet_mapPut, Ne.symm hk, if_false]
  cases hid : mapGet c.items k' with
  | none => rfl
  | some id' =>
    obtain ⟨e', he', heid, _⟩ := linked_lookup h hid
    have hlt := h.1 e' he'
    have hne : ¬ (c.nextId = id') := by omega
    simp only [Option.map_some', elemValue, findElem, List.find?, hne, decide_False]

theorem value_pushFront_self (c : Cache) (k v : String) :
    mapGet (c.pushFront k v).GetAllData k = some v := by
  rw [mapGet_GetAllData]
  simp [Cache.pushFront, mapGet_mapPut, elemValue, findElem]

/-- After `Set(k, v)` the value recorded for `k` is `v`. -/
theorem value_Set_self {c : Cache} (h : c.Linked) (k v : String) :
    mapGet (c.Set k v).1.GetAllData k = some v := by
  rcases Set_cases c k v with ⟨id, hid, he⟩ | ⟨_, _, he⟩ | ⟨oldest, _, _, _, he⟩
  · rw [he, mapGet_GetAllData]
    obtain ⟨e, hmem, heid, _⟩ := linked_lookup h hid
    subst heid
    simp only [hid, Option.map_some', elemValue, findElem_listSetValue_self,
      findElem_perm (perm_listMoveToFront e.id h.2.1) h.2.1, findElem_of_mem hmem h.2.1]
  · rw [he]
    exact value_pushFront_self c k v
  · rw [he]
    exact value_pushFront_self _ k v

/-- After `Set(k, v)` every other key that is still listed keeps its value. -/
theorem value_Set_other {c : Cache} (h : c.WF) (k v : String) {k' : String} (hk : k' ≠ k)
    (hmem : k' ∈ (c.Set k v).1.Keys) :
    mapGet (c.Set k v).1.GetAllData k' = mapGet c.GetAllData k' := by
  rcases Set_cases c k v with ⟨id, hid, he⟩ | ⟨_, _, he⟩ | ⟨oldest, _, _, ho, he⟩
  · rw [he, mapGet_GetAllData, mapGet_GetAllData]
    cases hid' : mapGet c.items k' with
    | none => rfl
    | some id' =>
      obtain ⟨e, he1, heid, hek⟩ := linked_lookup h.1 hid
      obtain ⟨e', he2, heid', hek'⟩ := linked_lookup h.1 hid'
      have hne : id' ≠ id := by
        intro hh
        have := ids_inj h.1.2.1 he2 he1 (heid'.trans (hh.trans heid.symm))
        subst this
        exact hk (hek'.symm.trans hek)
      simp only [Option.map_some', elemValue, findElem_listSetValue_ne _ _ hne,
        findElem_perm (perm_listMoveToFront id h.1.2.1) h.1.2.1]
  · rw [he]
    exact value_pushFront_other h.1 k v hk
  · have hin : oldest ∈ c.order := List.mem_of_getLast?_eq_some ho
    rw [he] at hmem ⊢
    rw [value_pushFront_other (wf_evict h hin).1 k v hk]
    apply value_evict_other h hin
    intro hh
    simp only [Cache.Keys, Cache.pushFront, List.map_cons, List.mem_cons] at hmem
    rcases hmem with hmem | hmem
    · exact hk hmem
    · obtain ⟨x, hx, hxk⟩ := List.mem_map.mp hmem
      obtain ⟨hx1, hx2⟩ := mem_listRemove.mp hx
      have := keys_inj h.2.1 hx1 hin (hxk.trans hh)
      subst this
      exact hx2 rfl

/-- The shape of `order` around an element that `items` refers to. -/
theorem wf_present {c : Cache} (h : c.WF) {k : String} (hk : k ∈ c.Keys) :
    ∃ e ∈ c.order, e.key = k ∧ mapGet c.items k = some e.id ∧
      listMoveToFront e.id c.order = e :: listRemove e.id c.order ∧
      (listRemove e.id c.order).map Element.key = c.Keys.erase k ∧
      (listRemove e.id c.order).length + 1 = c.order.length := by
  obtain ⟨e, he, hek⟩ := List.mem_map.mp hk
  refine ⟨e, he, hek, hek ▸ h.2.2 e he, listMoveToFront_eq he h.1.2.1, ?_,
    length_listRemove he h.1.2.1⟩
  rw [keys_listRemove he h.1.2.1 h.2.1, hek]
  rfl

/-- C2: for a capacity `C ≥ 1` and a state reached from `NewCache(C)` by `Set`,
`Get` and `Del` calls, `Set(k, v)` either reports an eviction, and then `k`
was absent, `Len()` was `C`, the evicted key is the last element of `Keys()`
before the call, it is the only key removed, and `Keys()` afterwards is `k`
followed by the previous `Keys()` without its last element; or it returns
`("", false)`, and then `k` was present or `Len()` was not `C`, and `Keys()`
afterwards is `k` followed by the previous `Keys()` without `k`. -/
theorem c2_set_evicts_tail_iff_full (C : Int) (hC : 1 ≤ C) (ops : List Op) (k v : String) :
    let c := (NewCache C).run ops
    let r := c.Set k v
    (r.2.2 = true ∧ (k ∉ c.Keys ∧ c.Len = C) ∧
      c.Keys.getLast? = some r.2.1 ∧
      (∀ k', (k' ∈ c.Keys ∧ k' ∉ r.1.Keys) ↔ k' = r.2.1) ∧
      r.1.Keys = k :: c.Keys.dropLast) ∨
    (r.2 = ("", false) ∧ ¬ (k ∉ c.Keys ∧ c.Len = C) ∧
      r.1.Keys = k :: c.Keys.erase k) := by
  intro c r
  have hwf : c.WF := wf_run ops (wf_NewCache C)
  have hcap : c.capacity = C := capacity_run ops (NewCache C)
  have hlen : c.Len ≤ C := by
    have := len_run_le C ops
    rwa [max_eq_left hC] at this
  rcases Set_cases c k v with ⟨id, hid, he⟩ | ⟨hk, hr, he⟩ | ⟨oldest, hk, hf, ho, he⟩
  · right
    have hmemk : k ∈ c.Keys := (wf_mem_keys hwf k).mpr ⟨id, hid⟩
    refine ⟨by simp only [r, he], fun hh => hh.1 hmemk, ?_⟩
    obtain ⟨e, _, hek, hid', hmv, hkeys, _⟩ := wf_present hwf hmemk
    have hide : id = e.id := by
      rw [hid] at hid'
      exact Option.some.inj hid'
    subst hide
    simp only [r, he, Cache.Keys, map_key_listSetValue, hmv, List.map_cons, hek]
    rw [hkeys]
    rfl
  · right
    refine ⟨by simp only [r, he], ?_, ?_⟩
    · intro hh
      rcases hr with hr | hr
      · rw [hcap] at hr
        simp only [Cache.Len] at hh
        omega
      · have := hh.2
        simp only [Cache.Len, hr, List.length_nil] at this
        omega
    · have hknot : k ∉ c.Keys := (wf_not_mem_keys hwf k).mpr hk
      have herase : c.Keys.erase k = c.Keys := List.erase_of_not_mem hknot
      rw [herase]
      simp only [r, he, Cache.Keys, Cache.pushFront, List.map_cons]
  · left
    have hmem : oldest ∈ c.order := List.mem_of_getLast?_eq_some ho
    have hlast : c.Keys.getLast? = some oldest.key := by
      simp only [Cache.Keys, List.getLast?_map, ho, Option.map_some']
    have hkeys : ((c.evict oldest).pushFront k v).Keys = k :: c.Keys.erase oldest.key := by
      simp only [Cache.Keys, Cache.pushFront, Cache.evict, List.map_cons]
      rw [keys_listRemove hmem hwf.1.2.1 hwf.2.1]
    have hknot : k ∉ c.Keys := (wf_not_mem_keys hwf k).mpr hk
    have hnd : c.Keys.Nodup := hwf.2.1
    refine ⟨by simp only [r, he], ⟨hknot, ?_⟩, ?_, ?_, ?_⟩
    · rw [hcap] at hf
      simp only [Cache.Len] at hlen ⊢
      omega
    · simp only [r, he]
      exact hlast
    · intro k'
      simp only [r, he, hkeys, List.mem_cons, not_or, hnd.mem_erase_iff]
      constructor
      · rintro ⟨h1, _, h3⟩
        by_contra hne
        exact h3 ⟨hne, h1⟩
      · intro hk'
        subst hk'
        refine ⟨List.mem_map_of_mem _ hmem, ?_, ?_⟩
        · intro hh
          apply hknot
          rw [← hh]
          exact List.mem_map_of_mem _ hmem
        · intro hh
          exact hh.1 rfl
    · simp only [r, he, hkeys]
      rw [erase_getLast hnd hlast]

/-- C2 instantiated: capacity 2, after `Set a`, `Set b`, the call `Set c`
finds `Keys() = [b, a]` and `Len() = 2`, returns `("a", true)` and leaves
`Keys() = [c, b]`. -/
theorem c2_set_evicts_tail_iff_full_witness :
    (1 : Int) ≤ 2 ∧
    (let c := (NewCache 2).run [Op.Set "a" "1", Op.Set "b" "2"]
     let r := c.Set "c" "3"
     c.Keys = ["b", "a"] ∧ "c" ∉ c.Keys ∧ c.Len = 2 ∧
       r.2 = ("a", true) ∧ r.1.Keys = ["c", "b"]) ∧
    (let c := (NewCache 2).run [Op.Set "a" "1", Op.Set "b" "2"]
     let r := c.Set "c" "3"
     (r.2.2 = true ∧ ("c" ∉ c.Keys ∧ c.Len = 2) ∧
       c.Keys.getLast? = some r.2.1 ∧
       (∀ k', (k' ∈ c.Keys ∧ k' ∉ r.1.Keys) ↔ k' = r.2.1) ∧
       r.1.Keys = "c" :: c.Keys.dropLast) ∨
     (r.2 = ("", false) ∧ ¬ ("c" ∉ c.Keys ∧ c.Len = 2) ∧
       r.1.Keys = "c" :: c.Keys.erase "c")) :=
  ⟨by decide, by decide,
    c2_set_evicts_tail_iff_full 2 (by decide) [Op.Set "a" "1", Op.Set "b" "2"] "c" "3"⟩

/-- C3: in a state reached by `Set`, `Get` and `Del` calls in which `k` is
present, `Set(k, v)` returns `("", false)`, leaves `Len()` unchanged, removes
no key, makes `v` the value of `k`, and makes `Keys()` equal to `k` followed
by the previous `Keys()` with `k` erased. -/
theorem c3_set_present_updates_and_promotes (C : Int) (ops : List Op) (k v : String)
    (hk : k ∈ ((NewCache C).run ops).Keys) :
    let c := (NewCache C).run ops
    let r := c.Set k v
    r.2 = ("", false) ∧ r.1.Len = c.Len ∧ (∀ k' ∈ c.Keys, k' ∈ r.1.Keys) ∧
      mapGet r.1.GetAllData k = some v ∧ r.1.Keys = k :: c.Keys.erase k := by
  intro c r
  have hwf : c.WF := wf_run ops (wf_NewCache C)
  obtain ⟨e, he, hek, hid, hmv, hkeys, hlen⟩ := wf_present hwf hk
  have hset := Set_present v hid
  have hK : r.1.Keys = k :: c.Keys.erase k := by
    simp only [r, hset, Cache.Keys, map_key_listSetValue, hmv, List.map_cons, hek]
    rw [hkeys]
    rfl
  refine ⟨by simp only [r, hset], ?_, ?_, value_Set_self hwf.1 k v, hK⟩
  · simp only [r, hset, Cache.Len, length_listSetValue, hmv, List.length_cons, hlen]
  · intro k' hk'
    rw [hK]
    by_cases hkk : k' = k
    · subst hkk; exact List.mem_cons_self _ _
    · exact List.mem_cons_of_mem _ ((List.mem_erase_of_ne hkk).mpr hk')

/-- C3 instantiated: after `Set a`, `Set b`, the call `Set a` of a present key. -/
theorem c3_set_present_updates_and_promotes_witness :
    "a" ∈ ((NewCache 3).run [Op.Set "a" "1", Op.Set "b" "2"]).Keys ∧
    (let c := (NewCache 3).run [Op.Set "a" "1", Op.Set "b" "2"]
     let r := c.Set "a" "100"
     r.2 = ("", false) ∧ r.1.Len = c.Len ∧ (∀ k' ∈ c.Keys, k' ∈ r.1.Keys) ∧
       mapGet r.1.GetAllData "a" = some "100" ∧ r.1.Keys = "a" :: c.Keys.erase "a") :=
  ⟨by decide, c3_set_present_updates_and_promotes 3 [Op.Set "a" "1", Op.Set "b" "2"] "a" "100"
    (by decide)⟩

/-- C5: in a state reached by `Set`, `Get` and `Del` calls, for any capacity,
`Get(k)` right after `Set(k, v)` returns `(v, true)`, and every other key that
is still present after the `Set` has the value it had before. -/
theorem c5_get_after_set (C : Int) (ops : List Op) (k v : String) :
    let c := (NewCache C).run ops
    let c' := (c.Set k v).1
    (c'.Get k).2 = (v, true) ∧
    (∀ k', k' ≠ k → k' ∈ c'.Keys → mapGet c'.GetAllData k' = mapGet c.GetAllData k') := by
  intro c c'
  have hwf : c.WF := wf_run ops (wf_NewCache C)
  refine ⟨?_, fun k' hne hmem => value_Set_other hwf k v hne hmem⟩
  rw [Get_result]
  simp only [c', value_Set_self hwf.1 k v]

/-- C6: in a state reached by `Set`, `Get` and `Del` calls, `Del(k)` either
returns `true`, and then `k` was present, `Len()` has dropped by one, `Get(k)`
is a miss afterwards, every other key keeps its value, and `Keys()` is the
previous `Keys()` with `k` erased; or it returns `false`, and then `k` was
absent and the cache is unchanged. -/
theorem c6_del_removes_exactly_key (C : Int) (ops : List Op) (k : String) :
    let c := (NewCache C).run ops
    let r := c.Del k
    (r.2 = true ∧ k ∈ c.Keys ∧ r.1.Len = c.Len - 1 ∧ (r.1.Get k).2 = ("", false) ∧
      (∀ k', k' ≠ k → mapGet r.1.GetAllData k' = mapGet c.GetAllData k') ∧
      r.1.Keys = c.Keys.erase k) ∨
    (r.2 = false ∧ k ∉ c.Keys ∧ r.1 = c) := by
  intro c r
  have hwf : c.WF := wf_run ops (wf_NewCache C)
  by_cases hk : k ∈ c.Keys
  · left
    obtain ⟨e, he, hek, hid, _, hkeys, hlen⟩ := wf_present hwf hk
    have hdel := Del_present hid hek
    refine ⟨by simp only [r, hdel], hk, ?_, ?_, ?_, ?_⟩
    · simp only [r, hdel, Cache.Len, Cache.evict]
      omega
    · rw [Get_result]
      simp only [r, hdel]
      rw [← hek, value_evict_self]
    · intro k' hne
      simp only [r, hdel]
      exact value_evict_other hwf he (hek ▸ hne)
    · simp only [r, hdel]
      exact hkeys
  · right
    have hnone := (wf_not_mem_keys hwf k).mp hk
    have hdel : c.Del k = (c, false) := by
      simp [Cache.Del, hnone]
    exact ⟨by simp only [r, hdel], hk, by simp only [r, hdel]⟩

theorem splitChars_ne_nil (sep : Char) (l : List Char) : splitChars sep l ≠ [] := by
  induction l with
  | nil => simp [splitChars]
  | cons c cs ih =>
    simp only [splitChars]
    split
    · simp
    · split <;> simp

theorem splitChars_of_not_mem {sep : Char} {a : List Char} (h : sep ∉ a) :
    splitChars sep a = [a] := by
  induction a with
  | nil => rfl
  | cons c cs ih =>
    have hc : c ≠ sep := fun hh => h (hh ▸ List.mem_cons_self _ _)
    have hcs : sep ∉ cs := fun hh => h (List.mem_cons_of_mem _ hh)
    simp only [splitChars, hc, if_false, ih hcs]

theorem splitChars_append {sep : Char} {a : List Char} (r : List Char) (h : sep ∉ a) :
    splitChars sep (a ++ sep :: r) = a :: splitChars sep r := by
  induction a with
  | nil => simp [splitChars]
  | cons c cs ih =>
    have hc : c ≠ sep := fun hh => h (hh ▸ List.mem_cons_self _ _)
    have hcs : sep ∉ cs := fun hh => h (List.mem_cons_of_mem _ hh)
    have := ih hcs
    show splitChars sep (c :: (cs ++ sep :: r)) = (c :: cs) :: splitChars sep r
    simp only [splitChars, hc, if_false, this]

/-- A text with at least two parts is its first part, the separator, and the
text of the remaining parts. -/
theorem splitChars_cons_cons {sep : Char} :
    ∀ {l : List Char} {p q : List Char} {ps : List (List Char)},
      splitChars sep l = p :: q :: ps →
      ∃ r, l = p ++ sep :: r ∧ sep ∉ p ∧ splitChars sep r = q :: ps := by
  intro l
  induction l with
  | nil => intro p q ps h; simp [splitChars] at h
  | cons c cs ih =>
    intro p q ps h
    simp only [splitChars] at h
    split at h
    · next hc =>
      simp only [List.cons.injEq] at h
      obtain ⟨hp, hrest⟩ := h
      subst hp
      exact ⟨cs, by simp [hc], by simp, hrest⟩
    · next hc =>
      split at h
      · next p' ps' hsp =>
        simp only [List.cons.injEq] at h
        obtain ⟨hp, hrest⟩ := h
        subst hp
        subst hrest
        obtain ⟨r, hl, hnot, hr⟩ := ih hsp
        refine ⟨r, by simp [hl], ?_, hr⟩
        intro hm
        rcases List.mem_cons.mp hm with hm | hm
        · exact hc hm.symm
        · exact hnot hm
      · simp at h

theorem Join_cons_char (c : Char) (p : List Char) (ps : List String) (sep : String) :
    Join (String.mk (c :: p) :: ps) sep = String.mk (c :: (Join (String.mk p :: ps) sep).data) := by
  cases ps with
  | nil => rfl
  | cons q qs =>
    simp only [Join]
    apply String.ext
    simp [String.data_append]

/-- Joining the parts of a text with the separator gives the text back. -/
theorem Join_splitChars (l : List Char) :
    Join ((splitChars ' ' l).map String.mk) " " = String.mk l := by
  induction l with
  | nil => rfl
  | cons c cs ih =>
    simp only [splitChars]
    split
    · next hc =>
      cases hs : splitChars ' ' cs with
      | nil => exact absurd hs (splitChars_ne_nil _ _)
      | cons q qs =>
        rw [hs] at ih
        simp only [List.map_cons, Join] at ih ⊢
        rw [ih]
        apply String.ext
        simp [String.data_append, hc]
    · cases hs : splitChars ' ' cs with
      | nil => exact absurd hs (splitChars_ne_nil _ _)
      | cons q qs =>
        rw [hs] at ih
        simp only [List.map_cons] at ih ⊢
        rw [Join_cons_char, ih]

theorem isSpace_space : isSpace ' ' = true := by decide

theorem isSpace_newline : isSpace '\n' = true := by decide

/-- Trimming a message that starts and ends with characters other than white
space, followed by the newline that ends the message, removes the newline only. -/
theorem TrimSpace_line {l : List Char} (hl : l ≠ [])
    (hh : ∀ c, l.head? = some c → isSpace c = false)
    (ht : ∀ c, l.getLast? = some c → isSpace c = false) :
    TrimSpace (String.mk (l ++ ['\n'])) = String.mk l := by
  unfold TrimSpace
  congr 1
  cases l with
  | nil => exact absurd rfl hl
  | cons c cs =>
    have hc : isSpace c = false := hh c rfl
    have h1 : List.dropWhile isSpace (c :: cs ++ ['\n']) = c :: cs ++ ['\n'] := by
      show List.dropWhile isSpace (c :: (cs ++ ['\n'])) = c :: (cs ++ ['\n'])
      simp only [List.dropWhile, hc]
    rw [h1, List.rdropWhile_concat_pos _ _ _ isSpace_newline]
    apply List.rdropWhile_eq_self_iff.mpr
    intro hne
    have := ht ((c :: cs).getLast hne) (List.getLast?_eq_getLast _ hne)
    simp [this]

theorem items_Get (c : Cache) (k : String) : (c.Get k).1.items = c.items := by
  unfold Cache.Get
  split <;> rfl

theorem Del_result (c : Cache) (k : String) : (c.Del k).2 = (mapGet c.items k).isSome := by
  unfold Cache.Del
  split <;> simp [*]

theorem mapGet_items_Del (c : Cache) (k k' : String) :
    mapGet (c.Del k).1.items k' = if k = k' then none else mapGet c.items k' := by
  unfold Cache.Del
  split
  · simp only [mapGet_mapDel]
  · next h =>
    by_cases hk : k = k'
    · subst hk; simp [h]
    · simp [hk]

theorem ToUpper_empty (tbl : Char → Char) : ToUpper tbl "" = "" := rfl

theorem partsOf_of_empty {raw : String} (h : (TrimSpace raw).data.length = 0) :
    partsOf raw = [""] := by
  have : (TrimSpace raw).data = [] := List.length_eq_zero.mp h
  simp only [partsOf, Split, this, splitChars]
  rfl

theorem commandOf_of_empty (tbl : Char → Char) {raw : String}
    (h : (TrimSpace raw).data.length = 0) : commandOf tbl raw = "" := by
  simp only [commandOf, partsOf_of_empty h]
  rfl

/-- The loop body on a message that is not empty once trimmed. -/
theorem handleLine_of_nonempty (tbl : Char → Char) (s : Server) (conn : Conn) (clientID : String)
    (isReplica : Bool) (env : Env) (raw : String)
    (hne : ¬ ((TrimSpace raw).data.length = 0)) :
    handleLine tbl s conn clientID isReplica env raw =
      (let message := TrimSpace raw
       let parts := partsOf raw
       let cmd := commandOf tbl raw
       if cmd = "SET" then some (handleSET s isReplica message parts)
       else if cmd = "GET" then some (handleGET s isReplica parts)
       else if cmd = "DEL" then some (handleDEL s isReplica message parts)
       else if cmd = "PING" then some (reply s isReplica "PONG\n")
       else if cmd = "SUBSCRIBE" then some (handleSUBSCRIBE s clientID isReplica parts)
       else if cmd = "UNSUBSCRIBE" then handleUNSUBSCRIBE s clientID isReplica parts
       else if cmd = "PUBLISH" then handlePUBLISH s isReplica parts
       else if cmd = "SAVE" then some (handleSAVE s isReplica env)
       else if cmd = "REPLICAOF" then some (handleREPLICAOF s isReplica env parts)
       else if cmd = "REPLCONF" then some (handleREPLCONF s conn)
       else if cmd = "INFO" then some (handleINFO s isReplica)
       else if cmd = "QUIT" then
         some { server := s, isReplica := isReplica, output := none, quit := true,
                propagated := [], handshake := [] }
       else some (reply s isReplica ("(error) ERR unknown command '" ++ cmd ++ "'\n"))) := by
  simp only [handleLine, hne, if_false]
  rfl

/-- The loop body as a function of the command word. -/
theorem handleLine_eq (tbl : Char → Char) (s : Server) (conn : Conn) (clientID : String)
    (isReplica : Bool) (env : Env) (raw : String) (h : commandOf tbl raw ≠ "") :
    handleLine tbl s conn clientID isReplica env raw =
      (let message := TrimSpace raw
       let parts := partsOf raw
       let cmd := commandOf tbl raw
       if cmd = "SET" then some (handleSET s isReplica message parts)
       else if cmd = "GET" then some (handleGET s isReplica parts)
       else if cmd = "DEL" then some (handleDEL s isReplica message parts)
       else if cmd = "PING" then some (reply s isReplica "PONG\n")
       else if cmd = "SUBSCRIBE" then some (handleSUBSCRIBE s clientID isReplica parts)
       else if cmd = "UNSUBSCRIBE" then handleUNSUBSCRIBE s clientID isReplica parts
       else if cmd = "PUBLISH" then handlePUBLISH s isReplica parts
       else if cmd = "SAVE" then some (handleSAVE s isReplica env)
       else if cmd = "REPLICAOF" then some (handleREPLICAOF s isReplica env parts)
       else if cmd = "REPLCONF" then some (handleREPLCONF s conn)
       else if cmd = "INFO" then some (handleINFO s isReplica)
       else if cmd = "QUIT" then
         some { server := s, isReplica := isReplica, output := none, quit := true,
                propagated := [], handshake := [] }
       else some (reply s isReplica ("(error) ERR unknown command '" ++ cmd ++ "'\n"))) :=
  handleLine_of_nonempty tbl s conn clientID isReplica env raw
    (fun h0 => h (commandOf_of_empty tbl h0))

/-- The parts of a message `CMD key value`. -/
theorem partsOf_three (cmd key value : List Char) (hc : cmd ≠ [])
    (hc1 : ∀ c ∈ cmd, isSpace c = false) (hk : ∀ c ∈ key, isSpace c = false)
    (hv : value ≠ []) (hv1 : ∀ c, value.getLast? = some c → isSpace c = false) :
    TrimSpace (String.mk (cmd ++ ' ' :: (key ++ ' ' :: value) ++ ['\n'])) =
        String.mk (cmd ++ ' ' :: (key ++ ' ' :: value)) ∧
    partsOf (String.mk (cmd ++ ' ' :: (key ++ ' ' :: value) ++ ['\n'])) =
      String.mk cmd :: String.mk key :: (splitChars ' ' value).map String.mk := by
  have hnc : ' ' ∉ cmd := fun hm => by simpa [isSpace_space] using hc1 _ hm
  have hnk : ' ' ∉ key := fun hm => by simpa [isSpace_space] using hk _ hm
  have ht : TrimSpace (String.mk (cmd ++ ' ' :: (key ++ ' ' :: value) ++ ['\n'])) =
      String.mk (cmd ++ ' ' :: (key ++ ' ' :: value)) := by
    apply TrimSpace_line
    · simp
    · intro c hcc
      cases cmd with
      | nil => exact absurd rfl hc
      | cons x xs =>
        simp at hcc
        subst hcc
        exact hc1 _ (List.mem_cons_self _ _)
    · intro c hcc
      apply hv1 c
      rw [← hcc]
      rw [show cmd ++ ' ' :: (key ++ ' ' :: value) = (cmd ++ ' ' :: (key ++ [' '])) ++ value by simp]
      rw [List.getLast?_append_of_ne_nil _ hv]
  refine ⟨ht, ?_⟩
  simp only [partsOf, ht, Split]
  rw [splitChars_append _ hnc, splitChars_append _ hnk]
  rfl

/-- The parts of a message `CMD key`. -/
theorem partsOf_two (cmd key : List Char) (hc : cmd ≠ [])
    (hc1 : ∀ c ∈ cmd, isSpace c = false) (hk0 : key ≠ [])
    (hk : ∀ c ∈ key, isSpace c = false) :
    partsOf (String.mk (cmd ++ ' ' :: key ++ ['\n'])) = [String.mk cmd, String.mk key] := by
  have hnc : ' ' ∉ cmd := fun hm => by simpa [isSpace_space] using hc1 _ hm
  have hnk : ' ' ∉ key := fun hm => by simpa [isSpace_space] using hk _ hm
  have ht : TrimSpace (String.mk (cmd ++ ' ' :: key ++ ['\n'])) =
      String.mk (cmd ++ ' ' :: key) := by
    apply TrimSpace_line
    · simp
    · intro c hcc
      cases cmd with
      | nil => exact absurd rfl hc
      | cons x xs =>
        simp at hcc
        subst hcc
        exact hc1 _ (List.mem_cons_self _ _)
    · intro c hcc
      rw [show cmd ++ ' ' :: key = (cmd ++ [' ']) ++ key by simp] at hcc
      rw [List.getLast?_append_of_ne_nil _ hk0] at hcc
      exact hk c (List.mem_of_getLast?_eq_some hcc)
  simp only [partsOf, ht, Split]
  rw [splitChars_append _ hnc, splitChars_of_not_mem hnk]
  rfl

theorem line_three (cmd k v : String) :
    cmd ++ " " ++ k ++ " " ++ v ++ "\n" =
      String.mk (cmd.data ++ ' ' :: (k.data ++ ' ' :: v.data) ++ ['\n']) := by
  apply String.ext
  simp [String.data_append]

theorem line_two (cmd k : String) :
    cmd ++ " " ++ k ++ "\n" = String.mk (cmd.data ++ ' ' :: k.data ++ ['\n']) := by
  apply String.ext
  simp [String.data_append]

/-- The dispatcher on `SET k v`. -/
theorem handleLine_SET_line (tbl : Char → Char) (s : Server) (conn : Conn) (clientID : String)
    (isReplica : Bool) (env : Env) (k v : String) (hk : ∀ c ∈ k.data, isSpace c = false)
    (hv0 : v.data ≠ []) (hv2 : ∀ c, v.data.getLast? = some c → isSpace c = false) :
    handleLine tbl s conn clientID isReplica env ("SET " ++ k ++ " " ++ v ++ "\n") =
      some { reply { s with cache := (s.cache.Set k v).1 } isReplica "OK\n" with
             propagated := propagateIfMaster { s with cache := (s.cache.Set k v).1 }
               ("SET " ++ k ++ " " ++ v) } := by
  have hraw : "SET " ++ k ++ " " ++ v ++ "\n" = "SET" ++ " " ++ k ++ " " ++ v ++ "\n" := rfl
  obtain ⟨ht, hp⟩ := partsOf_three "SET".data k.data v.data (by decide) (by decide) hk hv0 hv2
  rw [hraw, line_three]
  have hcmd : commandOf tbl (String.mk ("SET".data ++ ' ' :: (k.data ++ ' ' :: v.data) ++ ['\n']))
      = "SET" := by
    simp only [commandOf, hp]
    rfl
  rw [handleLine_eq _ _ _ _ _ _ _ (by rw [hcmd]; decide)]
  simp only [hcmd, if_true, hp, ht, handleSET]
  have hlen : ¬ ((String.mk "SET".data :: String.mk k.data ::
      (splitChars ' ' v.data).map String.mk).length < 3) := by
    have := splitChars_ne_nil ' ' v.data
    cases hs : splitChars ' ' v.data with
    | nil => exact absurd hs this
    | cons a as => simp
  simp only [hlen, if_false, List.getD_cons_succ, List.getD_cons_zero, List.drop_succ_cons,
    List.drop_zero, Join_splitChars]
  have hmsg : String.mk ("SET".data ++ ' ' :: (k.data ++ ' ' :: v.data)) =
      "SET " ++ k ++ " " ++ v := by
    apply String.ext
    simp [String.data_append]
  rw [hmsg]

/-- The dispatcher on `GET k`. -/
theorem handleLine_GET_line (tbl : Char → Char) (s : Server) (conn : Conn) (clientID : String)
    (isReplica : Bool) (env : Env) (k : String) (hk0 : k.data ≠ [])
    (hk : ∀ c ∈ k.data, isSpace c = false) :
    handleLine tbl s conn clientID isReplica env ("GET " ++ k ++ "\n") =
      some (handleGET s isReplica ["GET", k]) := by
  have hraw : "GET " ++ k ++ "\n" = "GET" ++ " " ++ k ++ "\n" := rfl
  have hp := partsOf_two "GET".data k.data (by decide) (by decide) hk0 hk
  rw [hraw, line_two]
  have hcmd : commandOf tbl (String.mk ("GET".data ++ ' ' :: k.data ++ ['\n'])) = "GET" := by
    simp only [commandOf, hp]
    rfl
  rw [handleLine_eq _ _ _ _ _ _ _ (by rw [hcmd]; decide)]
  simp only [hcmd, hp]
  rfl

/-- The dispatcher on `DEL k`. -/
theorem handleLine_DEL_line (tbl : Char → Char) (s : Server) (conn : Conn) (clientID : String)
    (isReplica : Bool) (env : Env) (k : String) (hk0 : k.data ≠ [])
    (hk : ∀ c ∈ k.data, isSpace c = false) :
    handleLine tbl s conn clientID isReplica env ("DEL " ++ k ++ "\n") =
      some (handleDEL s isReplica ("DEL " ++ k) ["DEL", k]) := by
  have hraw : "DEL " ++ k ++ "\n" = "DEL" ++ " " ++ k ++ "\n" := rfl
  have hp := partsOf_two "DEL".data k.data (by decide) (by decide) hk0 hk
  rw [hraw, line_two]
  have hcmd : commandOf tbl (String.mk ("DEL".data ++ ' ' :: k.data ++ ['\n'])) = "DEL" := by
    simp only [commandOf, hp]
    rfl
  rw [handleLine_eq _ _ _ _ _ _ _ (by rw [hcmd]; decide)]
  simp only [hcmd, hp]
  have ht : TrimSpace (String.mk ("DEL".data ++ ' ' :: k.data ++ ['\n'])) = "DEL " ++ k := by
    rw [TrimSpace_line]
    · apply String.ext
      simp [String.data_append]
    · simp
    · intro c hc
      simp at hc
      subst hc
      decide
    · intro c hcc
      rw [show "DEL".data ++ ' ' :: k.data = ("DEL".data ++ [' ']) ++ k.data by simp] at hcc
      rw [List.getLast?_append_of_ne_nil _ hk0] at hcc
      exact hk c (List.mem_of_getLast?_eq_some hcc)
  rw [ht]
  rfl

theorem handleGET_hit (s : Server) (isReplica : Bool) (k v : String)
    (h : mapGet s.cache.GetAllData k = some v) :
    handleGET s isReplica ["GET", k] =
      reply { s with cache := (s.cache.Get k).1 } isReplica (v ++ "\n") := by
  have hr := Get_result s.cache k
  rw [h] at hr
  have h1 : (s.cache.Get k).2.1 = v := by rw [hr]
  have h2 : (s.cache.Get k).2.2 = true := by rw [hr]
  simp [handleGET, h1, h2]

theorem handleGET_miss (s : Server) (isReplica : Bool) (k : String)
    (h : mapGet s.cache.items k = none) :
    handleGET s isReplica ["GET", k] = reply s isReplica "(nil)\n" := by
  simp [handleGET, Cache.Get, h]

theorem handleDEL_hit (s : Server) (isReplica : Bool) (message k : String) (id : Nat)
    (h : mapGet s.cache.items k = some id) :
    handleDEL s isReplica message ["DEL", k] =
      { reply { s with cache := (s.cache.Del k).1 } isReplica "(integer) 1\n" with
        propagated := propagateIfMaster { s with cache := (s.cache.Del k).1 } message } := by
  have h2 : (s.cache.Del k).2 = true := by rw [Del_result, h]; rfl
  simp [handleDEL, h2]

/-- C8 (as stated, refuted): `SET  k` carries one whitespace-separated
argument, yet it is answered `OK` and stores the value `k` under the empty key. -/
theorem c8_double_space_set_is_accepted :
    specCommand id "SET  k\n" = "SET" ∧ (specArgs "SET  k\n").length = 1 ∧
    (handleLine id (NewServerWithCapacity 6379 10 FileContent.missing) 1 "client-1" false
        quietEnv "SET  k\n").map (fun o => (o.output, o.server.cache.GetAllData))
      = some (some "OK\n", [("", "k")]) := by
  decide

/-- C8 (amended): for every command that takes arguments and every message
whose trimmed text, cut at every single space, has fewer parts after the
command word than the command takes, the dispatcher answers the arity error of
the command and nothing else happens: the server state (cache, broker, role,
replica list) and the flag of the connection are unchanged, nothing is
propagated and no handshake is sent. -/
theorem c8_arity_error_leaves_state (tbl : Char → Char) (s : Server) (conn : Conn)
    (clientID : String) (isReplica : Bool) (env : Env) (raw : String)
    (cmd name : String) (n : Nat) (hmem : (cmd, n, name) ∈ arityTable)
    (hcmd : commandOf tbl raw = cmd) (hlen : (partsOf raw).length < n + 1) :
    handleLine tbl s conn clientID isReplica env raw =
      some { server := s, isReplica := isReplica,
             output := some ("(error) ERR wrong number of arguments for '" ++ name ++
               "' command\n"),
             quit := false, propagated := [], handshake := [] } := by
  simp only [arityTable, List.mem_cons, Prod.mk.injEq, List.mem_singleton, List.not_mem_nil,
    or_false] at hmem
  rcases hmem with ⟨h1, h2, h3⟩ | ⟨h1, h2, h3⟩ | ⟨h1, h2, h3⟩ | ⟨h1, h2, h3⟩ | ⟨h1, h2, h3⟩ |
    ⟨h1, h2, h3⟩ | ⟨h1, h2, h3⟩ <;>
  · subst h1 h2 h3
    rw [handleLine_eq _ _ _ _ _ _ _ (by rw [hcmd]; decide)]
    simp only [hcmd]
    simp [handleSET, handleGET, handleDEL, handleSUBSCRIBE, handleUNSUBSCRIBE, handlePUBLISH,
      handleREPLICAOF, hlen, reply]
    try rfl

/-- C8 instantiated: `SET onlykey`. -/
theorem c8_arity_error_leaves_state_witness :
    ("SET", 2, "set") ∈ arityTable ∧ commandOf id "SET onlykey\n" = "SET" ∧
    (partsOf "SET onlykey\n").length < 2 + 1 ∧
    handleLine id (NewServer 6379 FileContent.missing) 1 "client-1" false quietEnv
        "SET onlykey\n" =
      some { server := NewServer 6379 FileContent.missing, isReplica := false,
             output := some ("(error) ERR wrong number of arguments for '" ++ "set" ++
               "' command\n"),
             quit := false, propagated := [], handshake := [] } :=
  ⟨by decide, by decide, by decide,
    c8_arity_error_leaves_state id (NewServer 6379 FileContent.missing) 1 "client-1" false
      quietEnv "SET onlykey\n" "SET" "set" 2 (by decide) (by decide) (by decide)⟩

/-- A message with at least three parts is a word, a space, a key, a space and
the rest of the text; the parts from the third on are the parts of that rest. -/
theorem partsOf_decompose {raw : String} (h : 3 ≤ (partsOf raw).length) :
    ∃ a b r : List Char, (TrimSpace raw).data = a ++ ' ' :: (b ++ ' ' :: r) ∧
      ' ' ∉ a ∧ ' ' ∉ b ∧
      partsOf raw = String.mk a :: String.mk b :: (splitChars ' ' r).map String.mk := by
  simp only [partsOf, Split, List.length_map] at h ⊢
  cases hs : splitChars ' ' (TrimSpace raw).data with
  | nil => rw [hs] at h; simp at h
  | cons p t =>
    cases t with
    | nil => rw [hs] at h; simp at h
    | cons q t2 =>
      obtain ⟨r1, hl1, hn1, hr1⟩ := splitChars_cons_cons hs
      cases t2 with
      | nil => rw [hs] at h; simp at h
      | cons u t3 =>
        obtain ⟨r2, hl2, hn2, hr2⟩ := splitChars_cons_cons hr1
        refine ⟨p, q, r2, ?_, hn1, hn2, ?_⟩
        · rw [hl1, hl2]
        · rw [hr2]
          rfl

/-- C9 (as stated, refuted): `SET k a  b` stores `a  b`, with its two spaces,
while the whitespace-separated tokens from the value position on, joined with
single spaces, are `a b`. -/
theorem c9_double_space_in_value_is_kept :
    (handleLine id (NewServerWithCapacity 6379 10 FileContent.missing) 1 "client-1" false
        quietEnv "SET k a  b\n").map (fun o => (o.output, o.server.cache.GetAllData))
      = some (some "OK\n", [("k", "a  b")]) ∧
    Join ((specTokens "SET k a  b\n").drop 2) " " = "a b" := by
  decide

/-- C9 (amended): a `SET` or `PUBLISH` message that the dispatcher accepts is,
once trimmed, a word, one space, a key or channel without a space, one space,
and a remaining text; the value stored by `SET` (the value passed to `Publish`
by `PUBLISH`) is that remaining text, character for character, which is also
the parts from the third on joined with single spaces. -/
theorem c9_value_is_rest_of_line (tbl : Char → Char) (C : Int) (cs : List Call) (s0 : Server)
    (conn : Conn) (clientID : String) (isReplica : Bool) (env : Env) (raw : String)
    (hcmd : commandOf tbl raw = "SET" ∨ commandOf tbl raw = "PUBLISH")
    (hlen : 3 ≤ (partsOf raw).length) :
    ∃ word key value : String,
      TrimSpace raw = word ++ " " ++ key ++ " " ++ value ∧
      ' ' ∉ word.data ∧ ' ' ∉ key.data ∧
      Join ((partsOf raw).drop 2) " " = value ∧
      (if commandOf tbl raw = "SET" then
        ∃ o, handleLine tbl { s0 with cache := (NewCache C).calls cs } conn clientID isReplica
            env raw = some o ∧ o.output = some "OK\n" ∧
          o.server.cache = (((NewCache C).calls cs).Set key value).1 ∧
          mapGet o.server.cache.GetAllData key = some value
       else
        handleLine tbl { s0 with cache := (NewCache C).calls cs } conn clientID isReplica
            env raw =
          (s0.pubsub.Publish key value).map (fun r =>
            reply { s0 with cache := (NewCache C).calls cs, pubsub := r.1 } isReplica
              ("(integer) " ++ toString r.2 ++ "\n"))) := by
  obtain ⟨a, b, r, htrim, ha, hb, hparts⟩ := partsOf_decompose hlen
  have hl : ((NewCache C).calls cs).Linked := linked_calls cs (linked_NewCache C)
  have hjoin : Join ((partsOf raw).drop 2) " " = String.mk r := by
    rw [hparts]
    simp only [List.drop_succ_cons, List.drop_zero]
    exact Join_splitChars r
  have hkey : (partsOf raw).getD 1 "" = String.mk b := by
    rw [hparts]
    rfl
  have hnlen : ¬ ((partsOf raw).length < 3) := by omega
  refine ⟨String.mk a, String.mk b, String.mk r, ?_, ha, hb, hjoin, ?_⟩
  · apply String.ext
    simp [String.data_append, htrim]
  by_cases hset : commandOf tbl raw = "SET"
  · rw [if_pos hset]
    rw [handleLine_eq _ _ _ _ _ _ _ (by rw [hset]; decide)]
    simp only [hset, if_true, handleSET, hnlen, if_false, hjoin, hkey]
    exact ⟨_, rfl, rfl, rfl, value_Set_self hl _ _⟩
  · rw [if_neg hset]
    have hpub : commandOf tbl raw = "PUBLISH" := hcmd.resolve_left hset
    rw [handleLine_eq _ _ _ _ _ _ _ (by rw [hpub]; decide)]
    simp only [hpub, handlePUBLISH, hnlen, if_false, hjoin, hkey]
    simp only [show ¬ ("PUBLISH" = "SET") by decide, show ¬ ("PUBLISH" = "GET") by decide,
      show ¬ ("PUBLISH" = "DEL") by decide, show ¬ ("PUBLISH" = "PING") by decide,
      show ¬ ("PUBLISH" = "SUBSCRIBE") by decide, show ¬ ("PUBLISH" = "UNSUBSCRIBE") by decide,
      if_false, if_true]
    cases s0.pubsub.Publish (String.mk b) (String.mk r) with
    | none => rfl
    | some p => rfl

/-- C9 instantiated: `SET k a  b`. -/
theorem c9_value_is_rest_of_line_witness :
    (commandOf id "SET k a  b\n" = "SET" ∨ commandOf id "SET k a  b\n" = "PUBLISH") ∧
    3 ≤ (partsOf "SET k a  b\n").length ∧
    ∃ word key value : String,
      TrimSpace "SET k a  b\n" = word ++ " " ++ key ++ " " ++ value ∧
      ' ' ∉ word.data ∧ ' ' ∉ key.data ∧
      Join ((partsOf "SET k a  b\n").drop 2) " " = value ∧
      (if commandOf id "SET k a  b\n" = "SET" then
        ∃ o, handleLine id { NewServer 6379 FileContent.missing with
              cache := (NewCache 3).calls [] } 1 "client-1" false quietEnv "SET k a  b\n"
            = some o ∧ o.output = some "OK\n" ∧
          o.server.cache = (((NewCache 3).calls []).Set key value).1 ∧
          mapGet o.server.cache.GetAllData key = some value
       else
        handleLine id { NewServer 6379 FileContent.missing with
              cache := (NewCache 3).calls [] } 1 "client-1" false quietEnv "SET k a  b\n" =
          ((NewServer 6379 FileContent.missing).pubsub.Publish key value).map (fun r =>
            reply { NewServer 6379 FileContent.missing with
                cache := (NewCache 3).calls [], pubsub := r.1 } false
              ("(integer) " ++ toString r.2 ++ "\n"))) :=
  ⟨by decide, by decide,
    c9_value_is_rest_of_line id 3 [] (NewServer 6379 FileContent.missing) 1 "client-1" false
      quietEnv "SET k a  b\n" (by decide) (by decide)⟩

theorem propagated_handleUNSUBSCRIBE {s : Server} {clientID : String} {isReplica : Bool}
    {parts : List String} {o : Outcome}
    (h : handleUNSUBSCRIBE s clientID isReplica parts = some o) : o.propagated = [] := by
  unfold handleUNSUBSCRIBE at h
  by_cases hl : parts.length < 2
  · simp only [hl, if_true, Option.some.injEq] at h
    rw [← h]
    rfl
  · cases hU : s.pubsub.Unsubscribe (parts.getD 1 "") clientID with
    | none =>
      simp only [hl, if_false, hU] at h
      cases h
    | some ps =>
      simp only [hl, if_false, hU, Option.some.injEq] at h
      rw [← h]
      rfl

theorem propagated_handlePUBLISH {s : Server} {isReplica : Bool}
    {parts : List String} {o : Outcome}
    (h : handlePUBLISH s isReplica parts = some o) : o.propagated = [] := by
  unfold handlePUBLISH at h
  by_cases hl : parts.length < 3
  · simp only [hl, if_true, Option.some.injEq] at h
    rw [← h]
    rfl
  · cases hU : s.pubsub.Publish (parts.getD 1 "") (Join (parts.drop 2) " ") with
    | none =>
      simp only [hl, if_false, hU] at h
      cases h
    | some p =>
      simp only [hl, if_false, hU, Option.some.injEq] at h
      rw [← h]
      rfl

theorem propagated_handleREPLICAOF (s : Server) (isReplica : Bool) (env : Env)
    (parts : List String) : (handleREPLICAOF s isReplica env parts).propagated = [] := by
  unfold handleREPLICAOF
  by_cases hl : parts.length < 3
  · simp only [hl, if_true]
    rfl
  · cases hA : Atoi (parts.getD 2 "") with
    | none => simp only [hl, if_false]; rfl
    | some p =>
      simp only [hl, if_false]
      cases hC : (s.repl.ConnectToMaster env.dial).2.1 <;> rfl

theorem propagated_handleSAVE (s : Server) (isReplica : Bool) (env : Env) :
    (handleSAVE s isReplica env).propagated = [] := by
  unfold handleSAVE
  cases hS : (s.rdb.Save env.createErr env.encodeErr s.cache.GetAllData).2 <;> simp only [hS] <;> rfl

theorem propagated_handleGET (s : Server) (isReplica : Bool) (parts : List String) :
    (handleGET s isReplica parts).propagated = [] := by
  unfold handleGET
  by_cases hl : parts.length < 2
  · simp only [hl, if_true]
    rfl
  · cases hG : (s.cache.Get (parts.getD 1 "")).2.2 <;> simp only [hl, if_false, hG] <;> rfl

theorem propagated_handleSUBSCRIBE (s : Server) (clientID : String) (isReplica : Bool)
    (parts : List String) : (handleSUBSCRIBE s clientID isReplica parts).propagated = [] := by
  unfold handleSUBSCRIBE
  split <;> rfl

theorem propagateIfMaster_eq (s : Server) (message : String) :
    propagateIfMaster s message =
      if s.repl.role = "master" then s.repl.replicas.map (fun c => (c, message ++ "\n"))
      else [] := by
  simp only [propagateIfMaster, ReplicationManager.IsMaster, ReplicationManager.Role,
    ReplicationManager.PropagateCommand, decide_eq_true_eq]

theorem propagated_handleSET (s : Server) (isReplica : Bool) (message : String)
    (parts : List String) :
    (handleSET s isReplica message parts).propagated =
      if s.repl.role = "master" ∧ 3 ≤ parts.length then
        s.repl.replicas.map (fun c => (c, message ++ "\n"))
      else [] := by
  unfold handleSET
  by_cases h : parts.length < 3
  · have : ¬ (3 ≤ parts.length) := by omega
    simp [h, this, reply]
  · have : 3 ≤ parts.length := by omega
    simp only [h, if_false, this, and_true, propagateIfMaster_eq]

theorem propagated_handleDEL (s : Server) (isReplica : Bool) (message : String)
    (parts : List String) :
    (handleDEL s isReplica message parts).propagated =
      if s.repl.role = "master" ∧ 2 ≤ parts.length ∧
          (s.cache.Del (parts.getD 1 "")).2 = true then
        s.repl.replicas.map (fun c => (c, message ++ "\n"))
      else [] := by
  unfold handleDEL
  by_cases h : parts.length < 2
  · have : ¬ (2 ≤ parts.length) := by omega
    simp [h, this, reply]
  · have h2 : 2 ≤ parts.length := by omega
    by_cases hd : (s.cache.Del (parts.getD 1 "")).2 = true
    · simp only [h, if_false, hd, if_true, h2, and_true, propagateIfMaster_eq]
    · simp only [h, if_false, hd, Bool.false_eq_true, and_false]
      rfl

/-- C10: for every message that the dispatcher handles, the writes started by
`PropagateCommand` are: when the role is master and the command is a `SET`
with key and value, or a `DEL` with a key that `Del` removed, one write of the
trimmed message followed by a newline to every connection of the replica
list; in every other case, none. -/
theorem c10_propagation_iff_master_mutation (tbl : Char → Char) (s : Server) (conn : Conn)
    (clientID : String) (isReplica : Bool) (env : Env) (raw : String) (o : Outcome)
    (h : handleLine tbl s conn clientID isReplica env raw = some o) :
    o.propagated =
      if s.repl.role = "master" ∧
          ((commandOf tbl raw = "SET" ∧ 3 ≤ (partsOf raw).length) ∨
           (commandOf tbl raw = "DEL" ∧ 2 ≤ (partsOf raw).length ∧
              (s.cache.Del ((partsOf raw).getD 1 "")).2 = true)) then
        s.repl.replicas.map (fun c => (c, TrimSpace raw ++ "\n"))
      else [] := by
  by_cases hempty : (TrimSpace raw).data.length = 0
  · have hc := commandOf_of_empty tbl hempty
    simp only [handleLine, hempty, if_true, Option.some.injEq] at h
    rw [← h, hc]
    simp
  · rw [handleLine_of_nonempty _ _ _ _ _ _ _ hempty] at h
    dsimp only at h
    by_cases hS : commandOf tbl raw = "SET"
    · simp only [hS, if_true, Option.some.injEq] at h
      rw [← h, propagated_handleSET]
      simp [hS]
    by_cases hG : commandOf tbl raw = "GET"
    · simp only [hG, if_true, Option.some.injEq, show ¬ ("GET" = "SET") by decide,
        if_false] at h
      rw [← h, propagated_handleGET]
      simp [hG]
    by_cases hD : commandOf tbl raw = "DEL"
    · simp only [hD, if_true, Option.some.injEq, show ¬ ("DEL" = "SET") by decide,
        show ¬ ("DEL" = "GET") by decide, if_false] at h
      rw [← h, propagated_handleDEL]
      simp [hD]
    have hcond : ¬ (s.repl.role = "master" ∧
          ((commandOf tbl raw = "SET" ∧ 3 ≤ (partsOf raw).length) ∨
           (commandOf tbl raw = "DEL" ∧ 2 ≤ (partsOf raw).length ∧
              (s.cache.Del ((partsOf raw).getD 1 "")).2 = true))) := by
      rintro ⟨_, ⟨h1, _⟩ | ⟨h1, _⟩⟩
      · exact hS h1
      · exact hD h1
    rw [if_neg hcond]
    simp only [hS, hG, hD, if_false] at h
    split at h
    · simp only [Option.some.injEq] at h; subst h; rfl
    split at h
    · simp only [Option.some.injEq] at h; subst h; exact propagated_handleSUBSCRIBE _ _ _ _
    split at h
    · exact propagated_handleUNSUBSCRIBE h
    split at h
    · exact propagated_handlePUBLISH h
    split at h
    · simp only [Option.some.injEq] at h; subst h; exact propagated_handleSAVE _ _ _
    split at h
    · simp only [Option.some.injEq] at h; subst h; exact propagated_handleREPLICAOF _ _ _ _
    split at h
    · simp only [Option.some.injEq] at h; subst h; rfl
    split at h
    · simp only [Option.some.injEq] at h; subst h; rfl
    split at h
    · simp only [Option.some.injEq] at h; subst h; rfl
    · simp only [Option.some.injEq] at h; subst h; rfl

/-- C10 instantiated: `SET a 1` on a master that has the replica connection 5. -/
theorem c10_propagation_iff_master_mutation_witness :
    handleLine id { NewServer 6379 FileContent.missing with
        repl := NewReplicationManager.AddReplica 5 } 1 "client-1" false quietEnv "SET a 1\r\n"
      = some { server := { NewServer 6379 FileContent.missing with
                 repl := NewReplicationManager.AddReplica 5,
                 cache := ((NewCache 10000).Set "a" "1").1 },
               isReplica := false, output := some "OK\n", quit := false,
               propagated := [(5, "SET a 1\n")], handshake := [] } ∧
    [((5 : Conn), "SET a 1\n")] =
      if (NewReplicationManager.AddReplica 5).role = "master" ∧
          ((commandOf id "SET a 1\r\n" = "SET" ∧ 3 ≤ (partsOf "SET a 1\r\n").length) ∨
           (commandOf id "SET a 1\r\n" = "DEL" ∧ 2 ≤ (partsOf "SET a 1\r\n").length ∧
              ((NewCache 10000).Del ((partsOf "SET a 1\r\n").getD 1 "")).2 = true)) then
        (NewReplicationManager.AddReplica 5).replicas.map
          (fun c => (c, TrimSpace "SET a 1\r\n" ++ "\n"))
      else [] :=
  ⟨by decide,
    c10_propagation_iff_master_mutation id { NewServer 6379 FileContent.missing with
        repl := NewReplicationManager.AddReplica 5 } 1 "client-1" false quietEnv "SET a 1\r\n"
      { server := { NewServer 6379 FileContent.missing with
          repl := NewReplicationManager.AddReplica 5,
          cache := ((NewCache 10000).Set "a" "1").1 },
        isReplica := false, output := some "OK\n", quit := false,
        propagated := [(5, "SET a 1\n")], handshake := [] }
      (by decide)⟩

/-- `ApplyCommand` on a trimmed message and the loop body on the message change
the cache alike when the command is `SET` or `DEL`; on any other message
`ApplyCommand` changes nothing. -/
theorem ApplyCommand_matches (tbl : Char → Char) (s : Server) (conn : Conn)
    (clientID : String) (isReplica : Bool) (env : Env) (raw : String) :
    if commandOf tbl raw = "SET" ∨ commandOf tbl raw = "DEL" then
      ∃ o, handleLine tbl s conn clientID isReplica env raw = some o ∧
        Server.ApplyCommand tbl s (TrimSpace raw) = { s with cache := o.server.cache }
    else Server.ApplyCommand tbl s (TrimSpace raw) = s := by
  have hlen : ¬ ((Split (TrimSpace raw) ' ').length < 1) := by
    have := splitChars_ne_nil ' ' (TrimSpace raw).data
    simp only [Split, List.length_map]
    cases hs : splitChars ' ' (TrimSpace raw).data with
    | nil => exact absurd hs this
    | cons a l => simp
  have hA : Server.ApplyCommand tbl s (TrimSpace raw) =
      (if commandOf tbl raw = "SET" then
        if (partsOf raw).length ≥ 3 then
          { s with cache := (s.cache.Set ((partsOf raw).getD 1 "")
              (Join ((partsOf raw).drop 2) " ")).1 }
        else s
      else if commandOf tbl raw = "DEL" then
        if (partsOf raw).length ≥ 2 then
          { s with cache := (s.cache.Del ((partsOf raw).getD 1 "")).1 }
        else s
      else s) := by
    simp only [Server.ApplyCommand, hlen, if_false]
    rfl
  rw [hA]
  by_cases hS : commandOf tbl raw = "SET"
  · simp only [hS, true_or, if_true]
    rw [handleLine_eq _ _ _ _ _ _ _ (by rw [hS]; decide)]
    simp only [hS, if_true]
    refine ⟨_, rfl, ?_⟩
    simp only [handleSET]
    by_cases h3 : (partsOf raw).length < 3
    · have : ¬ ((partsOf raw).length ≥ 3) := by omega
      simp only [h3, this, if_true, if_false]
      rfl
    · have : (partsOf raw).length ≥ 3 := by omega
      simp only [h3, this, if_true, if_false]
      rfl
  · by_cases hD : commandOf tbl raw = "DEL"
    · simp only [hD, or_true, if_true, show ¬ ("DEL" = "SET") by decide, if_false]
      rw [handleLine_eq _ _ _ _ _ _ _ (by rw [hD]; decide)]
      simp only [hD, show ¬ ("DEL" = "SET") by decide, show ¬ ("DEL" = "GET") by decide,
        if_true, if_false]
      refine ⟨_, rfl, ?_⟩
      simp only [handleDEL]
      by_cases h2 : (partsOf raw).length < 2
      · have : ¬ ((partsOf raw).length ≥ 2) := by omega
        simp only [h2, this, if_true, if_false]
        rfl
      · have : (partsOf raw).length ≥ 2 := by omega
        simp only [h2, this, if_true, if_false]
        cases hd : (s.cache.Del ((partsOf raw).getD 1 "")).2 <;> simp [hd, reply]
    · simp only [hS, hD, or_self, if_false]

/-- The receive task on the propagated text of `SET k v`. -/
theorem receive_SET_line (tbl : Char → Char) (s : Server) (k v : String)
    (hk : ∀ c ∈ k.data, isSpace c = false) (hv0 : v.data ≠ [])
    (hv2 : ∀ c, v.data.getLast? = some c → isSpace c = false) :
    Server.receive tbl s ("SET " ++ k ++ " " ++ v ++ "\n") =
      { s with cache := (s.cache.Set k v).1 } := by
  have hm := ApplyCommand_matches tbl s 0 "" false quietEnv ("SET " ++ k ++ " " ++ v ++ "\n")
  have hl := handleLine_SET_line tbl s 0 "" false quietEnv k v hk hv0 hv2
  have hraw : "SET " ++ k ++ " " ++ v ++ "\n" = "SET" ++ " " ++ k ++ " " ++ v ++ "\n" := rfl
  obtain ⟨ht, hp⟩ := partsOf_three "SET".data k.data v.data (by decide) (by decide) hk hv0 hv2
  have hcmd : commandOf tbl ("SET " ++ k ++ " " ++ v ++ "\n") = "SET" := by
    rw [hraw, line_three]
    simp only [commandOf, hp]
    rfl
  rw [if_pos (Or.inl hcmd)] at hm
  obtain ⟨o, ho, hA⟩ := hm
  rw [hl] at ho
  simp only [Option.some.injEq] at ho
  have hne : (TrimSpace ("SET " ++ k ++ " " ++ v ++ "\n")).data.length > 0 := by
    rw [hraw, line_three, ht]
    simp
  simp only [Server.receive, hne, if_true, hA, ← ho]
  rfl

/-- The receive task on the propagated text of `DEL k`. -/
theorem receive_DEL_line (tbl : Char → Char) (s : Server) (k : String) (hk0 : k.data ≠ [])
    (hk : ∀ c ∈ k.data, isSpace c = false) :
    Server.receive tbl s ("DEL " ++ k ++ "\n") = { s with cache := (s.cache.Del k).1 } := by
  have hm := ApplyCommand_matches tbl s 0 "" false quietEnv ("DEL " ++ k ++ "\n")
  have hl := handleLine_DEL_line tbl s 0 "" false quietEnv k hk0 hk
  have hraw : "DEL " ++ k ++ "\n" = "DEL" ++ " " ++ k ++ "\n" := rfl
  have hp := partsOf_two "DEL".data k.data (by decide) (by decide) hk0 hk
  have hcmd : commandOf tbl ("DEL " ++ k ++ "\n") = "DEL" := by
    rw [hraw, line_two]
    simp only [commandOf, hp]
    rfl
  rw [if_pos (Or.inr hcmd)] at hm
  obtain ⟨o, ho, hA⟩ := hm
  rw [hl] at ho
  simp only [Option.some.injEq] at ho
  have hne : (TrimSpace ("DEL " ++ k ++ "\n")).data.length > 0 := by
    by_contra h0
    have h0' : (TrimSpace ("DEL " ++ k ++ "\n")).data.length = 0 := by omega
    have := commandOf_of_empty tbl h0'
    rw [hcmd] at this
    exact absurd this (by decide)
  simp only [Server.receive, hne, if_true, hA, ← ho]
  simp only [handleDEL]
  cases hd : (s.cache.Del (["DEL", k].getD 1 "")).2 <;> simp [hd, reply]

/-- C11 (as stated, refuted): a master with the replica connection 5 handles
`SET k v` and an empty replica receives what the master posts. With the empty
key the master answers `OK` and posts `SET  v`, the replica stores it, and
`GET ` on the replica is answered with an arity error; with the key `a b` the
replica answers `GET a b` with `b v`; with the empty value the master answers
with an arity error and posts nothing, and `GET k` on the replica is answered
`(nil)`; with the value `x ` the master posts `SET k x` and the replica answers
`GET k` with `x`. -/
theorem c11_replica_get_differs_for_unsplit_arguments :
    ((handleLine id { NewServer 6379 FileContent.missing with
          repl := NewReplicationManager.AddReplica 5 } 1 "client-1" false quietEnv
        ("SET " ++ "" ++ " " ++ "v" ++ "\n")).map (fun o => (o.output, o.propagated))
      = some (some "OK\n", [(5, "SET  v\n")]) ∧
     (Server.receive id (NewServer 6380 FileContent.missing) "SET  v\n").cache.GetAllData
      = [("", "v")] ∧
     (handleLine id (Server.receive id (NewServer 6380 FileContent.missing) "SET  v\n")
        1 "client-1" false quietEnv ("GET " ++ "" ++ "\n")).map (fun o => o.output)
      = some (some "(error) ERR wrong number of arguments for 'get' command\n")) ∧
    ((handleLine id { NewServer 6379 FileContent.missing with
          repl := NewReplicationManager.AddReplica 5 } 1 "client-1" false quietEnv
        ("SET " ++ "a b" ++ " " ++ "v" ++ "\n")).map (fun o => (o.output, o.propagated))
      = some (some "OK\n", [(5, "SET a b v\n")]) ∧
     (handleLine id (Server.receive id (NewServer 6380 FileContent.missing) "SET a b v\n")
        1 "client-1" false quietEnv ("GET " ++ "a b" ++ "\n")).map (fun o => o.output)
      = some (some "b v\n")) ∧
    ((handleLine id { NewServer 6379 FileContent.missing with
          repl := NewReplicationManager.AddReplica 5 } 1 "client-1" false quietEnv
        ("SET " ++ "k" ++ " " ++ "" ++ "\n")).map (fun o => (o.output, o.propagated))
      = some (some "(error) ERR wrong number of arguments for 'set' command\n", []) ∧
     (handleLine id (NewServer 6380 FileContent.missing) 1 "client-1" false quietEnv
        ("GET " ++ "k" ++ "\n")).map (fun o => o.output)
      = some (some "(nil)\n")) ∧
    ((handleLine id { NewServer 6379 FileContent.missing with
          repl := NewReplicationManager.AddReplica 5 } 1 "client-1" false quietEnv
        ("SET " ++ "k" ++ " " ++ "x " ++ "\n")).map (fun o => (o.output, o.propagated))
      = some (some "OK\n", [(5, "SET k x\n")]) ∧
     (handleLine id (Server.receive id (NewServer 6380 FileContent.missing) "SET k x\n")
        1 "client-1" false quietEnv ("GET " ++ "k" ++ "\n")).map (fun o => o.output)
      = some (some "x\n")) := by
  refine ⟨?_, ?_, ?_, ?_⟩ <;> decide

/-- C11 (amended): `ApplyCommand` on a trimmed message whose command is `SET` or `DEL`
leaves the server as the loop body of the dispatcher leaves it on the same
message, cache included, and touches nothing but the cache (it returns no
response and starts no write); on every other message it leaves the server
unchanged. Hence, for a non-empty key `k` without white space and a non-empty
value `v` that does not end in white space: when a master handles `SET k v`,
the text it posts to its replicas, received by a replica, makes `GET k` on the
replica answer `v`; and when the master then handles `DEL k`, which removes
`k`, the text it posts makes `GET k` on the replica answer `(nil)`, as it does
on any replica that receives it. -/
theorem c11_apply_matches_dispatcher (tbl : Char → Char) (m0 r0 : Server) (Cm Cr : Int)
    (csm csr : List Call) (conn : Conn) (clientID : String) (isReplica : Bool)
    (e1 e2 e3 e4 : Env) (k v : String)
    (hm : m0.repl.role = "master")
    (hk0 : k.data ≠ []) (hk : ∀ c ∈ k.data, isSpace c = false)
    (hv0 : v.data ≠ []) (hv2 : ∀ c, v.data.getLast? = some c → isSpace c = false) :
    (∀ (s : Server) (conn1 : Conn) (clientID1 : String) (isReplica1 : Bool) (env : Env)
        (raw : String),
      if commandOf tbl raw = "SET" ∨ commandOf tbl raw = "DEL" then
        ∃ o, handleLine tbl s conn1 clientID1 isReplica1 env raw = some o ∧
          Server.ApplyCommand tbl s (TrimSpace raw) = { s with cache := o.server.cache }
      else Server.ApplyCommand tbl s (TrimSpace raw) = s) ∧
    (∃ o1 o2 o3 o4,
      handleLine tbl { m0 with cache := (NewCache Cm).calls csm } conn clientID isReplica e1
          ("SET " ++ k ++ " " ++ v ++ "\n") = some o1 ∧
        o1.propagated = m0.repl.replicas.map (fun c => (c, "SET " ++ k ++ " " ++ v ++ "\n")) ∧
      handleLine tbl
          (Server.receive tbl { r0 with cache := (NewCache Cr).calls csr }
            ("SET " ++ k ++ " " ++ v ++ "\n"))
          conn clientID isReplica e2 ("GET " ++ k ++ "\n") = some o2 ∧
        o2.output = some (v ++ "\n") ∧
      handleLine tbl o1.server conn clientID isReplica e3 ("DEL " ++ k ++ "\n") = some o3 ∧
        o3.output = some "(integer) 1\n" ∧
        o3.propagated = m0.repl.replicas.map (fun c => (c, "DEL " ++ k ++ "\n")) ∧
      handleLine tbl (Server.receive tbl o2.server ("DEL " ++ k ++ "\n"))
          conn clientID isReplica e4 ("GET " ++ k ++ "\n") = some o4 ∧
        o4.output = some "(nil)\n") ∧
    (∀ r : Server, ∃ o,
      handleLine tbl (Server.receive tbl r ("DEL " ++ k ++ "\n")) conn clientID isReplica e4
          ("GET " ++ k ++ "\n") = some o ∧
        o.output = some "(nil)\n") := by
  refine ⟨fun s conn1 clientID1 isReplica1 env raw =>
    ApplyCommand_matches tbl s conn1 clientID1 isReplica1 env raw, ?_⟩
  have hlm : ((NewCache Cm).calls csm).Linked := linked_calls csm (linked_NewCache Cm)
  have hlr : ((NewCache Cr).calls csr).Linked := linked_calls csr (linked_NewCache Cr)
  have hvalr := value_Set_self hlr k v
  have hvalm := value_Set_self hlm k v
  obtain ⟨id, hid⟩ : ∃ id, mapGet (((NewCache Cm).calls csm).Set k v).1.items k = some id := by
    rw [mapGet_GetAllData] at hvalm
    cases hi : mapGet (((NewCache Cm).calls csm).Set k v).1.items k with
    | none => rw [hi] at hvalm; simp at hvalm
    | some id => exact ⟨id, rfl⟩
  have h1 := handleLine_SET_line tbl { m0 with cache := (NewCache Cm).calls csm } conn clientID
    isReplica e1 k v hk hv0 hv2
  have h2 : handleLine tbl
      (Server.receive tbl { r0 with cache := (NewCache Cr).calls csr }
        ("SET " ++ k ++ " " ++ v ++ "\n"))
      conn clientID isReplica e2 ("GET " ++ k ++ "\n") =
      some (reply { r0 with cache := ((((NewCache Cr).calls csr).Set k v).1.Get k).1 }
        isReplica (v ++ "\n")) := by
    rw [receive_SET_line tbl _ k v hk hv0 hv2,
      handleLine_GET_line tbl _ conn clientID _ e2 k hk0 hk, handleGET_hit _ _ k v hvalr]
  have h3 : handleLine tbl { m0 with cache := (((NewCache Cm).calls csm).Set k v).1 }
      conn clientID isReplica e3 ("DEL " ++ k ++ "\n") =
      some { reply { m0 with cache := ((((NewCache Cm).calls csm).Set k v).1.Del k).1 }
               isReplica "(integer) 1\n" with
             propagated := propagateIfMaster
               { m0 with cache := ((((NewCache Cm).calls csm).Set k v).1.Del k).1 }
               ("DEL " ++ k) } := by
    rw [handleLine_DEL_line tbl _ conn clientID _ e3 k hk0 hk, handleDEL_hit _ _ _ k id hid]
  have h4 : handleLine tbl
      (Server.receive tbl
        { r0 with cache := ((((NewCache Cr).calls csr).Set k v).1.Get k).1 }
        ("DEL " ++ k ++ "\n"))
      conn clientID isReplica e4 ("GET " ++ k ++ "\n") =
      some (reply
        { r0 with cache := (((((NewCache Cr).calls csr).Set k v).1.Get k).1.Del k).1 }
        isReplica "(nil)\n") := by
    rw [receive_DEL_line tbl _ k hk0 hk,
      handleLine_GET_line tbl _ conn clientID _ e4 k hk0 hk,
      handleGET_miss _ _ k (by simp [mapGet_items_Del])]
  have hp : ∀ (c : Cache) (msg : String), propagateIfMaster { m0 with cache := c } msg =
      m0.repl.replicas.map (fun x => (x, msg ++ "\n")) := by
    intro c msg
    rw [propagateIfMaster_eq]
    exact if_pos hm
  refine ⟨⟨_, _, _, _, h1, hp _ _, h2, rfl, h3, rfl, hp _ _, h4, rfl⟩, fun r => ?_⟩
  refine ⟨reply { r with cache := (r.cache.Del k).1 } isReplica "(nil)\n", ?_, rfl⟩
  rw [receive_DEL_line tbl _ k hk0 hk, handleLine_GET_line tbl _ conn clientID _ e4 k hk0 hk,
    handleGET_miss _ _ k (by simp [mapGet_items_Del])]

/-- C11 instantiated: a master with the replica connection 5 handles `SET r 1`
and `DEL r`; the replica starts empty. -/
theorem c11_apply_matches_dispatcher_witness :
    ({ NewServer 6379 FileContent.missing with
        repl := NewReplicationManager.AddReplica 5 } : Server).repl.role = "master" ∧
    "r".data ≠ [] ∧ (∀ c ∈ "r".data, isSpace c = false) ∧ "1".data ≠ [] ∧
    (∀ c, "1".data.getLast? = some c → isSpace c = false) ∧
    (∃ o2, handleLine id
        (Server.receive id { NewServer 6380 FileContent.missing with
            cache := (NewCache 100).calls [] } ("SET " ++ "r" ++ " " ++ "1" ++ "\n"))
        1 "client-1" false quietEnv ("GET " ++ "r" ++ "\n") = some o2 ∧
      o2.output = some ("1" ++ "\n")) :=
  ⟨by decide, by decide, by decide, by decide, by decide,
    by
      obtain ⟨_, o2, _, _, _, _, h2, ho2, _⟩ :=
        (c11_apply_matches_dispatcher id
          { NewServer 6379 FileContent.missing with repl := NewReplicationManager.AddReplica 5 }
          (NewServer 6380 FileContent.missing) 10000 100 [] [] 1 "client-1" false
          quietEnv quietEnv quietEnv quietEnv "r" "1" (by decide) (by decide) (by decide)
          (by decide) (by decide)).2.1
      exact ⟨o2, h2, ho2⟩⟩

/-- C12 (the code at the failing input): on a new node, whose role is
`master`, a `REPLICAOF` with a valid port whose dial fails is answered with an
`(error)` line, and the role is `replica` afterwards, as `INFO` then reports. -/
theorem c12_failed_dial_sets_role_replica :
    (NewServer 6379 FileContent.missing).repl.Role = "master" ∧
    (handleLine id (NewServer 6379 FileContent.missing) 1 "client-1" false quietEnv
        "REPLICAOF 10.0.0.1 6379\n").map (fun o => (o.output, o.server.repl.Role))
      = some (some "(error) connection refused\n", "replica") ∧
    ((handleLine id (NewServer 6379 FileContent.missing) 1 "client-1" false quietEnv
        "REPLICAOF 10.0.0.1 6379\n").bind
      (fun o => handleLine id o.server 1 "client-1" o.isReplica quietEnv "INFO\n")).map
        (fun o => o.output)
      = some (some "role:replica\nreplicas:0\n") := by
  decide

/-- C17 (the code at the failing input): `LoadData` of a mapping with the key
`a` into a cache that holds `a` pushes a second element for `a`: `Keys()`
lists `a` twice and `Len()` is 2, while `GetAllData()` has one key. -/
theorem c17_loaddata_duplicates_present_key :
    ((NewCache 3).calls [Call.op (Op.Set "a" "1"), Call.LoadData [("a", "2")]]).Keys
      = ["a", "a"] ∧
    ((NewCache 3).calls [Call.op (Op.Set "a" "1"), Call.LoadData [("a", "2")]]).Len = 2 ∧
    ((NewCache 3).calls [Call.op (Op.Set "a" "1"), Call.LoadData [("a", "2")]]).GetAllData
      = [("a", "2")] := by
  decide

/-- C19 (the code at the failing input): after two `Subscribe` calls for the
same channel and subscriber and one `UnsubscribeAll`, no record is left, the
queue of the second call is closed and the queue of the first call, which the
second call replaced, is still open. -/
theorem c19_replaced_queue_left_open :
    (PubSub.run NewPubSub [BrokerOp.Subscribe "news" "client-1",
        BrokerOp.Subscribe "news" "client-1", BrokerOp.UnsubscribeAll "client-1"]).map
      (fun ps => (ps.channels, ps.subs.map (fun sub => (sub.ID, sub.Messages.closed))))
      = some ([], [("client-1", false), ("client-1", true)]) := by
  decide

/-- C16: whatever the snapshot file held, when `Save(M)` returns without error
(which is when neither `os.Create` nor `Encode` fails), the path is unchanged
and a following `Load()` whose `os.Open` succeeds returns `M` without error. -/
theorem c16_save_then_load_returns_mapping (r : RDB) (createErr encodeErr : Option String)
    (M : List (String × String)) (h : (r.Save createErr encodeErr M).2 = none) :
    (createErr = none ∧ encodeErr = none) ∧
    (r.Save createErr encodeErr M).1.filepath = r.filepath ∧
    (r.Save createErr encodeErr M).1.Load none = Except.ok M := by
  cases createErr with
  | some e => simp [RDB.Save] at h
  | none =>
    cases encodeErr with
    | some e => simp [RDB.Save] at h
    | none => exact ⟨⟨rfl, rfl⟩, rfl, rfl⟩

/-- C16 instantiated: the mapping of the test, saved over a file that held
bytes that do not decode. -/
theorem c16_save_then_load_returns_mapping_witness :
    (({ filepath := "test_rdb.gob", file := FileContent.corrupt } : RDB).Save none none
        [("key1", "value1"), ("key2", "value2"), ("key3", "value3")]).2 = none ∧
    ((none : Option String) = none ∧ (none : Option String) = none) ∧
    (({ filepath := "test_rdb.gob", file := FileContent.corrupt } : RDB).Save none none
        [("key1", "value1"), ("key2", "value2"), ("key3", "value3")]).1.filepath
      = "test_rdb.gob" ∧
    (({ filepath := "test_rdb.gob", file := FileContent.corrupt } : RDB).Save none none
        [("key1", "value1"), ("key2", "value2"), ("key3", "value3")]).1.Load none
      = Except.ok [("key1", "value1"), ("key2", "value2"), ("key3", "value3")] :=
  ⟨by decide, c16_save_then_load_returns_mapping
    { filepath := "test_rdb.gob", file := FileContent.corrupt } none none
    [("key1", "value1"), ("key2", "value2"), ("key3", "value3")] (by decide)⟩

theorem LoadData_cons (c : Cache) (key value : String) (rest : List (String × String)) :
    c.LoadData ((key, value) :: rest) =
      if (c.order.length : Int) ≥ c.capacity then c
      else (c.pushBack key value).LoadData rest := by
  rw [Cache.LoadData]
  rfl

theorem mapDel_of_none {β : Type} {m : List (String × β)} {k : String}
    (h : mapGet m k = none) : mapDel m k = m := by
  induction m with
  | nil => rfl
  | cons p m ih =>
    obtain ⟨a, b⟩ := p
    simp only [mapGet] at h
    by_cases ha : a = k
    · simp [ha] at h
    · simp only [ha, if_false] at h
      simp only [mapDel, List.filter, ne_eq, ha, not_false_eq_true, decide_True]
      have := ih h
      simp only [mapDel, ne_eq] at this
      rw [this]

theorem mapGet_of_mem {β : Type} {m : List (String × β)} (hn : (mapKeys m).Nodup)
    {k : String} {b : β} (h : (k, b) ∈ m) : mapGet m k = some b := by
  induction m with
  | nil => simp at h
  | cons p m ih =>
    obtain ⟨a, b'⟩ := p
    simp only [mapKeys, List.map_cons, List.nodup_cons] at hn
    simp only [mapGet]
    rcases List.mem_cons.mp h with h | h
    · simp only [Prod.mk.injEq] at h
      simp [h.1, h.2]
    · have hne : a ≠ k := by
        intro ha
        apply hn.1
        rw [ha]
        exact List.mem_map_of_mem Prod.fst h
      simp only [hne, if_false]
      exact ih hn.2 h

theorem mapGet_eq_none_iff {β : Type} (m : List (String × β)) (k : String) :
    mapGet m k = none ↔ k ∉ mapKeys m := by
  induction m with
  | nil => simp [mapGet, mapKeys]
  | cons p m ih =>
    obtain ⟨a, b⟩ := p
    simp only [mapGet, mapKeys, List.map_cons, List.mem_cons, not_or]
    by_cases ha : a = k
    · simp [ha]
    · simp only [ha, if_false]
      rw [ih]
      constructor
      · intro h
        exact ⟨fun hh => ha hh.symm, h⟩
      · intro h
        exact h.2

theorem findElem_append_of_mem {l : List Element} {id : Nat} {e : Element}
    (h : findElem id l = some e) (l2 : List Element) : findElem id (l ++ l2) = some e := by
  unfold findElem at h ⊢
  rw [List.find?_append, h]
  rfl

theorem value_pushBack_other {c : Cache} (h : c.Linked) (k v : String) {k' : String}
    (hk : k' ≠ k) :
    mapGet (c.pushBack k v).GetAllData k' = mapGet c.GetAllData k' := by
  rw [mapGet_GetAllData, mapGet_GetAllData]
  simp only [Cache.pushBack, mapGet_mapPut, Ne.symm hk, if_false]
  cases hid : mapGet c.items k' with
  | none => rfl
  | some id' =>
    obtain ⟨e', he', heid, _⟩ := linked_lookup h hid
    subst heid
    simp only [Option.map_some', elemValue,
      findElem_append_of_mem (findElem_of_mem he' h.2.1) _, findElem_of_mem he' h.2.1]

theorem value_pushBack_self {c : Cache} (h : c.Linked) (k v : String) :
    mapGet (c.pushBack k v).GetAllData k = some v := by
  rw [mapGet_GetAllData]
  simp only [Cache.pushBack, mapGet_mapPut, if_true, Option.map_some', elemValue, findElem]
  rw [List.find?_append]
  have : List.find? (fun e => decide (e.id = c.nextId)) c.order = none := by
    rw [List.find?_eq_none]
    intro x hx
    have := h.1 x hx
    simp only [decide_eq_true_eq]
    omega
  rw [this]
  simp

theorem mapKeys_take_subset {β : Type} (m : List (String × β)) (n : Nat) {k : String}
    (h : k ∈ mapKeys (m.take n)) : k ∈ mapKeys m := by
  simp only [mapKeys, List.map_take] at h ⊢
  exact List.mem_of_mem_take h

theorem mapGet_cons {β : Type} (a : String) (b : β) (m : List (String × β)) (k : String) :
    mapGet ((a, b) :: m) k = if a = k then some b else mapGet m k := rfl

/-- What `LoadData` does to a cache that has none of the keys of the mapping:
it pushes the first `n` pairs, `n` being the room left or the size of the
mapping, whichever is smaller. -/
theorem LoadData_spec (data : List (String × String)) :
    ∀ c : Cache, c.Linked → (mapKeys c.items).Nodup → (mapKeys data).Nodup →
      (∀ p ∈ data, mapGet c.items p.1 = none) →
      ∃ n : Nat, (n : Int) = min (data.length : Int) (max 0 (c.capacity - c.order.length)) ∧
        (c.LoadData data).order.length = c.order.length + n ∧
        (c.LoadData data).items.length = c.items.length + n ∧
        (mapKeys (c.LoadData data).items).Nodup ∧
        ∀ k, mapGet (c.LoadData data).GetAllData k =
          (mapGet (data.take n) k).or (mapGet c.GetAllData k) := by
  induction data with
  | nil =>
    intro c _ hn _ _
    refine ⟨0, ?_, rfl, rfl, hn, fun k => ?_⟩
    · simp
    · simp only [Cache.LoadData, List.take_nil, mapGet, Option.none_or]
  | cons p rest ih =>
    intro c hl hn hd hfresh
    obtain ⟨k0, v0⟩ := p
    rw [LoadData_cons]
    by_cases hfull : (c.order.length : Int) ≥ c.capacity
    · simp only [hfull, if_true]
      refine ⟨0, ?_, rfl, rfl, hn, fun k => ?_⟩
      · have : max 0 (c.capacity - (c.order.length : Int)) = 0 := max_eq_left (by omega)
        rw [this]
        have : (0 : Int) ≤ (((k0, v0) :: rest).length : Int) := by positivity
        simp only [Nat.cast_zero]
        exact (min_eq_right this).symm
      · simp only [List.take_zero, mapGet, Option.none_or]
    · simp only [hfull, if_false]
      simp only [mapKeys, List.map_cons, List.nodup_cons] at hd
      have hk0 : mapGet c.items k0 = none := hfresh (k0, v0) (List.mem_cons_self _ _)
      have hitems : (c.pushBack k0 v0).items = (k0, c.nextId) :: c.items := by
        simp only [Cache.pushBack, mapPut, mapDel_of_none hk0]
      have hn1 : (mapKeys (c.pushBack k0 v0).items).Nodup := by
        rw [hitems]
        simp only [mapKeys, List.map_cons, List.nodup_cons]
        exact ⟨(mapGet_eq_none_iff _ _).mp hk0, hn⟩
      have hfresh1 : ∀ p ∈ rest, mapGet (c.pushBack k0 v0).items p.1 = none := by
        intro p hp
        rw [hitems]
        have hne : k0 ≠ p.1 := by
          intro hh
          apply hd.1
          rw [hh]
          exact List.mem_map_of_mem Prod.fst hp
        simp only [mapGet, hne, if_false]
        exact hfresh p (List.mem_cons_of_mem _ hp)
      obtain ⟨n1, hn1eq, hord, hit, hnd, hget⟩ :=
        ih (c.pushBack k0 v0) (linked_pushBack hl k0 v0) hn1 hd.2 hfresh1
      refine ⟨n1 + 1, ?_, ?_, ?_, hnd, fun k => ?_⟩
      · have hcap : (c.pushBack k0 v0).capacity = c.capacity := rfl
        have hlen : ((c.pushBack k0 v0).order.length : Int) = c.order.length + 1 := by
          simp [Cache.pushBack]
        rw [hcap, hlen] at hn1eq
        simp only [List.length_cons]
        push_cast
        rw [hn1eq]
        have h1 : max 0 (c.capacity - ((c.order.length : Int) + 1)) =
            c.capacity - (c.order.length : Int) - 1 := by
          rw [max_eq_right (by omega)]
          ring
        have h2 : max 0 (c.capacity - (c.order.length : Int)) =
            c.capacity - (c.order.length : Int) := max_eq_right (by omega)
        rw [h1, h2]
        omega
      · rw [hord]
        simp only [Cache.pushBack, List.length_append, List.length_singleton]
        omega
      · rw [hit, hitems]
        simp only [List.length_cons]
        omega
      · rw [hget, List.take_succ_cons, mapGet_cons]
        by_cases hk : k0 = k
        · subst hk
          have : mapGet (rest.take n1) k0 = none := by
            rw [mapGet_eq_none_iff]
            intro hm
            exact hd.1 (mapKeys_take_subset rest n1 hm)
          rw [this, if_pos rfl, value_pushBack_self hl k0 v0]
          rfl
        · rw [if_neg hk, value_pushBack_other hl k0 v0 (Ne.symm hk)]

theorem mapKeys_GetAllData (c : Cache) : mapKeys c.GetAllData = mapKeys c.items := by
  simp only [mapKeys, Cache.GetAllData, List.map_map]
  rfl

/-- A list of pairs with distinct keys has no pair twice. -/
theorem nodup_of_nodup_keys {β : Type} {m : List (String × β)} (h : (mapKeys m).Nodup) :
    m.Nodup :=
  List.Nodup.of_map Prod.fst h

/-- Two mappings with the same lookups list the same pairs. -/
theorem perm_of_mapGet_eq {m1 m2 : List (String × String)} (h1 : (mapKeys m1).Nodup)
    (h2 : (mapKeys m2).Nodup) (h : ∀ k, mapGet m1 k = mapGet m2 k) : m1.Perm m2 := by
  rw [List.perm_ext_iff_of_nodup (nodup_of_nodup_keys h1) (nodup_of_nodup_keys h2)]
  intro p
  obtain ⟨k, v⟩ := p
  constructor
  · intro hp
    have := mapGet_of_mem h1 hp
    rw [h k] at this
    exact mapGet_mem _ _ _ this
  · intro hp
    have := mapGet_of_mem h2 hp
    rw [← h k] at this
    exact mapGet_mem _ _ _ this

theorem nodup_mapDel {β : Type} {m : List (String × β)} (h : (mapKeys m).Nodup) (k : String) :
    (mapKeys (mapDel m k)).Nodup :=
  List.Nodup.sublist (List.Sublist.map _ (List.filter_sublist _)) h

theorem not_mem_mapKeys_mapDel {β : Type} (m : List (String × β)) (k : String) :
    k ∉ mapKeys (mapDel m k) := by
  rw [← mapGet_eq_none_iff, mapGet_mapDel]
  simp

theorem nodup_mapPut {β : Type} {m : List (String × β)} (h : (mapKeys m).Nodup) (k : String)
    (b : β) : (mapKeys (mapPut m k b)).Nodup := by
  simp only [mapPut, mapKeys, List.map_cons, List.nodup_cons]
  exact ⟨not_mem_mapKeys_mapDel m k, nodup_mapDel h k⟩

theorem nodup_items_Set {c : Cache} (h : (mapKeys c.items).Nodup) (k v : String) :
    (mapKeys (c.Set k v).1.items).Nodup := by
  rcases Set_cases c k v with ⟨id, _, he⟩ | ⟨_, _, he⟩ | ⟨oldest, _, _, _, he⟩
  · rw [he]; exact h
  · rw [he]; exact nodup_mapPut h _ _
  · rw [he]; exact nodup_mapPut (nodup_mapDel h _) _ _

theorem nodup_items_Del {c : Cache} (h : (mapKeys c.items).Nodup) (k : String) :
    (mapKeys (c.Del k).1.items).Nodup := by
  unfold Cache.Del
  split
  · exact nodup_mapDel h k
  · exact h

theorem nodup_items_LoadData (data : List (String × String)) :
    ∀ c : Cache, (mapKeys c.items).Nodup → (mapKeys (c.LoadData data).items).Nodup := by
  induction data with
  | nil => intro c h; exact h
  | cons p rest ih =>
    intro c h
    obtain ⟨k, v⟩ := p
    rw [LoadData_cons]
    split
    · exact h
    · exact ih _ (nodup_mapPut h _ _)

theorem nodup_items_calls (cs : List Call) :
    ∀ c : Cache, (mapKeys c.items).Nodup → (mapKeys (c.calls cs).items).Nodup := by
  induction cs with
  | nil => intro c h; exact h
  | cons x cs ih =>
    intro c h
    apply ih
    cases x with
    | op o =>
      cases o with
      | Set k v => exact nodup_items_Set h k v
      | Get k => simp only [Cache.call, Cache.step, items_Get]; exact h
      | Del k => exact nodup_items_Del h k
    | LoadData data => exact nodup_items_LoadData data c h

/-- `LoadData` into a new cache of capacity `C ≥ 0`. -/
theorem LoadData_NewCache (C : Int) (hC : 0 ≤ C) (data : List (String × String))
    (hd : (mapKeys data).Nodup) :
    ∃ n : Nat, (n : Int) = min (data.length : Int) C ∧
      ((NewCache C).LoadData data).order.length = n ∧
      ((NewCache C).LoadData data).items.length = n ∧
      (mapKeys ((NewCache C).LoadData data).GetAllData).Nodup ∧
      ∀ k, mapGet ((NewCache C).LoadData data).GetAllData k = mapGet (data.take n) k := by
  obtain ⟨n, hn, hord, hit, hnd, hget⟩ := LoadData_spec data (NewCache C) (linked_NewCache C)
    (by simp [NewCache, mapKeys]) hd (by intro p _; rfl)
  refine ⟨n, ?_, ?_, ?_, ?_, fun k => ?_⟩
  · rw [hn]
    simp only [NewCache, List.length_nil, Nat.cast_zero, sub_zero, max_eq_right hC]
  · rw [hord]; simp [NewCache]
  · rw [hit]; simp [NewCache]
  · rw [mapKeys_GetAllData]; exact hnd
  · rw [hget k]
    simp [NewCache, Cache.GetAllData, mapGet, Option.or_none]

/-- After `LoadData` of a mapping that fits into a new cache, `Get` finds every
pair of the mapping. -/
theorem value_after_LoadData (C : Int) (hC : 0 ≤ C) (data : List (String × String))
    (hd : (mapKeys data).Nodup) (hle : (data.length : Int) ≤ C) {k v : String}
    (hkv : (k, v) ∈ data) : mapGet ((NewCache C).LoadData data).GetAllData k = some v := by
  obtain ⟨n, hn, _, _, _, hget⟩ := LoadData_NewCache C hC data hd
  have hn' : n = data.length := by
    rw [min_eq_left hle] at hn
    exact_mod_cast hn
  rw [hget k, hn', List.take_length, mapGet_of_mem hd hkv]

theorem Get_after_LoadData (C : Int) (hC : 0 ≤ C) (data : List (String × String))
    (hd : (mapKeys data).Nodup) (hle : (data.length : Int) ≤ C) {k v : String}
    (hkv : (k, v) ∈ data) : (((NewCache C).LoadData data).Get k).2 = (v, true) := by
  rw [Get_result, value_after_LoadData C hC data hd hle hkv]

/-- The dispatcher on `SAVE` when the file can be written. -/
theorem handleLine_SAVE_ok (tbl : Char → Char) (s : Server) (conn : Conn) (clientID : String)
    (isReplica : Bool) (env : Env) (hc : env.createErr = none) (he : env.encodeErr = none) :
    handleLine tbl s conn clientID isReplica env "SAVE\n" =
      some (reply { s with rdb := { s.rdb with file := FileContent.snapshot s.cache.GetAllData } }
        isReplica "OK\n") := by
  have hcmd : commandOf tbl "SAVE\n" = "SAVE" := rfl
  rw [handleLine_eq _ _ _ _ _ _ _ (by rw [hcmd]; decide)]
  simp only [hcmd, show ¬ ("SAVE" = "SET") by decide, show ¬ ("SAVE" = "GET") by decide,
    show ¬ ("SAVE" = "DEL") by decide, show ¬ ("SAVE" = "PING") by decide,
    show ¬ ("SAVE" = "SUBSCRIBE") by decide, show ¬ ("SAVE" = "UNSUBSCRIBE") by decide,
    show ¬ ("SAVE" = "PUBLISH") by decide, if_false, if_true, handleSAVE, RDB.Save, hc, he]

/-- C18 (as stated, refuted): on a server of capacity 10, `SET  v` stores the
empty key and `SAVE` is answered `OK`; the server started again from that file
holds the key, and `GET ` is answered with an arity error. Likewise the key
that ends in a tab is saved and restored, and `GET` with it is answered
`(nil)`. -/
theorem c18_saved_key_not_returned_by_get :
    (((handleLine id (NewServerWithCapacity 6379 10 FileContent.missing) 1 "client-1" false
          quietEnv ("SET " ++ "" ++ " " ++ "v" ++ "\n")).bind
        (fun o => handleLine id o.server 1 "client-1" false quietEnv "SAVE\n")).map
      (fun o => (o.output, o.server.rdb.file))
      = some (some "OK\n", FileContent.snapshot [("", "v")]) ∧
     ((NewServerWithCapacity 6379 10 (FileContent.snapshot [("", "v")])).restore
        none).cache.GetAllData = [("", "v")] ∧
     (handleLine id
        ((NewServerWithCapacity 6379 10 (FileContent.snapshot [("", "v")])).restore none)
        1 "client-1" false quietEnv ("GET " ++ "" ++ "\n")).map (fun o => o.output)
      = some (some "(error) ERR wrong number of arguments for 'get' command\n")) ∧
    (((handleLine id (NewServerWithCapacity 6379 10 FileContent.missing) 1 "client-1" false
          quietEnv ("SET " ++ "k\t" ++ " " ++ "v" ++ "\n")).bind
        (fun o => handleLine id o.server 1 "client-1" false quietEnv "SAVE\n")).map
      (fun o => (o.output, o.server.rdb.file))
      = some (some "OK\n", FileContent.snapshot [("k\t", "v")]) ∧
     ((NewServerWithCapacity 6379 10 (FileContent.snapshot [("k\t", "v")])).restore
        none).cache.GetAllData = [("k\t", "v")] ∧
     (handleLine id
        ((NewServerWithCapacity 6379 10 (FileContent.snapshot [("k\t", "v")])).restore none)
        1 "client-1" false quietEnv ("GET " ++ "k\t" ++ "\n")).map (fun o => o.output)
      = some (some "(nil)\n")) := by
  refine ⟨?_, ?_⟩ <;> decide

/-- C18 (amended): for a capacity `C ≥ 0` and a mapping `data` (pairs with distinct
keys, in the order in which the loop visits them), `LoadData(data)` on a new
cache leaves `min(|data|, C)` entries, in the list and in `GetAllData()`, each
a pair of `data`; when `|data| ≤ C`, `GetAllData()` has exactly the pairs of
`data` and `Get` returns the value of every key of `data`. Hence, when a
`SAVE` is answered `OK` and the server is started again with a capacity that
holds the saved mapping, `Get` finds every saved key with its value, and the
dispatcher answers `GET k` with that value for every saved key `k` that is
not empty and has no white space. -/
theorem c18_loaddata_fills_to_capacity (tbl : Char → Char) (C : Int) (hC : 0 ≤ C)
    (data : List (String × String)) (hd : (mapKeys data).Nodup) :
    ((NewCache C).LoadData data).Len = min (data.length : Int) C ∧
    (((NewCache C).LoadData data).GetAllData.length : Int) = min (data.length : Int) C ∧
    (∀ p ∈ ((NewCache C).LoadData data).GetAllData, p ∈ data) ∧
    ((data.length : Int) ≤ C →
      ((NewCache C).LoadData data).GetAllData.Perm data ∧
      ∀ k v, (k, v) ∈ data → (((NewCache C).LoadData data).Get k).2 = (v, true)) ∧
    (∀ (s0 : Server) (C0 : Int) (cs : List Call) (conn : Conn) (clientID : String)
        (isReplica : Bool) (env : Env) (port : Int),
      env.createErr = none → env.encodeErr = none →
      ∃ o, handleLine tbl { s0 with cache := (NewCache C0).calls cs } conn clientID isReplica
          env "SAVE\n" = some o ∧ o.output = some "OK\n" ∧
        ((((NewCache C0).calls cs).GetAllData.length : Int) ≤ C →
          ∀ k v, mapGet ((NewCache C0).calls cs).GetAllData k = some v →
            (((NewServerWithCapacity port C o.server.rdb.file).restore none).cache.Get k).2
              = (v, true) ∧
            (k.data ≠ [] → (∀ c ∈ k.data, isSpace c = false) →
              ∃ o2, handleLine tbl
                  ((NewServerWithCapacity port C o.server.rdb.file).restore none)
                  conn clientID isReplica env ("GET " ++ k ++ "\n") = some o2 ∧
                o2.output = some (v ++ "\n")))) := by
  obtain ⟨n, hn, hord, hit, hnd, hget⟩ := LoadData_NewCache C hC data hd
  refine ⟨?_, ?_, ?_, ?_, ?_⟩
  · simp only [Cache.Len, hord, hn]
  · simp only [Cache.GetAllData, List.length_map, hit, hn]
  · intro p hp
    obtain ⟨k, v⟩ := p
    have := mapGet_of_mem hnd hp
    rw [hget k] at this
    exact List.mem_of_mem_take (mapGet_mem _ _ _ this)
  · intro hle
    refine ⟨?_, fun k v hkv => Get_after_LoadData C hC data hd hle hkv⟩
    have hn' : n = data.length := by
      rw [min_eq_left hle] at hn
      exact_mod_cast hn
    apply perm_of_mapGet_eq hnd hd
    intro k
    rw [hget k, hn', List.take_length]
  · intro s0 C0 cs conn clientID isReplica env port hce hee
    refine ⟨_, handleLine_SAVE_ok tbl _ conn clientID isReplica env hce hee, rfl, ?_⟩
    intro hle k v hkv
    have hnd0 : (mapKeys ((NewCache C0).calls cs).GetAllData).Nodup := by
      rw [mapKeys_GetAllData]
      exact nodup_items_calls cs (NewCache C0) (by simp [NewCache, mapKeys])
    refine ⟨Get_after_LoadData C hC _ hnd0 hle (mapGet_mem _ _ _ hkv), fun hk0 hk => ?_⟩
    refine ⟨_, handleLine_GET_line tbl _ conn clientID isReplica env k hk0 hk, ?_⟩
    rw [handleGET_hit _ _ k v (value_after_LoadData C hC _ hnd0 hle (mapGet_mem _ _ _ hkv))]
    rfl

/-- C18 instantiated: three pairs loaded into a cache of capacity 2. -/
theorem c18_loaddata_fills_to_capacity_witness :
    (0 : Int) ≤ 2 ∧ (mapKeys [("a", "1"), ("b", "2"), ("c", "3")]).Nodup ∧
    ((NewCache 2).LoadData [("a", "1"), ("b", "2"), ("c", "3")]).Len
      = min (([("a", "1"), ("b", "2"), ("c", "3")] : List (String × String)).length : Int) 2 :=
  ⟨by decide, by decide,
    (c18_loaddata_fills_to_capacity id 2 (by decide) [("a", "1"), ("b", "2"), ("c", "3")]
      (by decide)).1⟩

theorem queueOpen_iff {heap : List Subscriber} {p : Nat} :
    queueOpen heap p = true ↔ ∃ sub, heap[p]? = some sub ∧ sub.Messages.closed = false := by
  unfold queueOpen
  cases heap[p]? with
  | none => simp
  | some sub => simp

theorem queueOpen_congr {h h' : List Subscriber} {p : Nat} (hp : h'[p]? = h[p]?) :
    queueOpen h' p = queueOpen h p := by
  simp only [queueOpen, hp]

theorem hasRoom_congr {h h' : List Subscriber} {p : Nat} (hp : h'[p]? = h[p]?) :
    hasRoom h' p = hasRoom h p := by
  simp only [hasRoom, hp]

theorem getElem?_set_other {h : List Subscriber} {p q : Nat} (x : Subscriber) (hq : q ≠ p) :
    (h.set p x)[q]? = h[q]? := by
  rw [List.getElem?_set]
  simp [Ne.symm hq]

theorem getElem?_set_same {h : List Subscriber} {p : Nat} {sub : Subscriber} (x : Subscriber)
    (hp : h[p]? = some sub) : (h.set p x)[p]? = some x := by
  rw [List.getElem?_set]
  have : p < h.length := by
    by_contra hlt
    rw [List.getElem?_eq_none (by omega)] at hp
    simp at hp
  simp [this]

/-- Closing an open queue does not panic and changes that subscriber only. -/
theorem closeMessages_open {h : List Subscriber} {p : Nat} (ho : queueOpen h p = true) :
    ∃ sub, h[p]? = some sub ∧ closeMessages h p = some (h.set p (markClosed sub)) := by
  obtain ⟨sub, hs, hc⟩ := queueOpen_iff.mp ho
  refine ⟨sub, hs, ?_⟩
  simp only [closeMessages, hs, hc]
  rfl

theorem publishLoop_cons_room {message : String} {i : String} {p : Nat}
    {rest : List (String × Nat)} {h : List Subscriber} {count : Nat} {sub : Subscriber}
    (hs : h[p]? = some sub) (hc : sub.Messages.closed = false)
    (hroom : sub.Messages.buf.length < queueDepth) :
    publishLoop message ((i, p) :: rest) h count =
      publishLoop message rest (h.set p (enqueue message sub)) (count + 1) := by
  rw [publishLoop]
  simp only [hs]
  rw [if_neg (by simp [hc]), if_pos hroom]
  rfl

theorem publishLoop_cons_full {message : String} {i : String} {p : Nat}
    {rest : List (String × Nat)} {h : List Subscriber} {count : Nat} {sub : Subscriber}
    (hs : h[p]? = some sub) (hc : sub.Messages.closed = false)
    (hroom : ¬ sub.Messages.buf.length < queueDepth) :
    publishLoop message ((i, p) :: rest) h count = publishLoop message rest h count := by
  rw [publishLoop]
  simp only [hs]
  rw [if_neg (by simp [hc]), if_neg hroom]

/-- The send loop of `Publish` on distinct subscribers with open queues: it
does not panic, counts the queues that have room, and appends the message to
exactly those. -/
theorem publishLoop_spec (message : String) :
    ∀ (L : List (String × Nat)) (h : List Subscriber) (count : Nat),
      (∀ r ∈ L, queueOpen h r.2 = true) → (L.map Prod.snd).Nodup →
      ∃ h', publishLoop message L h count =
          some (h', count + (L.filter (fun r => hasRoom h r.2)).length) ∧
        h'.length = h.length ∧
        ∀ q, h'[q]? =
          if q ∈ (L.filter (fun r => hasRoom h r.2)).map Prod.snd then
            (h[q]?).map (enqueue message)
          else h[q]? := by
  intro L
  induction L with
  | nil =>
    intro h count _ _
    exact ⟨h, by simp [publishLoop], rfl, fun q => by simp⟩
  | cons r rest ih =>
    intro h count hopen hnd
    obtain ⟨i, p⟩ := r
    simp only [List.map_cons, List.nodup_cons] at hnd
    obtain ⟨sub, hs, hc⟩ := queueOpen_iff.mp (hopen (i, p) (List.mem_cons_self _ _))
    have hne : ∀ r ∈ rest, r.2 ≠ p := by
      intro r hr hh
      apply hnd.1
      rw [← hh]
      exact List.mem_map_of_mem Prod.snd hr
    by_cases hroom : sub.Messages.buf.length < queueDepth
    · have hR : hasRoom h p = true := by simp [hasRoom, hs, hroom]
      have hopen1 : ∀ r ∈ rest, queueOpen (h.set p (enqueue message sub)) r.2 = true := by
        intro r hr
        rw [queueOpen_congr (getElem?_set_other _ (hne r hr))]
        exact hopen r (List.mem_cons_of_mem _ hr)
      obtain ⟨h', hl, hlen, hq⟩ := ih (h.set p (enqueue message sub)) (count + 1) hopen1 hnd.2
      have hfilter : rest.filter (fun r => hasRoom (h.set p (enqueue message sub)) r.2) =
          rest.filter (fun r => hasRoom h r.2) := by
        apply List.filter_congr
        intro r hr
        exact hasRoom_congr (getElem?_set_other _ (hne r hr))
      rw [hfilter] at hl hq
      refine ⟨h', ?_, ?_, fun q => ?_⟩
      · rw [publishLoop_cons_room hs hc hroom, hl]
        simp only [List.filter, hR, List.length_cons]
        congr 2
        omega
      · rw [hlen, List.length_set]
      · rw [hq q]
        simp only [List.filter, hR, List.map_cons, List.mem_cons]
        by_cases hqp : q = p
        · subst hqp
          have hnot : q ∉ (rest.filter (fun r => hasRoom h r.2)).map Prod.snd := by
            intro hm
            obtain ⟨r, hr, hrq⟩ := List.mem_map.mp hm
            exact hne r (List.mem_of_mem_filter hr) hrq
          simp only [hnot, if_false, true_or, if_true, getElem?_set_same _ hs, hs,
            Option.map_some']
        · simp only [hqp, false_or, getElem?_set_other _ hqp]
    · have hR : hasRoom h p = false := by simp [hasRoom, hs, hroom]
      obtain ⟨h', hl, hlen, hq⟩ := ih h count
        (fun r hr => hopen r (List.mem_cons_of_mem _ hr)) hnd.2
      refine ⟨h', ?_, hlen, fun q => ?_⟩
      · rw [publishLoop_cons_full hs hc hroom, hl]
        simp only [List.filter, hR]
      · rw [hq q]
        simp only [List.filter, hR]

theorem mem_mapPut {β : Type} {m : List (String × β)} {k : String} {b : β} {e : String × β} :
    e ∈ mapPut m k b ↔ e = (k, b) ∨ (e ∈ m ∧ e.1 ≠ k) := by
  simp only [mapPut, List.mem_cons, mem_mapDel]

theorem mem_records {ps : PubSub} {channel : String} {r : String × Nat}
    (h : r ∈ ps.records channel) : (channel, ps.records channel) ∈ ps.channels := by
  unfold PubSub.records at h ⊢
  cases hm : mapGet ps.channels channel with
  | none => rw [hm] at h; simp at h
  | some inner => exact mapGet_mem _ _ _ hm

theorem records_of_mem {ps : PubSub} (hv : ps.Valid) {e : String × List (String × Nat)}
    (he : e ∈ ps.channels) : ps.records e.1 = e.2 := by
  unfold PubSub.records
  rw [mapGet_of_mem hv.1 he]
  rfl

theorem nodup_records {ps : PubSub} (hv : ps.Valid) (channel : String) :
    (mapKeys (ps.records channel)).Nodup := by
  unfold PubSub.records
  cases hm : mapGet ps.channels channel with
  | none => simp [mapKeys]
  | some inner => exact (hv.2.1 _ (mapGet_mem _ _ _ hm)).2

theorem Subscribe_eq (ps : PubSub) (channel subscriberID : String) :
    (ps.Subscribe channel subscriberID).1 =
      { channels := mapPut ps.channels channel
          (mapPut (ps.records channel) subscriberID ps.subs.length),
        subs := ps.subs ++ [{ ID := subscriberID, Messages := { buf := [], closed := false } }] } := by
  unfold PubSub.Subscribe PubSub.records
  cases mapGet ps.channels channel <;> rfl

theorem lt_of_queueOpen {h : List Subscriber} {p : Nat} (ho : queueOpen h p = true) :
    p < h.length := by
  obtain ⟨sub, hs, _⟩ := queueOpen_iff.mp ho
  by_contra hlt
  rw [List.getElem?_eq_none (by omega)] at hs
  simp at hs

theorem queueOpen_append {h : List Subscriber} {p : Nat} (ho : queueOpen h p = true)
    (l : List Subscriber) : queueOpen (h ++ l) p = true := by
  rw [queueOpen_congr (List.getElem?_append_left (lt_of_queueOpen ho))]
  exact ho

/-- `Subscribe` keeps the invariant of the broker. -/
theorem valid_Subscribe {ps : PubSub} (hv : ps.Valid) (channel subscriberID : String) :
    (ps.Subscribe channel subscriberID).1.Valid := by
  rw [Subscribe_eq]
  obtain ⟨h1, h2, h3, h4⟩ := hv
  have hv : ps.Valid := ⟨h1, h2, h3, h4⟩
  have hrec : ∀ r ∈ ps.records channel, (channel, ps.records channel) ∈ ps.channels :=
    fun r hr => mem_records hr
  -- every record of the new map is the new one or an old one
  have hold : ∀ e ∈ mapPut ps.channels channel
        (mapPut (ps.records channel) subscriberID ps.subs.length), ∀ r ∈ e.2,
      (e.1 = channel ∧ r = (subscriberID, ps.subs.length)) ∨
      (∃ e0 ∈ ps.channels, e0.1 = e.1 ∧ r ∈ e0.2 ∧ (e.1 = channel → r.1 ≠ subscriberID)) := by
    intro e he r hr
    rcases mem_mapPut.mp he with he | ⟨he, hne⟩
    · subst he
      rcases mem_mapPut.mp hr with hr | ⟨hr, hrne⟩
      · exact Or.inl ⟨rfl, hr⟩
      · exact Or.inr ⟨_, hrec r hr, rfl, hr, fun _ => hrne⟩
    · exact Or.inr ⟨e, he, rfl, hr, fun hh => absurd hh hne⟩
  refine ⟨nodup_mapPut h1 _ _, ?_, ?_, ?_⟩
  · intro e he
    rcases mem_mapPut.mp he with he | ⟨he, _⟩
    · subst he
      exact ⟨by simp [mapPut], nodup_mapPut (nodup_records hv channel) _ _⟩
    · exact h2 e he
  · intro e he r hr
    rcases hold e he r hr with ⟨_, hr⟩ | ⟨e0, he0, _, hr0, _⟩
    · subst hr
      simp [queueOpen]
    · exact queueOpen_append (h3 e0 he0 r hr0) _
  · intro e1 he1 r1 hr1 e2 he2 r2 hr2 hp
    rcases hold e1 he1 r1 hr1 with ⟨hc1, hn1⟩ | ⟨a, ha, hae, hra, hna⟩
    · rcases hold e2 he2 r2 hr2 with ⟨hc2, hn2⟩ | ⟨b, hb, hbe, hrb, hnb⟩
      · subst hn1 hn2
        exact ⟨hc1.trans hc2.symm, rfl⟩
      · subst hn1
        have := lt_of_queueOpen (h3 b hb r2 hrb)
        simp only at hp
        omega
    · rcases hold e2 he2 r2 hr2 with ⟨hc2, hn2⟩ | ⟨b, hb, hbe, hrb, hnb⟩
      · subst hn2
        have := lt_of_queueOpen (h3 a ha r1 hra)
        simp only at hp
        omega
      · have := h4 a ha r1 hra b hb r2 hrb hp
        exact ⟨hae ▸ hbe ▸ this.1, this.2⟩

theorem closeMessages_eq {h : List Subscriber} {p : Nat} (ho : queueOpen h p = true) :
    closeMessages h p = some (closeQueue h p) := by
  obtain ⟨sub, hs, hc⟩ := closeMessages_open ho
  rw [hc]
  simp only [closeQueue, hs]

theorem getElem?_closeQueue_other {h : List Subscriber} {p q : Nat} (hq : q ≠ p) :
    (closeQueue h p)[q]? = h[q]? := by
  unfold closeQueue
  split
  · exact getElem?_set_other _ hq
  · rfl

theorem length_closeQueue (h : List Subscriber) (p : Nat) :
    (closeQueue h p).length = h.length := by
  unfold closeQueue
  split
  · exact List.length_set _ _ _
  · rfl

/-- The shared block of `Unsubscribe` and `UnsubscribeAll` when the recorded
subscriber, if any, has an open queue. -/
theorem dropSubscriber_spec {h : List Subscriber} {inner : List (String × Nat)}
    {subscriberID : String}
    (ho : ∀ p, mapGet inner subscriberID = some p → queueOpen h p = true) :
    dropSubscriber h inner subscriberID =
      some ((match mapGet inner subscriberID with
            | some p => closeQueue h p
            | none => h), mapDel inner subscriberID) := by
  unfold dropSubscriber
  cases hm : mapGet inner subscriberID with
  | none => simp only [mapDel_of_none hm]
  | some p => simp only [closeMessages_eq (ho p hm)]

/-- A broker whose records are records of a valid broker, with open queues,
is valid. -/
theorem valid_of_subrecords {ps : PubSub} (ps' : PubSub) (hv : ps.Valid)
    (hk : (mapKeys ps'.channels).Nodup)
    (h2 : ∀ e ∈ ps'.channels, e.2 ≠ [] ∧ (mapKeys e.2).Nodup)
    (hsub : ∀ e ∈ ps'.channels, ∀ r ∈ e.2,
      (∃ e0 ∈ ps.channels, e0.1 = e.1 ∧ r ∈ e0.2) ∧ queueOpen ps'.subs r.2 = true) :
    ps'.Valid := by
  refine ⟨hk, h2, fun e he r hr => (hsub e he r hr).2, ?_⟩
  intro e1 he1 r1 hr1 e2 he2 r2 hr2 hp
  obtain ⟨⟨a, ha, hae, hra⟩, _⟩ := hsub e1 he1 r1 hr1
  obtain ⟨⟨b, hb, hbe, hrb⟩, _⟩ := hsub e2 he2 r2 hr2
  have := hv.2.2.2 a ha r1 hra b hb r2 hrb hp
  exact ⟨hae ▸ hbe ▸ this.1, this.2⟩

/-- A valid broker stays valid when its open queues stay open. -/
theorem valid_of_heap {ps : PubSub} (hv : ps.Valid) (h' : List Subscriber)
    (ho : ∀ q, queueOpen ps.subs q = true → queueOpen h' q = true) :
    PubSub.Valid { ps with subs := h' } :=
  valid_of_subrecords _ hv hv.1 hv.2.1
    (fun e he r hr => ⟨⟨e, he, rfl, hr⟩, ho _ (hv.2.2.1 e he r hr)⟩)

theorem records_eq_of_mapGet {ps : PubSub} {channel : String} {inner : List (String × Nat)}
    (h : mapGet ps.channels channel = some inner) : ps.records channel = inner := by
  simp only [PubSub.records, h, Option.getD_some]

/-- `Unsubscribe` on a valid broker: it does not panic; the result in closed form. -/
theorem Unsubscribe_spec {ps : PubSub} (hv : ps.Valid) (channel subscriberID : String) :
    ps.Unsubscribe channel subscriberID = some
      { channels :=
          if mapGet ps.channels channel = none then ps.channels
          else if (mapDel (ps.records channel) subscriberID).length = 0 then
            mapDel ps.channels channel
          else mapPut ps.channels channel (mapDel (ps.records channel) subscriberID),
        subs :=
          match ps.record channel subscriberID with
          | some p => closeQueue ps.subs p
          | none => ps.subs } := by
  unfold PubSub.Unsubscribe
  cases hm : mapGet ps.channels channel with
  | none =>
    have : ps.record channel subscriberID = none := by
      simp [PubSub.record, PubSub.records, hm, mapGet]
    simp only [this, if_true]
  | some inner =>
    have hmem : (channel, inner) ∈ ps.channels := mapGet_mem _ _ _ hm
    have ho : ∀ p, mapGet inner subscriberID = some p → queueOpen ps.subs p = true :=
      fun p hp => hv.2.2.1 _ hmem _ (mapGet_mem _ _ _ hp)
    have hrec : ps.record channel subscriberID = mapGet inner subscriberID := by
      simp only [PubSub.record, records_eq_of_mapGet hm]
    simp only [dropSubscriber_spec ho, records_eq_of_mapGet hm, hrec]
    by_cases hl : (mapDel inner subscriberID).length = 0
    · simp [hl]
    · simp [hl]

/-- `Unsubscribe` keeps the invariant of the broker. -/
theorem valid_Unsubscribe {ps ps' : PubSub} (hv : ps.Valid) {channel subscriberID : String}
    (h : ps.Unsubscribe channel subscriberID = some ps') : ps'.Valid := by
  rw [Unsubscribe_spec hv] at h
  simp only [Option.some.injEq] at h
  subst h
  -- the queues of the records other than the dropped one are untouched
  have hopen : ∀ e ∈ ps.channels, ∀ r ∈ e.2, (e.1 = channel → r.1 ≠ subscriberID) →
      queueOpen (match ps.record channel subscriberID with
        | some p => closeQueue ps.subs p
        | none => ps.subs) r.2 = true := by
    intro e he r hr hne
    cases hrec : ps.record channel subscriberID with
    | none => exact hv.2.2.1 e he r hr
    | some p =>
      have hp := mapGet_mem _ _ _ hrec
      have hne' : r.2 ≠ p := by
        intro hh
        have := hv.2.2.2 e he r hr _ (mem_records hp) _ hp hh
        exact hne this.1 this.2
      simp only
      rw [queueOpen_congr (getElem?_closeQueue_other hne')]
      exact hv.2.2.1 e he r hr
  cases hm : mapGet ps.channels channel with
  | none =>
    simp only [if_true]
    refine valid_of_subrecords _ hv hv.1 hv.2.1 ?_
    intro e he r hr
    refine ⟨⟨e, he, rfl, hr⟩, hopen e he r hr ?_⟩
    intro hc
    have := mapGet_of_mem hv.1 he
    rw [hc, hm] at this
    simp at this
  | some inner =>
    have hmem : (channel, inner) ∈ ps.channels := mapGet_mem _ _ _ hm
    simp only [if_false, records_eq_of_mapGet hm, reduceCtorEq]
    by_cases hl : (mapDel inner subscriberID).length = 0
    · simp only [hl, if_true]
      refine valid_of_subrecords _ hv (nodup_mapDel hv.1 _) ?_ ?_
      · intro e he
        exact hv.2.1 e ((mem_mapDel _ _ _).mp he).1
      · intro e he r hr
        obtain ⟨he0, hne⟩ := (mem_mapDel _ _ _).mp he
        exact ⟨⟨e, he0, rfl, hr⟩, hopen e he0 r hr (fun hc => absurd hc hne)⟩
    · simp only [hl, if_false]
      refine valid_of_subrecords _ hv (nodup_mapPut hv.1 _ _) ?_ ?_
      · intro e he
        rcases mem_mapPut.mp he with he | ⟨he, _⟩
        · subst he
          refine ⟨?_, nodup_mapDel (hv.2.1 _ hmem).2 _⟩
          intro hnil
          apply hl
          simp only at hnil
          rw [hnil]
          rfl
        · exact hv.2.1 e he
      · intro e he r hr
        rcases mem_mapPut.mp he with he | ⟨he, hne⟩
        · subst he
          obtain ⟨hr0, hrne⟩ := (mem_mapDel _ _ _).mp hr
          exact ⟨⟨_, hmem, rfl, hr0⟩, hopen _ hmem r hr0 (fun _ => hrne)⟩
        · exact ⟨⟨e, he, rfl, hr⟩, hopen e he r hr (fun hc => absurd hc hne)⟩

theorem pruneChannels_cons (subscriberID : String) (e : String × List (String × Nat))
    (rest : List (String × List (String × Nat))) :
    pruneChannels subscriberID (e :: rest) =
      if (mapDel e.2 subscriberID).length = 0 then pruneChannels subscriberID rest
      else (e.1, mapDel e.2 subscriberID) :: pruneChannels subscriberID rest := by
  by_cases hl : (mapDel e.2 subscriberID).length = 0
  · simp only [pruneChannels, List.filterMap_cons, hl, if_true]
  · simp only [pruneChannels, List.filterMap_cons, hl, if_false]

theorem mem_pruneChannels {subscriberID : String} {L : List (String × List (String × Nat))}
    {e' : String × List (String × Nat)} :
    e' ∈ pruneChannels subscriberID L ↔
      ∃ e ∈ L, (mapDel e.2 subscriberID).length ≠ 0 ∧ e' = (e.1, mapDel e.2 subscriberID) := by
  simp only [pruneChannels, List.mem_filterMap]
  constructor
  · rintro ⟨e, he, h⟩
    by_cases hl : (mapDel e.2 subscriberID).length = 0
    · simp [hl] at h
    · simp only [hl, if_false, Option.some.injEq] at h
      exact ⟨e, he, hl, h.symm⟩
  · rintro ⟨e, he, hl, h⟩
    exact ⟨e, he, by simp only [hl, if_false, h]⟩

theorem mapKeys_pruneChannels_sublist (subscriberID : String)
    (L : List (String × List (String × Nat))) :
    (mapKeys (pruneChannels subscriberID L)).Sublist (mapKeys L) := by
  induction L with
  | nil => exact List.Sublist.refl _
  | cons e rest ih =>
    rw [pruneChannels_cons]
    simp only [mapKeys, List.map_cons] at ih ⊢
    split
    · exact List.Sublist.cons _ ih
    · exact List.Sublist.cons₂ _ ih

/-- The loop of `UnsubscribeAll` on channels with distinct names whose records
are distinct subscribers with open queues: it does not panic, leaves the
pruned channel map, and touches no queue but those recorded for the
subscriber-id. -/
theorem unsubscribeAllLoop_spec (subscriberID : String) :
    ∀ (L : List (String × List (String × Nat))) (h : List Subscriber),
      (mapKeys L).Nodup →
      (∀ e ∈ L, ∀ r ∈ e.2, queueOpen h r.2 = true) →
      (∀ e1 ∈ L, ∀ r1 ∈ e1.2, ∀ e2 ∈ L, ∀ r2 ∈ e2.2, r1.2 = r2.2 → e1.1 = e2.1 ∧ r1.1 = r2.1) →
      ∃ h', unsubscribeAllLoop subscriberID L h = some (pruneChannels subscriberID L, h') ∧
        h'.length = h.length ∧
        ∀ q, (∀ e ∈ L, mapGet e.2 subscriberID ≠ some q) → h'[q]? = h[q]? := by
  intro L
  induction L with
  | nil =>
    intro h _ _ _
    exact ⟨h, rfl, rfl, fun _ _ => rfl⟩
  | cons e rest ih =>
    intro h hk hopen hinj
    obtain ⟨c, inner⟩ := e
    simp only [mapKeys, List.map_cons, List.nodup_cons] at hk
    have hd := @dropSubscriber_spec h inner subscriberID
      (fun p hp => hopen (c, inner) (List.mem_cons_self _ _) _ (mapGet_mem _ _ _ hp))
    have hother : ∀ e' ∈ rest, ∀ r ∈ e'.2, ∀ p, mapGet inner subscriberID = some p → r.2 ≠ p := by
      intro e' he' r hr p hp hh
      have := hinj e' (List.mem_cons_of_mem _ he') r hr (c, inner) (List.mem_cons_self _ _)
        (subscriberID, p) (mapGet_mem _ _ _ hp) hh
      apply hk.1
      have h1 : e'.1 = c := this.1
      rw [← h1]
      exact List.mem_map_of_mem Prod.fst he'
    have hopen1 : ∀ e' ∈ rest, ∀ r ∈ e'.2,
        queueOpen (match mapGet inner subscriberID with
          | some p => closeQueue h p
          | none => h) r.2 = true := by
      intro e' he' r hr
      cases hm : mapGet inner subscriberID with
      | none => exact hopen e' (List.mem_cons_of_mem _ he') r hr
      | some p =>
        simp only
        rw [queueOpen_congr (getElem?_closeQueue_other (hother e' he' r hr p hm))]
        exact hopen e' (List.mem_cons_of_mem _ he') r hr
    obtain ⟨h', hl, hlen, hq⟩ := ih _ hk.2 hopen1
      (fun e1 he1 r1 hr1 e2 he2 r2 hr2 =>
        hinj e1 (List.mem_cons_of_mem _ he1) r1 hr1 e2 (List.mem_cons_of_mem _ he2) r2 hr2)
    refine ⟨h', ?_, ?_, ?_⟩
    · rw [unsubscribeAllLoop, hd]
      simp only [hl]
      rw [pruneChannels_cons]
      split <;> rfl
    · rw [hlen]
      cases hm : mapGet inner subscriberID with
      | none => rfl
      | some p => exact length_closeQueue h p
    · intro q hqn
      rw [hq q (fun e' he' => hqn e' (List.mem_cons_of_mem _ he'))]
      cases hm : mapGet inner subscriberID with
      | none => rfl
      | some p =>
        have : q ≠ p := by
          intro hh
          apply hqn (c, inner) (List.mem_cons_self _ _)
          rw [hm, hh]
        exact getElem?_closeQueue_other this

/-- `UnsubscribeAll` on a valid broker: it does not panic and leaves the
pruned channel map. -/
theorem UnsubscribeAll_spec {ps : PubSub} (hv : ps.Valid) (subscriberID : String) :
    ∃ h', ps.UnsubscribeAll subscriberID =
        some { channels := pruneChannels subscriberID ps.channels, subs := h' } ∧
      h'.length = ps.subs.length ∧
      ∀ q, (∀ e ∈ ps.channels, mapGet e.2 subscriberID ≠ some q) → h'[q]? = ps.subs[q]? := by
  obtain ⟨h', hl, hlen, hq⟩ :=
    unsubscribeAllLoop_spec subscriberID ps.channels ps.subs hv.1 hv.2.2.1 hv.2.2.2
  refine ⟨h', ?_, hlen, hq⟩
  simp only [PubSub.UnsubscribeAll, hl]

/-- `UnsubscribeAll` keeps the invariant of the broker. -/
theorem valid_UnsubscribeAll {ps ps' : PubSub} (hv : ps.Valid) {subscriberID : String}
    (h : ps.UnsubscribeAll subscriberID = some ps') : ps'.Valid := by
  obtain ⟨h', hl, _, hq⟩ := UnsubscribeAll_spec hv subscriberID
  rw [hl] at h
  simp only [Option.some.injEq] at h
  subst h
  refine valid_of_subrecords _ hv
    (List.Nodup.sublist (mapKeys_pruneChannels_sublist _ _) hv.1) ?_ ?_
  · intro e' he'
    obtain ⟨e, he, hne, heq⟩ := mem_pruneChannels.mp he'
    subst heq
    refine ⟨?_, nodup_mapDel (hv.2.1 e he).2 _⟩
    intro hnil
    apply hne
    simp only at hnil
    rw [hnil]
    rfl
  · intro e' he' r hr
    obtain ⟨e, he, _, heq⟩ := mem_pruneChannels.mp he'
    subst heq
    obtain ⟨hr0, hrne⟩ := (mem_mapDel _ _ _).mp hr
    refine ⟨⟨e, he, rfl, hr0⟩, ?_⟩
    have : ∀ e0 ∈ ps.channels, mapGet e0.2 subscriberID ≠ some r.2 := by
      intro e0 he0 hm
      have := hv.2.2.2 e he r hr0 e0 he0 _ (mapGet_mem _ _ _ hm) rfl
      exact hrne this.2
    simp only
    rw [queueOpen_congr (hq r.2 this)]
    exact hv.2.2.1 e he r hr0

theorem nodup_pointers {ps : PubSub} (hv : ps.Valid) (channel : String) :
    ((ps.records channel).map Prod.snd).Nodup := by
  have hn := nodup_of_nodup_keys (nodup_records hv channel)
  apply List.Nodup.map_on _ hn
  intro r1 hr1 r2 hr2 hp
  have := hv.2.2.2 _ (mem_records hr1) r1 hr1 _ (mem_records hr2) r2 hr2 hp
  exact Prod.ext this.2 hp

theorem open_records {ps : PubSub} (hv : ps.Valid) (channel : String) :
    ∀ r ∈ ps.records channel, queueOpen ps.subs r.2 = true :=
  fun r hr => hv.2.2.1 _ (mem_records hr) r hr

/-- `Publish` on a valid broker: it does not panic, returns the number of
recorded subscribers whose queue has room, appends the message to exactly
those queues and leaves the channel map alone. -/
theorem Publish_spec {ps : PubSub} (hv : ps.Valid) (channel message : String) :
    ∃ h', ps.Publish channel message =
        some ({ ps with subs := h' },
          ((ps.records channel).filter (fun r => hasRoom ps.subs r.2)).length) ∧
      h'.length = ps.subs.length ∧
      ∀ q, h'[q]? =
        if q ∈ ((ps.records channel).filter (fun r => hasRoom ps.subs r.2)).map Prod.snd then
          (ps.subs[q]?).map (enqueue message)
        else ps.subs[q]? := by
  cases hm : mapGet ps.channels channel with
  | none =>
    refine ⟨ps.subs, ?_, rfl, fun q => ?_⟩
    · simp [PubSub.Publish, hm, PubSub.records]
    · simp [PubSub.records, hm]
  | some inner =>
    have hr := records_eq_of_mapGet hm
    obtain ⟨h', hl, hlen, hq⟩ := publishLoop_spec message (ps.records channel) ps.subs 0
      (open_records hv channel) (nodup_pointers hv channel)
    refine ⟨h', ?_, hlen, hq⟩
    rw [hr] at hl
    simp only [PubSub.Publish, hm, hl, hr, Nat.zero_add]

theorem queueOpen_map_enqueue {h h' : List Subscriber} {q : Nat} {message : String}
    (hq : h'[q]? = (h[q]?).map (enqueue message)) : queueOpen h' q = queueOpen h q := by
  simp only [queueOpen, hq]
  cases h[q]? <;> rfl

/-- `Publish` keeps the invariant of the broker. -/
theorem valid_Publish {ps : PubSub} (hv : ps.Valid) {channel message : String}
    {res : PubSub × Nat} (h : ps.Publish channel message = some res) : res.1.Valid := by
  obtain ⟨h', hl, _, hq⟩ := Publish_spec hv channel message
  rw [hl] at h
  simp only [Option.some.injEq] at h
  subst h
  apply valid_of_heap hv
  intro q ho
  have := hq q
  split at this
  · rw [queueOpen_map_enqueue this]; exact ho
  · rw [queueOpen_congr this]; exact ho

/-- A receive by a delivery task keeps the invariant of the broker. -/
theorem valid_deliver {ps : PubSub} (hv : ps.Valid) (p : Nat) : (ps.deliver p).1.Valid := by
  unfold PubSub.deliver
  cases hs : ps.subs[p]? with
  | none => exact hv
  | some sub =>
    cases hb : sub.Messages.buf with
    | nil => simp only [hb]; exact hv
    | cons msg rest =>
      simp only [hb]
      apply valid_of_heap hv
      intro q ho
      by_cases hqp : q = p
      · subst hqp
        obtain ⟨sub', hs', hc⟩ := queueOpen_iff.mp ho
        rw [hs] at hs'
        simp only [Option.some.injEq] at hs'
        subst hs'
        rw [queueOpen_iff]
        exact ⟨_, getElem?_set_same _ hs, hc⟩
      · rw [queueOpen_congr (getElem?_set_other _ hqp)]
        exact ho

theorem valid_NewPubSub : NewPubSub.Valid := by
  refine ⟨?_, ?_, ?_, ?_⟩ <;> simp [NewPubSub, mapKeys]

/-- On a valid broker no operation panics, and the broker stays valid. -/
theorem valid_step {ps : PubSub} (hv : ps.Valid) (op : BrokerOp) :
    ∃ ps', ps.step op = some ps' ∧ ps'.Valid := by
  cases op with
  | Subscribe channel subscriberID => exact ⟨_, rfl, valid_Subscribe hv _ _⟩
  | Unsubscribe channel subscriberID =>
    exact ⟨_, Unsubscribe_spec hv _ _, valid_Unsubscribe hv (Unsubscribe_spec hv _ _)⟩
  | UnsubscribeAll subscriberID =>
    obtain ⟨h', hl, _⟩ := UnsubscribeAll_spec hv subscriberID
    exact ⟨_, hl, valid_UnsubscribeAll hv hl⟩
  | Publish channel message =>
    obtain ⟨h', hl, _⟩ := Publish_spec hv channel message
    refine ⟨_, ?_, valid_Publish hv hl⟩
    simp only [PubSub.step, hl, Option.map_some']
  | Deliver p => exact ⟨_, rfl, valid_deliver hv p⟩

/-- From a valid broker no sequence of operations panics, and the broker
stays valid. -/
theorem valid_run (ops : List BrokerOp) :
    ∀ {ps : PubSub}, ps.Valid → ∃ ps', ps.run ops = some ps' ∧ ps'.Valid := by
  induction ops with
  | nil => intro ps hv; exact ⟨ps, rfl, hv⟩
  | cons op ops ih =>
    intro ps hv
    obtain ⟨ps1, h1, hv1⟩ := valid_step hv op
    obtain ⟨ps', h', hv'⟩ := ih hv1
    refine ⟨ps', ?_, hv'⟩
    simp only [PubSub.run, h1, h']

theorem mem_of_record {ps : PubSub} {channel subscriberID : String} {p : Nat}
    (h : ps.record channel subscriberID = some p) :
    (channel, ps.records channel) ∈ ps.channels ∧ (subscriberID, p) ∈ ps.records channel :=
  ⟨mem_records (mapGet_mem _ _ _ h), mapGet_mem _ _ _ h⟩

/-- C20: from `NewPubSub`, no sequence of `Subscribe`, `Unsubscribe`,
`UnsubscribeAll` and `Publish` calls (and of receives by the delivery tasks)
panics; in the state reached every record of the channel map is a subscriber
with an open queue, no channel entry has an empty subscriber map, and
`Publish` does not panic, that is, it sends on no closed queue. -/
theorem c20_recorded_queues_are_open (ops : List BrokerOp) :
    ∃ ps, PubSub.run NewPubSub ops = some ps ∧
      (∀ channel subscriberID p, ps.record channel subscriberID = some p →
        ∃ sub, ps.subs[p]? = some sub ∧ sub.Messages.closed = false) ∧
      (∀ channel subs, mapGet ps.channels channel = some subs → subs ≠ []) ∧
      (∀ channel message, ∃ res, ps.Publish channel message = some res) := by
  obtain ⟨ps, hrun, hv⟩ := valid_run ops valid_NewPubSub
  refine ⟨ps, hrun, ?_, ?_, ?_⟩
  · intro channel subscriberID p hrec
    obtain ⟨h1, h2⟩ := mem_of_record hrec
    exact queueOpen_iff.mp (hv.2.2.1 _ h1 _ h2)
  · intro channel subs hm
    exact (hv.2.1 _ (mapGet_mem _ _ _ hm)).1
  · intro channel message
    obtain ⟨h', hl, _⟩ := Publish_spec hv channel message
    exact ⟨_, hl⟩

/-- C13: in every state reached from `NewPubSub`, `Publish(channel, msg)`
returns the number of subscribers recorded on the channel whose queue holds
fewer than 100 messages; the message is appended at the tail of exactly those
queues and every other queue is as it was (a full queue, and the queue of any
subscriber recorded on another channel, in particular); the channel map is
unchanged; and on a channel without subscribers the result is 0. -/
theorem c13_publish_counts_queues_with_room (ops : List BrokerOp) (channel message : String) :
    ∃ ps h', PubSub.run NewPubSub ops = some ps ∧ queueDepth = 100 ∧
      ps.Publish channel message =
        some ({ channels := ps.channels, subs := h' },
          ((ps.records channel).filter (fun r => hasRoom ps.subs r.2)).length) ∧
      (∀ subscriberID p, ps.record channel subscriberID = some p →
        h'[p]? = if hasRoom ps.subs p then (ps.subs[p]?).map (enqueue message)
                 else ps.subs[p]?) ∧
      (∀ q, (∀ subscriberID, ps.record channel subscriberID ≠ some q) → h'[q]? = ps.subs[q]?) ∧
      (∀ channel1 subscriberID p, channel1 ≠ channel →
        ps.record channel1 subscriberID = some p → h'[p]? = ps.subs[p]?) ∧
      (mapGet ps.channels channel = none →
        ps.Publish channel message = some (ps, 0)) := by
  obtain ⟨ps, hrun, hv⟩ := valid_run ops valid_NewPubSub
  obtain ⟨h', hl, _, hq⟩ := Publish_spec hv channel message
  have hnot : ∀ q, (∀ subscriberID, ps.record channel subscriberID ≠ some q) →
      h'[q]? = ps.subs[q]? := by
    intro q hn
    rw [hq q, if_neg]
    intro hm
    obtain ⟨r, hr, hrq⟩ := List.mem_map.mp hm
    have hr0 := List.mem_of_mem_filter hr
    apply hn r.1
    rw [← hrq]
    exact mapGet_of_mem (nodup_records hv channel) hr0
  refine ⟨ps, h', hrun, rfl, hl, ?_, hnot, ?_, ?_⟩
  · intro subscriberID p hrec
    rw [hq p]
    have hmem := (mem_of_record hrec).2
    by_cases hroom : hasRoom ps.subs p = true
    · have : p ∈ ((ps.records channel).filter (fun r => hasRoom ps.subs r.2)).map Prod.snd :=
        List.mem_map.mpr ⟨(subscriberID, p), List.mem_filter.mpr ⟨hmem, hroom⟩, rfl⟩
      simp only [this, hroom, if_true]
    · have : p ∉ ((ps.records channel).filter (fun r => hasRoom ps.subs r.2)).map Prod.snd := by
        intro hm
        obtain ⟨r, hr, hrq⟩ := List.mem_map.mp hm
        have := (List.mem_filter.mp hr).2
        simp only [hrq] at this
        exact hroom this
      simp only [this, hroom, if_false, Bool.false_eq_true]
  · intro channel1 subscriberID p hne hrec
    apply hnot
    intro id' hrec'
    obtain ⟨h1, h2⟩ := mem_of_record hrec
    obtain ⟨h3, h4⟩ := mem_of_record hrec'
    exact hne (hv.2.2.2 _ h1 _ h2 _ h3 _ h4 rfl).1
  · intro hm
    simp [PubSub.Publish, hm]

theorem records_pruneChannels (subscriberID channel : String) :
    ∀ L : List (String × List (String × Nat)), (mapKeys L).Nodup →
      (mapGet (pruneChannels subscriberID L) channel).getD [] =
        mapDel ((mapGet L channel).getD []) subscriberID := by
  intro L
  induction L with
  | nil => intro _; rfl
  | cons e rest ih =>
    intro hk
    obtain ⟨c, inner⟩ := e
    simp only [mapKeys, List.map_cons, List.nodup_cons] at hk
    rw [pruneChannels_cons, mapGet_cons]
    by_cases hc : c = channel
    · subst hc
      simp only [if_true, Option.getD_some]
      by_cases hl : (mapDel inner subscriberID).length = 0
      · simp only [hl, if_true]
        have hnone : mapGet (pruneChannels subscriberID rest) c = none := by
          rw [mapGet_eq_none_iff]
          intro hm
          exact hk.1 ((mapKeys_pruneChannels_sublist subscriberID rest).subset hm)
        rw [hnone, List.length_eq_zero.mp hl]
        rfl
      · simp only [hl, if_false, mapGet_cons, if_true, Option.getD_some]
    · simp only [hc, if_false]
      by_cases hl : (mapDel inner subscriberID).length = 0
      · simp only [hl, if_true]
        exact ih hk.2
      · simp only [hl, if_false, mapGet_cons, hc]
        exact ih hk.2

/-- C15: in every state reached from `NewPubSub`, `UnsubscribeAll(id)` does
not panic; afterwards no channel has a record for `id`, no channel entry has an
empty subscriber map, and for every other subscriber-id the record on every
channel is the one it was, with its queue as it was. -/
theorem c15_unsubscribe_all_removes_only_id (ops : List BrokerOp) (subscriberID : String) :
    ∃ ps ps', PubSub.run NewPubSub ops = some ps ∧
      ps.UnsubscribeAll subscriberID = some ps' ∧
      (∀ channel, ps'.record channel subscriberID = none) ∧
      (∀ channel subs, mapGet ps'.channels channel = some subs → subs ≠ []) ∧
      (∀ channel other, other ≠ subscriberID →
        ps'.record channel other = ps.record channel other ∧
        ∀ p, ps.record channel other = some p → ps'.subs[p]? = ps.subs[p]?) := by
  obtain ⟨ps, hrun, hv⟩ := valid_run ops valid_NewPubSub
  obtain ⟨h', hl, _, hq⟩ := UnsubscribeAll_spec hv subscriberID
  have hv' := valid_UnsubscribeAll hv hl
  have hrec : ∀ channel, PubSub.records
      { channels := pruneChannels subscriberID ps.channels, subs := h' } channel =
      mapDel (ps.records channel) subscriberID :=
    fun channel => records_pruneChannels subscriberID channel ps.channels hv.1
  refine ⟨ps, _, hrun, hl, ?_, ?_, ?_⟩
  · intro channel
    simp only [PubSub.record, hrec, mapGet_mapDel, if_true]
  · intro channel subs hm
    exact (hv'.2.1 _ (mapGet_mem _ _ _ hm)).1
  · intro channel other hne
    refine ⟨?_, fun p hp => ?_⟩
    · simp only [PubSub.record, hrec, mapGet_mapDel, Ne.symm hne, if_false]
    · apply hq
      intro e he hm
      obtain ⟨h1, h2⟩ := mem_of_record hp
      exact hne (hv.2.2.2 _ h1 _ h2 e he _ (mapGet_mem _ _ _ hm) rfl).2

theorem run_append (ops : List BrokerOp) (op : BrokerOp) :
    ∀ ps : PubSub, ps.run (ops ++ [op]) = (ps.run ops).bind (fun ps1 => ps1.step op) := by
  induction ops with
  | nil =>
    intro ps
    simp only [List.nil_append, PubSub.run, Option.some_bind]
    cases ps.step op <;> rfl
  | cons o ops ih =>
    intro ps
    simp only [List.cons_append, PubSub.run]
    cases ps.step o with
    | none => rfl
    | some ps1 => exact ih ps1

theorem specSubscribed_append (channel subscriberID : String) (ops : List BrokerOp)
    (op : BrokerOp) :
    specSubscribed channel subscriberID (ops ++ [op]) =
      specSubscribedStep channel subscriberID (specSubscribed channel subscriberID ops) op := by
  simp only [specSubscribed, List.foldl_append, List.foldl_cons, List.foldl_nil]

theorem records_Subscribe (ps : PubSub) (c i channel : String) :
    (ps.Subscribe c i).1.records channel =
      if c = channel then mapPut (ps.records channel) i ps.subs.length
      else ps.records channel := by
  rw [Subscribe_eq]
  simp only [PubSub.records, mapGet_mapPut]
  by_cases hc : c = channel
  · subst hc; simp
  · simp [hc]

theorem records_Unsubscribe {ps ps' : PubSub} (hv : ps.Valid) {c i : String}
    (h : ps.Unsubscribe c i = some ps') (channel : String) :
    ps'.records channel =
      if c = channel then mapDel (ps.records channel) i else ps.records channel := by
  rw [Unsubscribe_spec hv] at h
  simp only [Option.some.injEq] at h
  subst h
  show (mapGet _ channel).getD [] = _
  by_cases hnone : mapGet ps.channels c = none
  · rw [if_pos hnone]
    by_cases hc : c = channel
    · subst hc
      rw [if_pos rfl]
      simp only [PubSub.records, hnone, Option.getD_none]
      rfl
    · rw [if_neg hc]
      rfl
  · rw [if_neg hnone]
    by_cases hl : (mapDel (ps.records c) i).length = 0
    · rw [if_pos hl, mapGet_mapDel]
      by_cases hc : c = channel
      · subst hc
        rw [if_pos rfl, if_pos rfl, List.length_eq_zero.mp hl]
        rfl
      · rw [if_neg hc, if_neg hc]
        rfl
    · rw [if_neg hl, mapGet_mapPut]
      by_cases hc : c = channel
      · subst hc
        rw [if_pos rfl, if_pos rfl]
        rfl
      · rw [if_neg hc, if_neg hc]
        rfl

theorem records_UnsubscribeAll {ps ps' : PubSub} (hv : ps.Valid) {i : String}
    (h : ps.UnsubscribeAll i = some ps') (channel : String) :
    ps'.records channel = mapDel (ps.records channel) i := by
  obtain ⟨h', hl, _⟩ := UnsubscribeAll_spec hv i
  rw [hl] at h
  simp only [Option.some.injEq] at h
  subst h
  exact records_pruneChannels i channel ps.channels hv.1

theorem records_Publish {ps : PubSub} (hv : ps.Valid) {c m : String} {res : PubSub × Nat}
    (h : ps.Publish c m = some res) (channel : String) :
    res.1.records channel = ps.records channel := by
  obtain ⟨h', hl, _⟩ := Publish_spec hv c m
  rw [hl] at h
  simp only [Option.some.injEq] at h
  subst h
  rfl

theorem records_deliver (ps : PubSub) (p : Nat) (channel : String) :
    (ps.deliver p).1.records channel = ps.records channel := by
  unfold PubSub.deliver
  cases ps.subs[p]? with
  | none => rfl
  | some sub =>
    cases hb : sub.Messages.buf with
    | nil => simp only [hb]
    | cons msg rest => simp only [hb]; rfl

/-- How an operation changes whether a pair is recorded. -/
theorem record_step {ps ps' : PubSub} (hv : ps.Valid) {op : BrokerOp}
    (h : ps.step op = some ps') (channel subscriberID : String) :
    (ps'.record channel subscriberID).isSome =
      specSubscribedStep channel subscriberID (ps.record channel subscriberID).isSome op := by
  cases op with
  | Subscribe c i =>
    simp only [PubSub.step, Option.some.injEq] at h
    subst h
    simp only [PubSub.record, records_Subscribe, specSubscribedStep]
    by_cases hc : c = channel
    · by_cases hi : i = subscriberID
      · simp [hc, hi, mapGet_mapPut]
      · simp [hc, hi, mapGet_mapPut]
    · simp [hc]
  | Unsubscribe c i =>
    simp only [PubSub.step] at h
    simp only [PubSub.record, records_Unsubscribe hv h, specSubscribedStep]
    by_cases hc : c = channel
    · by_cases hi : i = subscriberID
      · simp [hc, hi, mapGet_mapDel]
      · simp [hc, hi, mapGet_mapDel]
    · simp [hc]
  | UnsubscribeAll i =>
    simp only [PubSub.step] at h
    simp only [PubSub.record, records_UnsubscribeAll hv h, specSubscribedStep, mapGet_mapDel]
    by_cases hi : i = subscriberID
    · simp [hi]
    · simp [hi]
  | Publish c m =>
    simp only [PubSub.step] at h
    cases hp : ps.Publish c m with
    | none => rw [hp] at h; simp at h
    | some res =>
      rw [hp] at h
      simp only [Option.map_some', Option.some.injEq] at h
      subst h
      simp only [PubSub.record, records_Publish hv hp, specSubscribedStep]
  | Deliver p =>
    simp only [PubSub.step, Option.some.injEq] at h
    subst h
    simp only [PubSub.record, records_deliver, specSubscribedStep]

/-- The records of a reached state are the pairs that count as subscribed. -/
theorem record_run (ops : List BrokerOp) :
    ∀ ps, PubSub.run NewPubSub ops = some ps → ∀ channel subscriberID,
      (ps.record channel subscriberID).isSome = specSubscribed channel subscriberID ops := by
  induction ops using List.reverseRecOn with
  | nil =>
    intro ps h channel subscriberID
    simp only [PubSub.run, Option.some.injEq] at h
    subst h
    rfl
  | append_singleton ops op ih =>
    intro ps h channel subscriberID
    rw [run_append] at h
    obtain ⟨ps0, h0, hv0⟩ := valid_run ops valid_NewPubSub
    rw [h0] at h
    simp only [Option.some_bind] at h
    rw [specSubscribed_append, ← ih ps0 h0 channel subscriberID]
    exact record_step hv0 h channel subscriberID

theorem SubscriberCount_eq (ps : PubSub) (channel : String) :
    ps.SubscriberCount channel = (ps.records channel).length := by
  unfold PubSub.SubscriberCount PubSub.records
  cases mapGet ps.channels channel <;> rfl

theorem subscribedIds_append (channel : String) (ops : List BrokerOp) (op : BrokerOp) :
    subscribedIds channel (ops ++ [op]) = subscribedIds channel ops ++ subscribedIds channel [op] := by
  simp only [subscribedIds, List.filterMap_append]

/-- A pair that counts as subscribed was subscribed by some operation. -/
theorem mem_subscribedIds_of_specSubscribed (channel subscriberID : String)
    (ops : List BrokerOp) :
    specSubscribed channel subscriberID ops = true → subscriberID ∈ subscribedIds channel ops := by
  induction ops using List.reverseRecOn with
  | nil => intro h; simp [specSubscribed] at h
  | append_singleton ops op ih =>
    intro h
    rw [specSubscribed_append] at h
    rw [subscribedIds_append, List.mem_append]
    cases op with
    | Subscribe c i =>
      simp only [specSubscribedStep] at h
      by_cases hci : c = channel ∧ i = subscriberID
      · right
        simp [subscribedIds, hci.1, hci.2]
      · rw [if_neg hci] at h
        exact Or.inl (ih h)
    | Unsubscribe c i =>
      simp only [specSubscribedStep] at h
      by_cases hci : c = channel ∧ i = subscriberID
      · rw [if_pos hci] at h
        exact absurd h (by decide)
      · rw [if_neg hci] at h
        exact Or.inl (ih h)
    | UnsubscribeAll i =>
      simp only [specSubscribedStep] at h
      by_cases hi : i = subscriberID
      · rw [if_pos hi] at h
        exact absurd h (by decide)
      · rw [if_neg hi] at h
        exact Or.inl (ih h)
    | Publish c m => exact Or.inl (ih h)
    | Deliver p => exact Or.inl (ih h)

/-- `SubscriberCount` in a reached state is the count of the spec. -/
theorem SubscriberCount_run {ops : List BrokerOp} {ps : PubSub}
    (h : PubSub.run NewPubSub ops = some ps) (channel : String) :
    ps.SubscriberCount channel = specSubscriberCount channel ops := by
  obtain ⟨ps0, h0, hv⟩ := valid_run ops valid_NewPubSub
  rw [h] at h0
  simp only [Option.some.injEq] at h0
  subst h0
  rw [SubscriberCount_eq, specSubscriberCount]
  have hlen : (ps.records channel).length = (mapKeys (ps.records channel)).length := by
    simp [mapKeys]
  rw [hlen]
  apply List.Perm.length_eq
  rw [List.perm_ext_iff_of_nodup (nodup_records hv channel)
    (List.Nodup.filter _ (List.nodup_dedup _))]
  intro i
  have hrec := record_run ops ps h channel i
  simp only [List.mem_filter, List.mem_dedup]
  constructor
  · intro hi
    have hsome : (ps.record channel i).isSome = true := by
      unfold PubSub.record
      cases hm : mapGet (ps.records channel) i with
      | none => exact absurd hi ((mapGet_eq_none_iff _ _).mp hm)
      | some p => rfl
    rw [hrec] at hsome
    exact ⟨mem_subscribedIds_of_specSubscribed channel i ops hsome, hsome⟩
  · rintro ⟨_, hs⟩
    rw [← hrec] at hs
    by_contra hni
    have := (mapGet_eq_none_iff _ _).mpr hni
    simp only [PubSub.record, this] at hs
    exact absurd hs (by decide)

theorem length_mapDel_of_some {β : Type} {m : List (String × β)} (hn : (mapKeys m).Nodup)
    {k : String} {b : β} (h : mapGet m k = some b) : (mapDel m k).length + 1 = m.length := by
  induction m with
  | nil => simp [mapGet] at h
  | cons e m ih =>
    obtain ⟨a, b'⟩ := e
    simp only [mapKeys, List.map_cons, List.nodup_cons] at hn
    rw [mapGet_cons] at h
    by_cases ha : a = k
    · subst ha
      have hnone : mapGet m a = none := (mapGet_eq_none_iff _ _).mpr hn.1
      have : mapDel ((a, b') :: m) a = mapDel m a := by
        simp [mapDel]
      rw [this, mapDel_of_none hnone]
      rfl
    · rw [if_neg ha] at h
      have : mapDel ((a, b') :: m) k = (a, b') :: mapDel m k := by
        simp [mapDel, ha]
      rw [this]
      simp only [List.length_cons]
      have := ih hn.2 h
      omega

/-- C14: in every state reached from `NewPubSub` by a sequence of broker
operations, `SubscriberCount(ch)` is, for every channel, the number of
distinct subscriber-ids that have subscribed to `ch` and have not since been
removed by `Unsubscribe(ch, id)` or `UnsubscribeAll(id)`. In such a state
`Unsubscribe(ch, id)` does not panic; when `(ch, id)` is recorded it lowers
`SubscriberCount(ch)` by one, and the channel entry is gone when the count
reaches zero; when `(ch, id)` is not recorded the queues and every entry of the
channel map are as they were. -/
theorem c14_subscriber_count_tracks_history (ops : List BrokerOp)
    (channel subscriberID : String) :
    ∃ ps ps', PubSub.run NewPubSub ops = some ps ∧
      (∀ ch, ps.SubscriberCount ch = specSubscriberCount ch ops) ∧
      ps.Unsubscribe channel subscriberID = some ps' ∧
      (if (ps.record channel subscriberID).isSome then
        ps'.SubscriberCount channel + 1 = ps.SubscriberCount channel ∧
        (ps'.SubscriberCount channel = 0 → mapGet ps'.channels channel = none)
       else
        ps'.subs = ps.subs ∧ ∀ ch, mapGet ps'.channels ch = mapGet ps.channels ch) := by
  obtain ⟨ps, hrun, hv⟩ := valid_run ops valid_NewPubSub
  have hU := Unsubscribe_spec hv channel subscriberID
  refine ⟨ps, _, hrun, fun ch => SubscriberCount_run hrun ch, hU, ?_⟩
  have hrecs0 := records_Unsubscribe hv hU channel
  rw [if_pos rfl] at hrecs0
  have hrecs : ∀ Y : List Subscriber, PubSub.records
      { channels := if mapGet ps.channels channel = none then ps.channels
          else if (mapDel (ps.records channel) subscriberID).length = 0 then
            mapDel ps.channels channel
          else mapPut ps.channels channel (mapDel (ps.records channel) subscriberID),
        subs := Y } channel = mapDel (ps.records channel) subscriberID := fun _ => hrecs0
  cases hrec : ps.record channel subscriberID with
  | some p =>
    simp only [Option.isSome_some, if_true]
    have hlen := length_mapDel_of_some (nodup_records hv channel) hrec
    refine ⟨?_, ?_⟩
    · rw [SubscriberCount_eq, SubscriberCount_eq, hrecs]
      exact hlen
    · intro h0
      rw [SubscriberCount_eq, hrecs] at h0
      have hsome : ¬ (mapGet ps.channels channel = none) := by
        intro hn
        have : ps.records channel = [] := by simp [PubSub.records, hn]
        simp [PubSub.record, this, mapGet] at hrec
      show mapGet (if mapGet ps.channels channel = none then ps.channels
        else if (mapDel (ps.records channel) subscriberID).length = 0 then
          mapDel ps.channels channel
        else mapPut ps.channels channel (mapDel (ps.records channel) subscriberID)) channel
        = none
      rw [if_neg hsome, if_pos h0, mapGet_mapDel, if_pos rfl]
  | none =>
    simp only [Option.isSome_none, Bool.false_eq_true, if_false]
    refine ⟨trivial, fun ch => ?_⟩
    show mapGet (if mapGet ps.channels channel = none then ps.channels
      else if (mapDel (ps.records channel) subscriberID).length = 0 then
        mapDel ps.channels channel
      else mapPut ps.channels channel (mapDel (ps.records channel) subscriberID)) ch
      = mapGet ps.channels ch
    by_cases hnone : mapGet ps.channels channel = none
    · rw [if_pos hnone]
    · rw [if_neg hnone]
      cases hm : mapGet ps.channels channel with
      | none => exact absurd hm hnone
      | some inner =>
        have hr : ps.records channel = inner := records_eq_of_mapGet hm
        have hdel : mapDel (ps.records channel) subscriberID = ps.records channel :=
          mapDel_of_none hrec
        have hne : ¬ ((ps.records channel).length = 0) := by
          rw [hr]
          intro h0
          exact (hv.2.1 _ (mapGet_mem _ _ _ hm)).1 (List.length_eq_zero.mp h0)
        rw [hdel, if_neg hne, mapGet_mapPut, hr]
        by_cases hc : channel = ch
        · subst hc
          rw [if_pos rfl, hm]
        · rw [if_neg hc]

/-- C21 (the code at the failing input): a connection that sends `REPLCONF`
twice and then reaches the end of its input is still in the replica list after
the handler has returned, `ReplicaCount()` is 1, and `INFO` on another
connection reports `replicas:1`; with a single `REPLCONF` the list is empty
afterwards. -/
theorem c21_second_replconf_leaves_connection_listed :
    (handleConnection id 7 "client-1" (NewServer 6379 FileContent.missing) false
        [(quietEnv, "REPLCONF listening-port 6380\n"),
         (quietEnv, "REPLCONF capa psync2\n")]).map
      (fun s => (s.repl.replicas, s.repl.ReplicaCount)) = some ([7], 1) ∧
    ((handleConnection id 7 "client-1" (NewServer 6379 FileContent.missing) false
        [(quietEnv, "REPLCONF listening-port 6380\n"),
         (quietEnv, "REPLCONF capa psync2\n")]).bind
      (fun s => handleLine id s 8 "client-2" false quietEnv "INFO\n")).map
        (fun o => o.output)
      = some (some "role:master\nreplicas:1\n") ∧
    (handleConnection id 7 "client-1" (NewServer 6379 FileContent.missing) false
        [(quietEnv, "REPLCONF listening-port 6380\n")]).map
      (fun s => (s.repl.replicas, s.repl.ReplicaCount)) = some ([], 0) := by
  decide

/-- On a state with a capacity of at most zero that holds at most one element,
`Set(k, v)` leaves exactly the key `k`, and it reports an eviction exactly when
the state held another key, which is then the evicted key. -/
theorem Set_nonpositive {c : Cache} (hwf : c.WF) (hcap : c.capacity ≤ 0)
    (hlen : c.order.length ≤ 1) (k v : String) :
    (c.Set k v).1.Keys = [k] ∧
    ((c.Keys = [] ∧ (c.Set k v).2 = ("", false)) ∨
     (c.Keys = [k] ∧ (c.Set k v).2 = ("", false)) ∨
     (∃ k0, k0 ≠ k ∧ c.Keys = [k0] ∧ (c.Set k v).2 = (k0, true))) := by
  rcases Set_cases c k v with ⟨id, hid, he⟩ | ⟨hk, hroom, he⟩ | ⟨oldest, hk, _, ho, he⟩
  · have hmem : k ∈ c.Keys := (wf_mem_keys hwf k).mpr ⟨id, hid⟩
    have hkeys : c.Keys = [k] := by
      unfold Cache.Keys at hmem ⊢
      cases hc : c.order with
      | nil => rw [hc] at hmem; simp at hmem
      | cons x l =>
        rw [hc] at hmem hlen
        have hl : l = [] := by
          cases l with
          | nil => rfl
          | cons y l => simp at hlen
        subst hl
        simp only [List.map_cons, List.map_nil, List.mem_singleton] at hmem
        simp [hmem]
    obtain ⟨e, _, hek, hid', hmove, hrem, _⟩ := wf_present hwf hmem
    have hide : id = e.id := by
      rw [hid] at hid'
      exact Option.some.inj hid'
    subst hide
    refine ⟨?_, Or.inr (Or.inl ⟨hkeys, by rw [he]⟩)⟩
    rw [he]
    show (listSetValue e.id v (listMoveToFront e.id c.order)).map Element.key = [k]
    rw [map_key_listSetValue, hmove, List.map_cons, hrem, hkeys, hek]
    simp
  · have hnil : c.order = [] := by
      rcases hroom with h | h
      · have : (0 : Int) ≤ (c.order.length : Int) := Int.natCast_nonneg _
        omega
      · exact h
    refine ⟨?_, Or.inl ⟨by simp [Cache.Keys, hnil], by rw [he]⟩⟩
    rw [he]
    simp [Cache.Keys, Cache.pushFront, hnil]
  · have hord : c.order = [oldest] := by
      cases hc : c.order with
      | nil => rw [hc] at ho; simp at ho
      | cons x l =>
        rw [hc] at ho hlen
        have hl : l = [] := by
          cases l with
          | nil => rfl
          | cons y l => simp at hlen
        subst hl
        simp at ho
        rw [ho]
    have hne : oldest.key ≠ k := by
      intro h
      have := hwf.2.2 oldest (by rw [hord]; simp)
      rw [h, hk] at this
      exact Option.noConfusion this
    refine ⟨?_, Or.inr (Or.inr ⟨oldest.key, hne, by simp [Cache.Keys, hord], by rw [he]⟩)⟩
    rw [he]
    simp [Cache.Keys, Cache.pushFront, Cache.evict, hord, listRemove]

/-- C22: for every integer capacity `C` and every state reached from
`NewCache(C)` by `Set`, `Get` and `Del` calls, `Len() ≤ max(C, 1)`; and when
`C ≤ 0` (the alternative to `1 ≤ C`), a further `Set(k, v)` leaves `Keys()`
equal to `[k]` and `Len()` equal to 1, `Get(k)` then returns `v`, and the call
reports no eviction when the cache was empty or held `k`, and otherwise reports
the eviction of the one key `k0` that it held, which `Get` no longer finds. -/
theorem c22_nonpositive_capacity_keeps_latest_key (C : Int) (ops : List Op) (k v : String) :
    ((NewCache C).run ops).Len ≤ max C 1 ∧
    (1 ≤ C ∨
      ((((NewCache C).run ops).Set k v).1.Keys = [k] ∧
       (((NewCache C).run ops).Set k v).1.Len = 1 ∧
       ((((NewCache C).run ops).Set k v).1.Get k).2 = (v, true) ∧
       ((((NewCache C).run ops).Keys = [] ∧
          (((NewCache C).run ops).Set k v).2 = ("", false)) ∨
        (((NewCache C).run ops).Keys = [k] ∧
          (((NewCache C).run ops).Set k v).2 = ("", false)) ∨
        (∃ k0, k0 ≠ k ∧ ((NewCache C).run ops).Keys = [k0] ∧
          (((NewCache C).run ops).Set k v).2 = (k0, true) ∧
          ((((NewCache C).run ops).Set k v).1.Get k0).2 = ("", false))))) := by
  refine ⟨len_run_le C ops, ?_⟩
  by_cases hC : 1 ≤ C
  · exact Or.inl hC
  · right
    have hwf : ((NewCache C).run ops).WF := wf_run ops (wf_NewCache C)
    have hcap : ((NewCache C).run ops).capacity ≤ 0 := by
      rw [capacity_run]
      show C ≤ 0
      omega
    have hlen : ((NewCache C).run ops).order.length ≤ 1 := by
      have := len_run_le C ops
      unfold Cache.Len at this
      have hm : max C 1 = 1 := max_eq_right (by omega)
      rw [hm] at this
      exact_mod_cast this
    generalize (NewCache C).run ops = c at hwf hcap hlen
    obtain ⟨hkeys, hcases⟩ := Set_nonpositive hwf hcap hlen k v
    have hwf' := wf_Set hwf k v
    refine ⟨hkeys, ?_, ?_, ?_⟩
    · have := congrArg List.length hkeys
      simp only [Cache.Keys, List.length_map, List.length_singleton] at this
      simp [Cache.Len, this]
    · rw [Get_result, value_Set_self hwf.1]
    · rcases hcases with h | h | ⟨k0, hne, h1, h2⟩
      · exact Or.inl h
      · exact Or.inr (Or.inl h)
      · refine Or.inr (Or.inr ⟨k0, hne, h1, h2, ?_⟩)
        have hnot : k0 ∉ (c.Set k v).1.Keys := by
          rw [hkeys]
          simpa using hne
        have := (wf_not_mem_keys hwf' k0).mp hnot
        rw [Get_result, mapGet_GetAllData, this]
        rfl
